import Mathlib

/-!
# NanohaMini static evaluation (`evaluate.cpp`)

A shallow embedding of the full-table evaluator of `src/evaluate.cpp`
(the build without `EVAL_MICRO`), of its material-only variant, of the
feature-list builder `Position::make_list` and of the material scan
`Position::compute_material`.

Conventions of the embedding.

* C `int` and `short` values are Lean `Int`.  The evaluator is given twice.
  `evalSum32` and `evaluate32` follow the code in the arithmetic of `int`:
  every operation is reduced to the range `[-2^31, 2^31)`, as the compiled code
  does (signed overflow is undefined in C++), and the lists live in the arrays
  `list0[NLIST]`, `list1[NLIST]`, so there is no value when `make_list` returns
  more than `NLIST` entries.  `evalSum` and `evaluate` form the same sums over
  the integers; this is the value of the code when the lists fit the arrays and
  no result leaves the range of `int` (`evalSum32_eq`, `evaluate32_exact`).
  The sign relation, the value on zero tables and the mirror symmetry are also
  given in `int` arithmetic (`evaluate32_white`, `evaluate32_zero_tables`,
  `evaluate32_mirror`).
* The weight tables are total functions of their indices.
* `list0[n] = a; list1[n++] = b;` is modelled as appending `a` and `b` to two
  lists; the counter `n` / `nlist` is the common length of the lists.
* The contents of `position.h` and `param_new.h` are not part of the source
  under study: the packed hand encoding, the piece-number ranges and the
  material constants are parameters of the definitions that use them.
* The weight file is a list of bytes; `fopen` and `malloc` are taken to
  succeed, `sizeof(short) = 2`, `sizeof(int) = 4`, and the representation of a
  cell as bytes is a parameter.
-/

namespace Nanoha

/-! ## Data model -/

/-- Side to move / owner of a piece. -/
inductive Color where
  | BLACK
  | WHITE
  deriving DecidableEq, Repr

/-- The opposite colour. -/
def Color.flip : Color → Color
  | .BLACK => .WHITE
  | .WHITE => .BLACK

/-- Board codes: the named values of the piece type that `make_list` and
`compute_material` distinguish.  `S..` pieces belong to Black (sente), `G..`
pieces to White (gote). -/
inductive Piece where
  | EMP | WALL | PIECE_NONE
  | SFU | SKY | SKE | SGI | SKI | SKA | SHI | SOU
  | STO | SNY | SNK | SNG | SUM | SRY
  | GFU | GKY | GKE | GGI | GKI | GKA | GHI | GOU
  | GTO | GNY | GNK | GNG | GUM | GRY
  deriving DecidableEq, Repr

/-- Owner swap of a board code; empty squares and walls are unowned. -/
def Piece.flip : Piece → Piece
  | .EMP => .EMP | .WALL => .WALL | .PIECE_NONE => .PIECE_NONE
  | .SFU => .GFU | .SKY => .GKY | .SKE => .GKE | .SGI => .GGI | .SKI => .GKI
  | .SKA => .GKA | .SHI => .GHI | .SOU => .GOU
  | .STO => .GTO | .SNY => .GNY | .SNK => .GNK | .SNG => .GNG
  | .SUM => .GUM | .SRY => .GRY
  | .GFU => .SFU | .GKY => .SKY | .GKE => .SKE | .GGI => .SGI | .GKI => .SKI
  | .GKA => .SKA | .GHI => .SHI | .GOU => .SOU
  | .GTO => .STO | .GNY => .SNY | .GNK => .SNK | .GNG => .SNG
  | .GUM => .SUM | .GRY => .SRY

/-- Source text `#define NLIST 52`. -/
def NLIST : Nat := 52

/-- Source text `#define FV_SCALE 32`. -/
def FV_SCALE : Int := 32

/-- Source text `enum { ..., nsquare = 81 }`. -/
def nsquare : Int := 81

/-- Source text `#define Inv(sq) (nsquare-1-sq)`. -/
def Inv (sq : Int) : Int := nsquare - 1 - sq

/-! Piece kinds of the anonymous enum (`promote = 8, EMPTY = 0, pawn, ...`). -/

def pawn : Nat := 1
def lance : Nat := 2
def knight : Nat := 3
def silver : Nat := 4
def gold : Nat := 5
def bishop : Nat := 6
def rook : Nat := 7
def king : Nat := 8
def pro_pawn : Nat := 9
def pro_lance : Nat := 10
def pro_knight : Nat := 11
def pro_silver : Nat := 12
def piece_null : Nat := 13
def horse : Nat := 14
def dragon : Nat := 15

/-! Feature bases (`enum { f_hand_pawn = 0, ... fe_end = 1476 }`). -/

def f_hand_pawn : Int := 0
def e_hand_pawn : Int := 19
def f_hand_lance : Int := 38
def e_hand_lance : Int := 43
def f_hand_knight : Int := 48
def e_hand_knight : Int := 53
def f_hand_silver : Int := 58
def e_hand_silver : Int := 63
def f_hand_gold : Int := 68
def e_hand_gold : Int := 73
def f_hand_bishop : Int := 78
def e_hand_bishop : Int := 81
def f_hand_rook : Int := 84
def e_hand_rook : Int := 87
def fe_hand_end : Int := 90
def f_pawn : Int := 81
def e_pawn : Int := 162
def f_lance : Int := 225
def e_lance : Int := 306
def f_knight : Int := 360
def e_knight : Int := 441
def f_silver : Int := 504
def e_silver : Int := 585
def f_gold : Int := 666
def e_gold : Int := 747
def f_bishop : Int := 828
def e_bishop : Int := 909
def f_horse : Int := 990
def e_horse : Int := 1071
def f_rook : Int := 1152
def e_rook : Int := 1233
def f_dragon : Int := 1314
def e_dragon : Int := 1395
def fe_end : Int := 1476

/-- The table `NanohaTbl::z2sq`, ten rows of sixteen entries. -/
def z2sqTbl : List Int :=
  [ -1, -1, -1, -1, -1, -1, -1, -1, -1, -1, -1, -1, -1, -1, -1, -1,
    -1,  0,  9, 18, 27, 36, 45, 54, 63, 72, -1, -1, -1, -1, -1, -1,
    -1,  1, 10, 19, 28, 37, 46, 55, 64, 73, -1, -1, -1, -1, -1, -1,
    -1,  2, 11, 20, 29, 38, 47, 56, 65, 74, -1, -1, -1, -1, -1, -1,
    -1,  3, 12, 21, 30, 39, 48, 57, 66, 75, -1, -1, -1, -1, -1, -1,
    -1,  4, 13, 22, 31, 40, 49, 58, 67, 76, -1, -1, -1, -1, -1, -1,
    -1,  5, 14, 23, 32, 41, 50, 59, 68, 77, -1, -1, -1, -1, -1, -1,
    -1,  6, 15, 24, 33, 42, 51, 60, 69, 78, -1, -1, -1, -1, -1, -1,
    -1,  7, 16, 25, 34, 43, 52, 61, 70, 79, -1, -1, -1, -1, -1, -1,
    -1,  8, 17, 26, 35, 44, 53, 62, 71, 80, -1, -1, -1, -1, -1, -1 ]

/-- The lookup `NanohaTbl::z2sq[z]`.  The table has 160 entries; an index past
its end (never formed by the code for a king on the board or a scanned
square) reads as the sentinel. -/
def z2sq (z : Nat) : Int := z2sqTbl.getD z (-1)

/-- Modelled from the spec: the loop bounds `FILE_1`, `FILE_9`, `RANK_1`,
`RANK_9` of `position.h`, the files and ranks 1..9 of the 9x9 grid. -/
def FILE_1 : Nat := 1

/-- Modelled from the spec: last file of the 9x9 grid (`position.h`). -/
def FILE_9 : Nat := 9

/-- Modelled from the spec: first rank of the 9x9 grid (`position.h`). -/
def RANK_1 : Nat := 1

/-- Modelled from the spec: last rank of the 9x9 grid (`position.h`). -/
def RANK_9 : Nat := 9

/-- The bit layout of a packed hand word (`HAND_xx_MASK`, `HAND_xx_SHIFT` of
`position.h`), a parameter of the embedding. -/
structure HandLayout where
  HAND_FU_MASK : Nat
  HAND_FU_SHIFT : Nat
  HAND_KY_MASK : Nat
  HAND_KY_SHIFT : Nat
  HAND_KE_MASK : Nat
  HAND_KE_SHIFT : Nat
  HAND_GI_MASK : Nat
  HAND_GI_SHIFT : Nat
  HAND_KI_MASK : Nat
  HAND_KI_SHIFT : Nat
  HAND_KA_MASK : Nat
  HAND_KA_SHIFT : Nat
  HAND_HI_MASK : Nat
  HAND_HI_SHIFT : Nat

/-- Source text `#define I2HandPawn(hand) (((hand) & HAND_FU_MASK) >> HAND_FU_SHIFT)`. -/
def I2HandPawn (L : HandLayout) (hand : Nat) : Nat :=
  (hand &&& L.HAND_FU_MASK) >>> L.HAND_FU_SHIFT

/-- Source text `#define I2HandLance(hand) (((hand) & HAND_KY_MASK) >> HAND_KY_SHIFT)`. -/
def I2HandLance (L : HandLayout) (hand : Nat) : Nat :=
  (hand &&& L.HAND_KY_MASK) >>> L.HAND_KY_SHIFT

/-- Source text `#define I2HandKnight(hand) (((hand) & HAND_KE_MASK) >> HAND_KE_SHIFT)`. -/
def I2HandKnight (L : HandLayout) (hand : Nat) : Nat :=
  (hand &&& L.HAND_KE_MASK) >>> L.HAND_KE_SHIFT

/-- Source text `#define I2HandSilver(hand) (((hand) & HAND_GI_MASK) >> HAND_GI_SHIFT)`. -/
def I2HandSilver (L : HandLayout) (hand : Nat) : Nat :=
  (hand &&& L.HAND_GI_MASK) >>> L.HAND_GI_SHIFT

/-- Source text `#define I2HandGold(hand) (((hand) & HAND_KI_MASK) >> HAND_KI_SHIFT)`. -/
def I2HandGold (L : HandLayout) (hand : Nat) : Nat :=
  (hand &&& L.HAND_KI_MASK) >>> L.HAND_KI_SHIFT

/-- Source text `#define I2HandBishop(hand) (((hand) & HAND_KA_MASK) >> HAND_KA_SHIFT)`. -/
def I2HandBishop (L : HandLayout) (hand : Nat) : Nat :=
  (hand &&& L.HAND_KA_MASK) >>> L.HAND_KA_SHIFT

/-- Source text `#define I2HandRook(hand) (((hand) & HAND_HI_MASK) >> HAND_HI_SHIFT)`. -/
def I2HandRook (L : HandLayout) (hand : Nat) : Nat :=
  (hand &&& L.HAND_HI_MASK) >>> L.HAND_HI_SHIFT

/-- The part of `Position` that `evaluate.cpp` reads: the board `ban[z]`
indexed by the coordinate `z = (file << 4) + rank`, the piece inventory
`knkind[i]`, the king coordinates `kingS` (Black) and `kingG` (White), the
packed hands `hand[c].h` and the stored material balance `material`. -/
structure Position where
  ban : Nat → Piece
  knkind : Nat → Piece
  kingS : Nat
  kingG : Nat
  hand : Color → Nat
  material : Int

/-- Source text `#define SQ_BKING NanohaTbl::z2sq[kingS]`. -/
def SQ_BKING (pos : Position) : Int := z2sq pos.kingS

/-- Source text `#define SQ_WKING NanohaTbl::z2sq[kingG]`. -/
def SQ_WKING (pos : Position) : Int := z2sq pos.kingG

/-- Source text `#define HAND_B (this->hand[BLACK].h)`. -/
def HAND_B (pos : Position) : Nat := pos.hand Color.BLACK

/-- Source text `#define HAND_W (this->hand[WHITE].h)`. -/
def HAND_W (pos : Position) : Nat := pos.hand Color.WHITE

/-- Source text `#define MATERIAL (this->material)`. -/
def MATERIAL (pos : Position) : Int := pos.material

/-! ## `Position::make_list` -/

/-- The two output arrays `list0`, `list1` of `make_list`, filled in step. -/
structure Lists where
  list0 : List Int
  list1 : List Int
  deriving DecidableEq, Repr

/-- Source text `list0[n] = a; list1[n++] = b;`. -/
def Lists.push (st : Lists) (a b : Int) : Lists :=
  { list0 := st.list0 ++ [a], list1 := st.list1 ++ [b] }

/-- The number of entries written so far (`n`, later `nlist`). -/
def Lists.nlist (st : Lists) : Nat := st.list0.length

/-- One guarded hand statement of `make_list`:
`if ((int)c > 0) { list0[n] = b0 + c; list1[n++] = b1 + c; }`. -/
def handStep (c : Nat) (b0 b1 : Int) (st : Lists) : Lists :=
  if (c : Int) > 0 then st.push (b0 + c) (b1 + c) else st

/-- The hand part of `make_list` (source lines 470-530): fourteen guarded
statements in source order. -/
def make_list_hand (L : HandLayout) (pos : Position) : Lists :=
  let st : Lists := { list0 := [], list1 := [] }
  let st := handStep (I2HandPawn L (HAND_B pos)) f_hand_pawn e_hand_pawn st
  let st := handStep (I2HandPawn L (HAND_W pos)) e_hand_pawn f_hand_pawn st
  let st := handStep (I2HandLance L (HAND_B pos)) f_hand_lance e_hand_lance st
  let st := handStep (I2HandLance L (HAND_W pos)) e_hand_lance f_hand_lance st
  let st := handStep (I2HandKnight L (HAND_B pos)) f_hand_knight e_hand_knight st
  let st := handStep (I2HandKnight L (HAND_W pos)) e_hand_knight f_hand_knight st
  let st := handStep (I2HandSilver L (HAND_B pos)) f_hand_silver e_hand_silver st
  let st := handStep (I2HandSilver L (HAND_W pos)) e_hand_silver f_hand_silver st
  let st := handStep (I2HandGold L (HAND_B pos)) f_hand_gold e_hand_gold st
  let st := handStep (I2HandGold L (HAND_W pos)) e_hand_gold f_hand_gold st
  let st := handStep (I2HandBishop L (HAND_B pos)) f_hand_bishop e_hand_bishop st
  let st := handStep (I2HandBishop L (HAND_W pos)) e_hand_bishop f_hand_bishop st
  let st := handStep (I2HandRook L (HAND_B pos)) f_hand_rook e_hand_rook st
  let st := handStep (I2HandRook L (HAND_W pos)) e_hand_rook f_hand_rook st
  st

/-- The `switch (ban[z])` of `make_list` (source lines 612-830). -/
def boardCase (p : Piece) (sq : Int) (st : Lists) : Lists :=
  match p with
  | .SFU => st.push (f_pawn + sq) (e_pawn + Inv sq)
  | .GFU => st.push (e_pawn + sq) (f_pawn + Inv sq)
  | .SKY => st.push (f_lance + sq) (e_lance + Inv sq)
  | .GKY => st.push (e_lance + sq) (f_lance + Inv sq)
  | .SKE => st.push (f_knight + sq) (e_knight + Inv sq)
  | .GKE => st.push (e_knight + sq) (f_knight + Inv sq)
  | .SGI => st.push (f_silver + sq) (e_silver + Inv sq)
  | .GGI => st.push (e_silver + sq) (f_silver + Inv sq)
  | .SKI | .STO | .SNY | .SNK | .SNG => st.push (f_gold + sq) (e_gold + Inv sq)
  | .GKI | .GTO | .GNY | .GNK | .GNG => st.push (e_gold + sq) (f_gold + Inv sq)
  | .SKA => st.push (f_bishop + sq) (e_bishop + Inv sq)
  | .GKA => st.push (e_bishop + sq) (f_bishop + Inv sq)
  | .SHI => st.push (f_rook + sq) (e_rook + Inv sq)
  | .GHI => st.push (e_rook + sq) (f_rook + Inv sq)
  | .SUM => st.push (f_horse + sq) (e_horse + Inv sq)
  | .GUM => st.push (e_horse + sq) (f_horse + Inv sq)
  | .SRY => st.push (f_dragon + sq) (e_dragon + Inv sq)
  | .GRY => st.push (e_dragon + sq) (f_dragon + Inv sq)
  | .EMP | .WALL | .SOU | .GOU | .PIECE_NONE => st

/-- The body of the inner loop: `z = (x << 4) + y; sq = z2sq[z]; switch ...`. -/
def boardCell (pos : Position) (y x : Nat) (st : Lists) : Lists :=
  let z := (x <<< 4) + y
  let sq := z2sq z
  boardCase (pos.ban z) sq st

/-- The inner loop `for (x = FILE_1; x <= FILE_9; x++)`. -/
def boardRow (pos : Position) (y : Nat) (st : Lists) : Lists :=
  (List.range' FILE_1 (FILE_9 + 1 - FILE_1)).foldl (fun st x => boardCell pos y x st) st

/-- The board scan of `make_list` (source lines 607-832):
`for (y = RANK_1; y <= RANK_9; y++) for (x = FILE_1; ...)`. -/
def make_list_board (pos : Position) (st : Lists) : Lists :=
  (List.range' RANK_1 (RANK_9 + 1 - RANK_1)).foldl (fun st y => boardRow pos y st) st

/-- Embedding of `Position::make_list`: the hand entries, then the board scan continuing
at `nlist = n`.  The returned count is `Lists.nlist` of the result; the
function adds its local `score = 0` to `*pscore`. -/
def make_list (L : HandLayout) (pos : Position) : Lists :=
  make_list_board pos (make_list_hand L pos)

/-! ## `Position::evaluate` -/

/-- The weight tables `kk`, `kkp`, `pc_on_sq`. -/
structure Tables where
  kk : Int → Int → Int
  kkp : Int → Int → Int → Int
  pc_on_sq : Int → Int → Int → Int

/-- The loop `for (j = 0; j < i; j++)` of `evaluate`, summed over the
integers. -/
def evalInner (T : Tables) (sq_bk sq_wk : Int) (list0 list1 : List Int)
    (k0 k1 : Int) (i : Nat) (sum : Int) : Int :=
  (List.range i).foldl
    (fun sum j =>
      let l0 := list0.getD j 0
      let l1 := list1.getD j 0
      let sum := sum + T.pc_on_sq sq_bk k0 l0
      sum - T.pc_on_sq sq_wk k1 l1)
    sum

/-- The loop `for (i = 0; i < nlist; i++)` of `evaluate`, run on given lists
and squares and summed over the integers: `sq_bk` and `sq_wk` index
`pc_on_sq`, and `sq_wking` (the source passes `SQ_WKING`) is the second index
of `kkp`. -/
def evalLoop (T : Tables) (sq_bk sq_wk sq_wking : Int) (list0 list1 : List Int)
    (nlist : Nat) (sum : Int) : Int :=
  (List.range nlist).foldl
    (fun sum i =>
      let k0 := list0.getD i 0
      let k1 := list1.getD i 0
      let sum := sum + T.kkp sq_bk sq_wking k0
      evalInner T sq_bk sq_wk list0 list1 k0 k1 i sum)
    sum

/-- The value of `sum` when `evaluate` reaches `score += sum` (source lines
948-1031), formed over the integers on the lists of `make_list`: the value of
the `int` variable when the lists fit the arrays and the sum is within the
range of `int`.  `evalSum32` is the same code in the arithmetic of `int`. -/
def evalSum (T : Tables) (L : HandLayout) (pos : Position) : Int :=
  let sum : Int := 0
  let sq_bk := SQ_BKING pos
  let sq_wk := Inv (SQ_WKING pos)
  let ls := make_list L pos
  let nlist := ls.nlist
  let sum := evalLoop T sq_bk sq_wk (SQ_WKING pos) ls.list0 ls.list1 nlist sum
  sum + T.kk sq_bk (SQ_WKING pos)

/-- Embedding of `Position::evaluate` in the full-table build: `score = 0`, `make_list`
adds 0 to it, then `score += sum; score /= FV_SCALE; score += MATERIAL;` and
the sign is chosen by `us`.  C++ `/` on `int` truncates toward zero.  The
arithmetic is that of the integers; `evaluate32` is the same code in the
arithmetic of `int` and with the capacity of the arrays. -/
def evaluate (T : Tables) (L : HandLayout) (pos : Position) (us : Color) : Int :=
  let score : Int := 0
  let score := score + 0
  let score := score + evalSum T L pos
  let score := Int.tdiv score FV_SCALE
  let score := score + MATERIAL pos
  if us = Color.BLACK then score else -score

/-- The empty pair of lists (`n = 0`). -/
def Lists.empty : Lists := { list0 := [], list1 := [] }

/-- Append a sequence of entry pairs `(list0 entry, list1 entry)`. -/
def Lists.append (st : Lists) (es : List (Int × Int)) : Lists :=
  { list0 := st.list0 ++ es.map Prod.fst, list1 := st.list1 ++ es.map Prod.snd }

/-- The seven kinds of piece that can be held in hand, in the order pawn,
lance, knight, silver, gold, bishop, rook. -/
inductive HandKind where
  | FU | KY | KE | GI | KI | KA | HI
  deriving DecidableEq, Repr

/-- The number of pieces of a kind in a packed hand word. -/
def handCount (L : HandLayout) (k : HandKind) (hand : Nat) : Nat :=
  match k with
  | .FU => I2HandPawn L hand
  | .KY => I2HandLance L hand
  | .KE => I2HandKnight L hand
  | .GI => I2HandSilver L hand
  | .KI => I2HandGold L hand
  | .KA => I2HandBishop L hand
  | .HI => I2HandRook L hand

/-- The hand base of a kind and colour: `f_hand_X` for Black, `e_hand_X` for
White. -/
def handBase (k : HandKind) (c : Color) : Int :=
  match k, c with
  | .FU, .BLACK => f_hand_pawn | .FU, .WHITE => e_hand_pawn
  | .KY, .BLACK => f_hand_lance | .KY, .WHITE => e_hand_lance
  | .KE, .BLACK => f_hand_knight | .KE, .WHITE => e_hand_knight
  | .GI, .BLACK => f_hand_silver | .GI, .WHITE => e_hand_silver
  | .KI, .BLACK => f_hand_gold | .KI, .WHITE => e_hand_gold
  | .KA, .BLACK => f_hand_bishop | .KA, .WHITE => e_hand_bishop
  | .HI, .BLACK => f_hand_rook | .HI, .WHITE => e_hand_rook

/-- The largest legal hand count of a kind: 18 pawns, 4 lances, knights,
silvers and golds, 2 bishops and rooks. -/
def handMax (k : HandKind) : Nat :=
  match k with
  | .FU => 18
  | .KY | .KE | .GI | .KI => 4
  | .KA | .HI => 2

/-- The fourteen (kind, colour) slots in visiting order: kinds pawn to rook,
Black before White within a kind. -/
def handSlots : List (HandKind × Color) :=
  [HandKind.FU, HandKind.KY, HandKind.KE, HandKind.GI, HandKind.KI, HandKind.KA,
    HandKind.HI].flatMap (fun k => [(k, Color.BLACK), (k, Color.WHITE)])

/-- The hand count of a slot in a position. -/
def slotCount (L : HandLayout) (pos : Position) (s : HandKind × Color) : Nat :=
  handCount L s.1 (pos.hand s.2)

/-- The hand entries as the specification describes them: one pair for every
slot with a positive count `c`, `(base of the colour + c, base of the other
colour + c)`, in slot order. -/
def handEntries (L : HandLayout) (pos : Position) : List (Int × Int) :=
  (handSlots.filter (fun s => 0 < slotCount L pos s)).map
    (fun s => (handBase s.1 s.2 + slotCount L pos s, handBase s.1 s.2.flip + slotCount L pos s))

/-- The entry of one hand slot: none for a count of 0, one pair otherwise. -/
def slotEntry (L : HandLayout) (pos : Position) (s : HandKind × Color) : List (Int × Int) :=
  if 0 < slotCount L pos s then
    [(handBase s.1 s.2 + slotCount L pos s, handBase s.1 s.2.flip + slotCount L pos s)]
  else []

/-- The pair that the `switch` of `make_list` writes for a board code on a
square: none or one. -/
def boardEntry (p : Piece) (sq : Int) : List (Int × Int) :=
  (boardCase p sq Lists.empty).list0.zip (boardCase p sq Lists.empty).list1

/-- The board coordinates `z = (x << 4) + y` in scan order, rank `y` outer and
file `x` inner. -/
def gridCells : List Nat :=
  (List.range' RANK_1 (RANK_9 + 1 - RANK_1)).flatMap
    (fun y => (List.range' FILE_1 (FILE_9 + 1 - FILE_1)).map (fun x => (x <<< 4) + y))

/-- The board entries in scan order. -/
def boardEntries (pos : Position) : List (Int × Int) :=
  gridCells.flatMap (fun z => boardEntry (pos.ban z) (z2sq z))

/-- A board code that is a piece other than a king. -/
def Piece.isNonKingPiece : Piece → Bool
  | .EMP | .WALL | .PIECE_NONE | .SOU | .GOU => false
  | _ => true

/-- The number of non-king pieces on the 81 squares of the board. -/
def boardPieceCount (pos : Position) : Nat :=
  gridCells.countP (fun z => (pos.ban z).isNonKingPiece)

/-! ## Feature space: classes, legal locations and the mirror map -/

/-- The nine board feature classes; gold stands for every gold-moving piece. -/
inductive BoardClass where
  | pawn | lance | knight | silver | gold | bishop | horse | rook | dragon
  deriving DecidableEq, Repr

/-- The board base of a class and colour: `f_X` for Black, `e_X` for White. -/
def boardBase (cls : BoardClass) (c : Color) : Int :=
  match cls, c with
  | .pawn, .BLACK => f_pawn | .pawn, .WHITE => e_pawn
  | .lance, .BLACK => f_lance | .lance, .WHITE => e_lance
  | .knight, .BLACK => f_knight | .knight, .WHITE => e_knight
  | .silver, .BLACK => f_silver | .silver, .WHITE => e_silver
  | .gold, .BLACK => f_gold | .gold, .WHITE => e_gold
  | .bishop, .BLACK => f_bishop | .bishop, .WHITE => e_bishop
  | .horse, .BLACK => f_horse | .horse, .WHITE => e_horse
  | .rook, .BLACK => f_rook | .rook, .WHITE => e_rook
  | .dragon, .BLACK => f_dragon | .dragon, .WHITE => e_dragon

/-- The lowest square a Black piece of the class may stand on: a pawn or lance
not on the first rank (squares 0..8), a knight not on the first two ranks.
For White the legal squares are the mirror images, `0 .. 80 - minSquare`. -/
def minSquare (cls : BoardClass) : Int :=
  match cls with
  | .pawn | .lance => 9
  | .knight => 18
  | _ => 0

/-- A feature: a kind, an owner and a location (a hand count or a square). -/
inductive Feature where
  | hand (k : HandKind) (c : Color) (n : Nat)
  | board (cls : BoardClass) (c : Color) (sq : Int)

/-- The feature index: base of the band plus the location. -/
def Feature.index : Feature → Int
  | .hand k c n => handBase k c + n
  | .board cls c sq => boardBase cls c + sq

/-- The mirror partner: colour swapped, count kept, square rotated by 180
degrees. -/
def Feature.mirror : Feature → Feature
  | .hand k c n => .hand k c.flip n
  | .board cls c sq => .board cls c.flip (Inv sq)

/-- The features that `make_list` can emit: a hand feature with a count from 1
to the legal maximum of its kind, a board feature of a legally placed piece. -/
def Feature.emittable : Feature → Prop
  | .hand k _ n => 1 ≤ n ∧ n ≤ handMax k
  | .board cls .BLACK sq => minSquare cls ≤ sq ∧ sq ≤ 80
  | .board cls .WHITE sq => 0 ≤ sq ∧ sq ≤ 80 - minSquare cls

/-- The feature class and owner of a board code; none for empty squares,
walls and kings.  Gold and the promoted pawn, lance, knight and silver share
the gold class. -/
def pieceClass : Piece → Option (BoardClass × Color)
  | .SFU => some (.pawn, .BLACK) | .GFU => some (.pawn, .WHITE)
  | .SKY => some (.lance, .BLACK) | .GKY => some (.lance, .WHITE)
  | .SKE => some (.knight, .BLACK) | .GKE => some (.knight, .WHITE)
  | .SGI => some (.silver, .BLACK) | .GGI => some (.silver, .WHITE)
  | .SKI | .STO | .SNY | .SNK | .SNG => some (.gold, .BLACK)
  | .GKI | .GTO | .GNY | .GNK | .GNG => some (.gold, .WHITE)
  | .SKA => some (.bishop, .BLACK) | .GKA => some (.bishop, .WHITE)
  | .SUM => some (.horse, .BLACK) | .GUM => some (.horse, .WHITE)
  | .SHI => some (.rook, .BLACK) | .GHI => some (.rook, .WHITE)
  | .SRY => some (.dragon, .BLACK) | .GRY => some (.dragon, .WHITE)
  | .EMP | .WALL | .PIECE_NONE | .SOU | .GOU => none

/-- The mirror map on feature indices, read off the bands that legal
locations occupy: a hand index keeps its count and changes to the band of the
other colour (`f_hand_X + c <-> e_hand_X + c`); a board index changes to the
band of the other colour at the square `80 - sq` (`f_X + sq <-> e_X + Inv(sq)`).
Black's pawns and lances occupy `f_X + 9 ..`, Black's knights `f_knight + 18 ..`,
White's pawns and lances `.. e_X + 71`, White's knights `.. e_knight + 62`.
Indices outside `[0, fe_end)` are left alone. -/
def mirrorFeature (f : Int) : Int :=
  if f < 0 then f
  else if f < e_hand_pawn then e_hand_pawn + (f - f_hand_pawn)
  else if f < f_hand_lance then f_hand_pawn + (f - e_hand_pawn)
  else if f < e_hand_lance then e_hand_lance + (f - f_hand_lance)
  else if f < f_hand_knight then f_hand_lance + (f - e_hand_lance)
  else if f < e_hand_knight then e_hand_knight + (f - f_hand_knight)
  else if f < f_hand_silver then f_hand_knight + (f - e_hand_knight)
  else if f < e_hand_silver then e_hand_silver + (f - f_hand_silver)
  else if f < f_hand_gold then f_hand_silver + (f - e_hand_silver)
  else if f < e_hand_gold then e_hand_gold + (f - f_hand_gold)
  else if f < f_hand_bishop then f_hand_gold + (f - e_hand_gold)
  else if f < e_hand_bishop then e_hand_bishop + (f - f_hand_bishop)
  else if f < f_hand_rook then f_hand_bishop + (f - e_hand_bishop)
  else if f < e_hand_rook then e_hand_rook + (f - f_hand_rook)
  else if f < fe_hand_end then f_hand_rook + (f - e_hand_rook)
  else if f < e_pawn then e_pawn + Inv (f - f_pawn)
  else if f < f_lance + 9 then f_pawn + Inv (f - e_pawn)
  else if f < e_lance then e_lance + Inv (f - f_lance)
  else if f < f_knight + 18 then f_lance + Inv (f - e_lance)
  else if f < e_knight then e_knight + Inv (f - f_knight)
  else if f < f_silver then f_knight + Inv (f - e_knight)
  else if f < e_silver then e_silver + Inv (f - f_silver)
  else if f < f_gold then f_silver + Inv (f - e_silver)
  else if f < e_gold then e_gold + Inv (f - f_gold)
  else if f < f_bishop then f_gold + Inv (f - e_gold)
  else if f < e_bishop then e_bishop + Inv (f - f_bishop)
  else if f < f_horse then f_bishop + Inv (f - e_bishop)
  else if f < e_horse then e_horse + Inv (f - f_horse)
  else if f < f_rook then f_horse + Inv (f - e_horse)
  else if f < e_rook then e_rook + Inv (f - f_rook)
  else if f < f_dragon then f_rook + Inv (f - e_rook)
  else if f < e_dragon then e_dragon + Inv (f - f_dragon)
  else if f < fe_end then f_dragon + Inv (f - e_dragon)
  else f

/-- Legal placement of a board code on a square: Black's pawn and lance on
`sq >= 9`, Black's knight on `sq >= 18`, White's pawn and lance on `sq <= 71`,
White's knight on `sq <= 62`; every other code anywhere. -/
def legalSquare (p : Piece) (sq : Int) : Bool :=
  match p with
  | .SFU | .SKY => decide (9 ≤ sq)
  | .SKE => decide (18 ≤ sq)
  | .GFU | .GKY => decide (sq ≤ 71)
  | .GKE => decide (sq ≤ 62)
  | _ => true

/-- Every piece on the 81 squares stands on a square legal for it. -/
def LegalBoard (pos : Position) : Prop :=
  ∀ z ∈ gridCells, legalSquare (pos.ban z) (z2sq z) = true

/-- Every hand count is within the legal maximum of its kind. -/
def LegalHands (L : HandLayout) (pos : Position) : Prop :=
  ∀ s ∈ handSlots, slotCount L pos s ≤ handMax s.1

/-! ## `Position::init_evaluate` (material table) and `compute_material` -/

/-- The per-kind material constants `DPawn .. DDragon` of `param_new.h`, a
parameter of the embedding. -/
structure Params where
  DPawn : Int
  DLance : Int
  DKnight : Int
  DSilver : Int
  DGold : Int
  DBishop : Int
  DRook : Int
  DKing : Int
  DProPawn : Int
  DProLance : Int
  DProKnight : Int
  DProSilver : Int
  DHorse : Int
  DDragon : Int

/-- The array `p_value[31]` as `init_evaluate` leaves it (source lines
312-342): cleared, then the fourteen entries `15 + kind` set from the
constants, then the fourteen entries `15 - kind` copied from them. -/
def init_p_value (P : Params) : List Int :=
  let p : List Int := List.replicate 31 0
  let p := p.set (15 + pawn) P.DPawn
  let p := p.set (15 + lance) P.DLance
  let p := p.set (15 + knight) P.DKnight
  let p := p.set (15 + silver) P.DSilver
  let p := p.set (15 + gold) P.DGold
  let p := p.set (15 + bishop) P.DBishop
  let p := p.set (15 + rook) P.DRook
  let p := p.set (15 + king) P.DKing
  let p := p.set (15 + pro_pawn) P.DProPawn
  let p := p.set (15 + pro_lance) P.DProLance
  let p := p.set (15 + pro_knight) P.DProKnight
  let p := p.set (15 + pro_silver) P.DProSilver
  let p := p.set (15 + horse) P.DHorse
  let p := p.set (15 + dragon) P.DDragon
  let p := p.set (15 - pawn) (p.getD (15 + pawn) 0)
  let p := p.set (15 - lance) (p.getD (15 + lance) 0)
  let p := p.set (15 - knight) (p.getD (15 + knight) 0)
  let p := p.set (15 - silver) (p.getD (15 + silver) 0)
  let p := p.set (15 - gold) (p.getD (15 + gold) 0)
  let p := p.set (15 - bishop) (p.getD (15 + bishop) 0)
  let p := p.set (15 - rook) (p.getD (15 + rook) 0)
  let p := p.set (15 - king) (p.getD (15 + king) 0)
  let p := p.set (15 - pro_pawn) (p.getD (15 + pro_pawn) 0)
  let p := p.set (15 - pro_lance) (p.getD (15 + pro_lance) 0)
  let p := p.set (15 - pro_knight) (p.getD (15 + pro_knight) 0)
  let p := p.set (15 - pro_silver) (p.getD (15 + pro_silver) 0)
  let p := p.set (15 - horse) (p.getD (15 + horse) 0)
  let p := p.set (15 - dragon) (p.getD (15 + dragon) 0)
  p

/-- The read `p_value[i]` after `init_evaluate`. -/
def p_value (P : Params) (i : Nat) : Int := (init_p_value P).getD i 0

/-- The piece-number ranges `KNS_xx .. KNE_xx` of `position.h`, a parameter
of the embedding. -/
structure KnRanges where
  KNS_FU : Nat
  KNE_FU : Nat
  KNS_KY : Nat
  KNE_KY : Nat
  KNS_KE : Nat
  KNE_KE : Nat
  KNS_GI : Nat
  KNE_GI : Nat
  KNS_KI : Nat
  KNE_KI : Nat
  KNS_KA : Nat
  KNE_KA : Nat
  KNS_HI : Nat
  KNE_HI : Nat

/-- One counting step of `compute_material` on the pair `(item, itemp)`:
`if (k == sp) item++; if (k == gp) item--; if (k == spp) itemp++;
if (k == gpp) itemp--;`. -/
def countStep (sp gp spp gpp : Piece) (st : Int × Int) (k : Piece) : Int × Int :=
  let item := st.1
  let itemp := st.2
  let item := if k = sp then item + 1 else item
  let item := if k = gp then item - 1 else item
  let itemp := if k = spp then itemp + 1 else itemp
  let itemp := if k = gpp then itemp - 1 else itemp
  (item, itemp)

/-- One counting loop of `compute_material`:
`item = 0; itemp = 0; for (i = s; i <= e; i++) { ... }`. -/
def countLoop (knkind : Nat → Piece) (s e : Nat) (sp gp spp gpp : Piece) : Int × Int :=
  (List.range' s (e + 1 - s)).foldl (fun st i => countStep sp gp spp gpp st (knkind i)) (0, 0)

/-- The gold loop of `compute_material`, which counts no promoted form:
`if (k == SKI) item++; if (k == GKI) item--;`. -/
def countLoopGold (knkind : Nat → Piece) (s e : Nat) : Int :=
  (List.range' s (e + 1 - s)).foldl
    (fun item i =>
      let item := if knkind i = Piece.SKI then item + 1 else item
      if knkind i = Piece.GKI then item - 1 else item)
    0

/-- Embedding of `Position::compute_material` (source lines 345-424). -/
def compute_material (P : Params) (K : KnRanges) (pos : Position) : Int :=
  let c := countLoop pos.knkind K.KNS_FU K.KNE_FU Piece.SFU Piece.GFU Piece.STO Piece.GTO
  let v := c.1 * p_value P (15 + pawn)
  let v := v + c.2 * p_value P (15 + pro_pawn)
  let c := countLoop pos.knkind K.KNS_KY K.KNE_KY Piece.SKY Piece.GKY Piece.SNY Piece.GNY
  let v := v + c.1 * p_value P (15 + lance)
  let v := v + c.2 * p_value P (15 + pro_lance)
  let c := countLoop pos.knkind K.KNS_KE K.KNE_KE Piece.SKE Piece.GKE Piece.SNK Piece.GNK
  let v := v + c.1 * p_value P (15 + knight)
  let v := v + c.2 * p_value P (15 + pro_knight)
  let c := countLoop pos.knkind K.KNS_GI K.KNE_GI Piece.SGI Piece.GGI Piece.SNG Piece.GNG
  let v := v + c.1 * p_value P (15 + silver)
  let v := v + c.2 * p_value P (15 + pro_silver)
  let item := countLoopGold pos.knkind K.KNS_KI K.KNE_KI
  let v := v + item * p_value P (15 + gold)
  let c := countLoop pos.knkind K.KNS_KA K.KNE_KA Piece.SKA Piece.GKA Piece.SUM Piece.GUM
  let v := v + c.1 * p_value P (15 + bishop)
  let v := v + c.2 * p_value P (15 + horse)
  let c := countLoop pos.knkind K.KNS_HI K.KNE_HI Piece.SHI Piece.GHI Piece.SRY Piece.GRY
  let v := v + c.1 * p_value P (15 + rook)
  let v := v + c.2 * p_value P (15 + dragon)
  v

/-! ## The mirrored board -/

/-- The coordinate of the square rotated by 180 degrees: file `x` to `10 - x`,
rank `y` to `10 - y`. -/
def mirrorZ (z : Nat) : Nat := ((10 - (z >>> 4)) <<< 4) + (10 - (z &&& 15))

/-- The mirrored board: every piece changes owner (board, inventory, hands and
kings) and every board piece moves from square `sq` to `80 - sq`.  Cells off
the 9x9 grid are kept.  The stored material balance is the one
`compute_material` gives for the mirrored inventory. -/
def mirrorPos (P : Params) (K : KnRanges) (pos : Position) : Position :=
  let q : Position :=
    { ban := fun z => if 0 ≤ z2sq z then (pos.ban (mirrorZ z)).flip else pos.ban z,
      knkind := fun i => (pos.knkind i).flip,
      kingS := mirrorZ pos.kingG,
      kingG := mirrorZ pos.kingS,
      hand := fun c => pos.hand c.flip,
      material := 0 }
  { q with material := compute_material P K q }

/-- The sum of `f x y` over the pairs of a list in which `x` stands after `y`. -/
def pairSum {α : Type} (f : α → α → Int) : List α → Int
  | [] => 0
  | a :: l => (l.map (fun x => f x a)).sum + pairSum f l

/-! ## Board squares in scan order -/

/-- The board coordinate `z = (x << 4) + y` of a square index: file
`x = sq % 9 + 1`, rank `y = sq / 9 + 1`. -/
def zOfSq (sq : Nat) : Nat := ((sq % 9 + 1) <<< 4) + (sq / 9 + 1)

/-- The board entries as the specification describes them: squares 0 to 80 in
increasing order, one pair `(base(X, C) + sq, base(X, other colour) + (80 - sq))`
for a square that holds a non-king piece of class `X` and colour `C`, nothing
for an empty square or a king. -/
def boardEntriesBySquare (pos : Position) : List (Int × Int) :=
  (List.range 81).filterMap (fun sq =>
    (pieceClass (pos.ban (zOfSq sq))).map
      (fun cc => (boardBase cc.1 cc.2 + (sq : Int), boardBase cc.1 cc.2.flip + (80 - (sq : Int)))))

/-! ## The piece inventory -/

/-- The slots `s .. e` scanned by one loop of `compute_material`. -/
def slotRange (s e : Nat) : List Nat := List.range' s (e + 1 - s)

/-- The slot range of a family of pieces (a kind and its promoted form). -/
def familyRange (K : KnRanges) : HandKind → List Nat
  | .FU => slotRange K.KNS_FU K.KNE_FU
  | .KY => slotRange K.KNS_KY K.KNE_KY
  | .KE => slotRange K.KNS_KE K.KNE_KE
  | .GI => slotRange K.KNS_GI K.KNE_GI
  | .KI => slotRange K.KNS_KI K.KNE_KI
  | .KA => slotRange K.KNS_KA K.KNE_KA
  | .HI => slotRange K.KNS_HI K.KNE_HI

/-- All slots of the inventory that `compute_material` scans. -/
def allSlots (K : KnRanges) : List Nat :=
  familyRange K .FU ++ familyRange K .KY ++ familyRange K .KE ++ familyRange K .GI
    ++ familyRange K .KI ++ familyRange K .KA ++ familyRange K .HI

/-- The family (slot range) a piece code belongs to; none for kings, empty
squares and walls. -/
def pieceFamily : Piece → Option HandKind
  | .SFU | .GFU | .STO | .GTO => some .FU
  | .SKY | .GKY | .SNY | .GNY => some .KY
  | .SKE | .GKE | .SNK | .GNK => some .KE
  | .SGI | .GGI | .SNG | .GNG => some .GI
  | .SKI | .GKI => some .KI
  | .SKA | .GKA | .SUM | .GUM => some .KA
  | .SHI | .GHI | .SRY | .GRY => some .HI
  | .EMP | .WALL | .PIECE_NONE | .SOU | .GOU => none

/-- Every slot of a slot range holds a code of that range (the kind or its
promoted form, of either colour) or no counted piece. -/
def InventoryTyped (K : KnRanges) (pos : Position) : Prop :=
  ∀ k : HandKind, ∀ i ∈ familyRange K k,
    pieceFamily (pos.knkind i) = none ∨ pieceFamily (pos.knkind i) = some k

/-- The number of slots in a list that hold a given code. -/
def kcount (kn : Nat → Piece) (l : List Nat) (p : Piece) : Int :=
  ((l.countP (fun i => decide (kn i = p)) : Nat) : Int)

/-- The thirteen non-king kinds with Black's and White's code. -/
def materialKinds : List (Nat × Piece × Piece) :=
  [(pawn, Piece.SFU, Piece.GFU), (lance, Piece.SKY, Piece.GKY), (knight, Piece.SKE, Piece.GKE),
   (silver, Piece.SGI, Piece.GGI), (gold, Piece.SKI, Piece.GKI), (bishop, Piece.SKA, Piece.GKA),
   (rook, Piece.SHI, Piece.GHI), (pro_pawn, Piece.STO, Piece.GTO),
   (pro_lance, Piece.SNY, Piece.GNY), (pro_knight, Piece.SNK, Piece.GNK),
   (pro_silver, Piece.SNG, Piece.GNG), (horse, Piece.SUM, Piece.GUM),
   (dragon, Piece.SRY, Piece.GRY)]

/-- The material balance as the specification describes it: the sum over the
thirteen non-king kinds of (number of Black's pieces of the kind - number of
White's pieces of the kind) times the material value `p_value[15 + kind]`. -/
def materialBalanceSpec (P : Params) (K : KnRanges) (pos : Position) : Int :=
  (materialKinds.map (fun t =>
    (kcount pos.knkind (allSlots K) t.2.1 - kcount pos.knkind (allSlots K) t.2.2)
      * p_value P (15 + t.1))).sum

/-- The inventory with the code `p` written into slot `i`. -/
def addPiece (pos : Position) (i : Nat) (p : Piece) : Position :=
  { pos with knkind := fun j => if j = i then p else pos.knkind j }

/-! ## Bands of feature indices -/

/-- The legal locations of a feature: a hand count from 0 to the legal maximum
of the kind; a board square legal for the class and colour (`minSquare .. 80`
for Black, `0 .. 80 - minSquare` for White). -/
def Feature.legal : Feature → Prop
  | .hand k _ n => n ≤ handMax k
  | .board cls .BLACK sq => minSquare cls ≤ sq ∧ sq ≤ 80
  | .board cls .WHITE sq => 0 ≤ sq ∧ sq ≤ 80 - minSquare cls

/-- The position of a feature's band in index order: the fourteen hand bands
0..13, then the eighteen board bands 14..31. -/
def Feature.bandNo : Feature → Nat
  | .hand .FU .BLACK _ => 0 | .hand .FU .WHITE _ => 1
  | .hand .KY .BLACK _ => 2 | .hand .KY .WHITE _ => 3
  | .hand .KE .BLACK _ => 4 | .hand .KE .WHITE _ => 5
  | .hand .GI .BLACK _ => 6 | .hand .GI .WHITE _ => 7
  | .hand .KI .BLACK _ => 8 | .hand .KI .WHITE _ => 9
  | .hand .KA .BLACK _ => 10 | .hand .KA .WHITE _ => 11
  | .hand .HI .BLACK _ => 12 | .hand .HI .WHITE _ => 13
  | .board .pawn .BLACK _ => 14 | .board .pawn .WHITE _ => 15
  | .board .lance .BLACK _ => 16 | .board .lance .WHITE _ => 17
  | .board .knight .BLACK _ => 18 | .board .knight .WHITE _ => 19
  | .board .silver .BLACK _ => 20 | .board .silver .WHITE _ => 21
  | .board .gold .BLACK _ => 22 | .board .gold .WHITE _ => 23
  | .board .bishop .BLACK _ => 24 | .board .bishop .WHITE _ => 25
  | .board .horse .BLACK _ => 26 | .board .horse .WHITE _ => 27
  | .board .rook .BLACK _ => 28 | .board .rook .WHITE _ => 29
  | .board .dragon .BLACK _ => 30 | .board .dragon .WHITE _ => 31

/-- The first index of each band of legal locations, in index order, closed by
`fe_end`. -/
def bandStarts : List Int :=
  [0, 19, 38, 43, 48, 53, 58, 63, 68, 73, 78, 81, 84, 87,
   90, 162, 234, 306, 378, 441, 504, 585, 666, 747, 828, 909, 990, 1071, 1152, 1233, 1314,
   1395, 1476]

/-- The first index of the band with a given position. -/
def bandStart (n : Nat) : Int := bandStarts.getD n 1476

/-- The location of a feature: its hand count or its square. -/
def Feature.loc : Feature → Int
  | .hand _ _ n => n
  | .board _ _ sq => sq

/-- The feature of a band position and a location. -/
def bandFeature (n : Nat) (loc : Int) : Feature :=
  match n with
  | 0 => .hand .FU .BLACK loc.toNat | 1 => .hand .FU .WHITE loc.toNat
  | 2 => .hand .KY .BLACK loc.toNat | 3 => .hand .KY .WHITE loc.toNat
  | 4 => .hand .KE .BLACK loc.toNat | 5 => .hand .KE .WHITE loc.toNat
  | 6 => .hand .GI .BLACK loc.toNat | 7 => .hand .GI .WHITE loc.toNat
  | 8 => .hand .KI .BLACK loc.toNat | 9 => .hand .KI .WHITE loc.toNat
  | 10 => .hand .KA .BLACK loc.toNat | 11 => .hand .KA .WHITE loc.toNat
  | 12 => .hand .HI .BLACK loc.toNat | 13 => .hand .HI .WHITE loc.toNat
  | 14 => .board .pawn .BLACK loc | 15 => .board .pawn .WHITE loc
  | 16 => .board .lance .BLACK loc | 17 => .board .lance .WHITE loc
  | 18 => .board .knight .BLACK loc | 19 => .board .knight .WHITE loc
  | 20 => .board .silver .BLACK loc | 21 => .board .silver .WHITE loc
  | 22 => .board .gold .BLACK loc | 23 => .board .gold .WHITE loc
  | 24 => .board .bishop .BLACK loc | 25 => .board .bishop .WHITE loc
  | 26 => .board .horse .BLACK loc | 27 => .board .horse .WHITE loc
  | 28 => .board .rook .BLACK loc | 29 => .board .rook .WHITE loc
  | 30 => .board .dragon .BLACK loc | _ => .board .dragon .WHITE loc

/-! ## The load of the weight tables in `init_evaluate` -/

/-- The representation of table cells in the weight file: how a 16-bit and a
32-bit cell are written as bytes and read back.  The file is written and read
with the representation of the machine that runs the engine, a parameter of
the embedding. -/
structure Codec where
  enc16 : Int → List Nat
  dec16 : List Nat → Int
  enc32 : Int → List Nat
  dec32 : List Nat → Int

/-- A codec writes a `short` as 2 bytes and an `int` as 4 bytes and reads back
what it wrote, for values of the 16-bit and 32-bit signed ranges. -/
def Codec.Lawful (C : Codec) : Prop :=
  (∀ v, (C.enc16 v).length = 2)
  ∧ (∀ v, -32768 ≤ v → v ≤ 32767 → C.dec16 (C.enc16 v) = v)
  ∧ (∀ v, (C.enc32 v).length = 4)
  ∧ (∀ v, -2147483648 ≤ v → v ≤ 2147483647 → C.dec32 (C.enc32 v) = v)

/-- The outcome of one `fread`: the bytes transferred, the number of complete
elements (the return value) and the rest of the stream. -/
structure FreadResult where
  bytes : List Nat
  count : Nat
  rest : List Nat

/-- The call `fread(ptr, size, n, fp)` on a stream of bytes: up to `size * n`
bytes are transferred and the number of complete elements is returned. -/
def fread (size n : Nat) (s : List Nat) : FreadResult :=
  let bytes := s.take (size * n)
  { bytes := bytes, count := bytes.length / size, rest := s.drop (size * n) }

/-- The `n` cells of `size` bytes each that a buffer holds after a read. -/
def decodeCells (dec : List Nat → Int) (size n : Nat) (bytes : List Nat) : List Int :=
  (List.range n).map (fun i => dec ((bytes.drop (size * i)).take size))

/-- State of the inner loop over `j`: the rows `pc_on_sq[i][0 ..]` read so
far, the rest of the stream and `iret`. -/
structure RowsResult where
  rows : List (List Int)
  rest : List Nat
  iret : Int

/-- The inner loop of the load, over the remaining values of `j`:
`if (fread(pc_on_sq[i][j], sizeof(short), size, fp) != size) { iret = -2; break; }`
with `size = fe_end`. -/
def readRows (C : Codec) (fe : Nat) : List Nat → RowsResult → RowsResult
  | [], st => st
  | _ :: js, st =>
    let r := fread 2 fe st.rest
    let st' : RowsResult :=
      { rows := st.rows ++ [decodeCells C.dec16 2 fe r.bytes], rest := r.rest, iret := st.iret }
    if r.count ≠ fe then { st' with iret := -2 } else readRows C fe js st'

/-- State of the outer loop over `i`. -/
structure PcResult where
  pc : List (List (List Int))
  rest : List Nat
  iret : Int

/-- One pass of the outer loop: the inner loop run from `j = 0`.  Its `break`
leaves the inner loop only, so the outer loop goes on to the next `i`. -/
def readPcStep (C : Codec) (fe : Nat) (st : PcResult) : PcResult :=
  let r := readRows C fe (List.range fe) { rows := [], rest := st.rest, iret := st.iret }
  { pc := st.pc ++ [r.rows], rest := r.rest, iret := r.iret }

/-- The nested loops that read `pc_on_sq` (source lines 271-279). -/
def readPc (C : Codec) (nsq fe : Nat) (s : List Nat) (iret : Int) : PcResult :=
  (List.range nsq).foldl (fun st _ => readPcStep C fe st) { pc := [], rest := s, iret := iret }

/-- The tables in memory after the load, with the value of `iret`. -/
structure Loaded where
  iret : Int
  pc_on_sq : List (List (List Int))
  kkp : List Int
  kk : List Int

/-- The load of `init_evaluate` (source lines 248-299) for table dimensions
`nsq` and `fe`, on the bytes of an opened file; allocation is taken to
succeed.  `kkp` and `kk` are static arrays, zero until read. -/
def loadTables (C : Codec) (nsq fe : Nat) (s : List Nat) : Loaded :=
  let iret : Int := 0
  let p := readPc C nsq fe s iret
  let iret := p.iret
  let size := nsq * nsq * fe
  let r1 := fread 2 size p.rest
  let kkp := decodeCells C.dec16 2 size r1.bytes
  if r1.count ≠ size then
    { iret := -2, pc_on_sq := p.pc, kkp := kkp, kk := List.replicate (nsq * nsq) 0 }
  else
    let size := nsq * nsq
    let r2 := fread 4 size r1.rest
    let kk := decodeCells C.dec32 4 size r2.bytes
    if r2.count ≠ size then
      { iret := -2, pc_on_sq := p.pc, kkp := kkp, kk := kk }
    else if r2.rest ≠ [] then
      { iret := -2, pc_on_sq := p.pc, kkp := kkp, kk := kk }
    else
      { iret := iret, pc_on_sq := p.pc, kkp := kkp, kk := kk }

/-- The load of `init_evaluate` with `nsquare = 81` and `fe_end = 1476`. -/
def init_evaluate_load (C : Codec) (s : List Nat) : Loaded := loadTables C 81 1476 s

/-- Modelled from the spec: the writer of the weight file, which is not part
of the source.  The documented layout: `pc_on_sq` king-square-major, then
feature `i`, then feature `j`, 16-bit cells; then `kkp` own-king-major,
opposing-king next, feature last, 16-bit cells; then `kk` own-king-major,
32-bit cells; no header, no padding. -/
def serialise (C : Codec) (nsq fe : Nat) (T : Tables) : List Nat :=
  (List.range nsq).flatMap (fun (k : Nat) => (List.range fe).flatMap (fun (i : Nat) =>
      (List.range fe).flatMap (fun (j : Nat) => C.enc16 (T.pc_on_sq k i j))))
    ++ ((List.range nsq).flatMap (fun (a : Nat) => (List.range nsq).flatMap (fun (b : Nat) =>
      (List.range fe).flatMap (fun (f : Nat) => C.enc16 (T.kkp a b f))))
    ++ (List.range nsq).flatMap (fun (a : Nat) => (List.range nsq).flatMap (fun (b : Nat) =>
      C.enc32 (T.kk a b))))

/-- The cell `pc_on_sq[k][i][j]` of the loaded tables. -/
def Loaded.pcAt (r : Loaded) (k i j : Nat) : Int :=
  ((r.pc_on_sq.getD k []).getD i []).getD j 0

/-- The cell `kkp[a][b][f]` of the loaded tables, an array of dimensions
`nsq`, `nsq`, `fe`. -/
def Loaded.kkpAt (r : Loaded) (nsq fe a b f : Nat) : Int :=
  r.kkp.getD ((a * nsq + b) * fe + f) 0

/-- The cell `kk[a][b]` of the loaded tables, an array of dimensions `nsq`,
`nsq`. -/
def Loaded.kkAt (r : Loaded) (nsq a b : Nat) : Int :=
  r.kk.getD (a * nsq + b) 0

/-! ## Widths of the hand bands -/

/-- The enumerator that follows a hand base in the `enum`: the base of the next
hand band, `fe_hand_end` after the last one. -/
def handBandEnd (k : HandKind) (c : Color) : Int :=
  match k, c with
  | .FU, .BLACK => e_hand_pawn | .FU, .WHITE => f_hand_lance
  | .KY, .BLACK => e_hand_lance | .KY, .WHITE => f_hand_knight
  | .KE, .BLACK => e_hand_knight | .KE, .WHITE => f_hand_silver
  | .GI, .BLACK => e_hand_silver | .GI, .WHITE => f_hand_gold
  | .KI, .BLACK => e_hand_gold | .KI, .WHITE => f_hand_bishop
  | .KA, .BLACK => e_hand_bishop | .KA, .WHITE => f_hand_rook
  | .HI, .BLACK => e_hand_rook | .HI, .WHITE => fe_hand_end

/-- The width of a hand band: the distance from its base to the next base. -/
def handBandWidth (k : HandKind) (c : Color) : Int := handBandEnd k c - handBase k c

/-! ## Pieces in hand and the lists of the mirrored board -/

/-- The number of pieces held in the two hands: the sum of the fourteen hand
counts. -/
def handPieceCount (L : HandLayout) (pos : Position) : Nat :=
  (handSlots.map (slotCount L pos)).sum

/-- The seven kinds of piece that can be held in hand, in visiting order. -/
def handKinds : List HandKind :=
  [HandKind.FU, HandKind.KY, HandKind.KE, HandKind.GI, HandKind.KI, HandKind.KA, HandKind.HI]

/-- The entry pairs of the mirrored board as the specification describes them,
in terms of the original position: for every kind White's hand entry before
Black's, then the board entries in reversed order, and in every pair the
`list0` entry and the `list1` entry exchanged. -/
def mirroredEntries (L : HandLayout) (pos : Position) : List (Int × Int) :=
  (handKinds.flatMap
      (fun k => slotEntry L pos (k, Color.WHITE) ++ slotEntry L pos (k, Color.BLACK))
    ++ (boardEntries pos).reverse).map Prod.swap

/-! ## `Position::evaluate` in the arithmetic of `int` -/

/-- The value that a 32-bit `int` holds when the exact result of an operation
is `x`: the representative of `x` modulo `2^32` in `[-2^31, 2^31)`.  Signed
overflow is undefined in C++; this is the two's complement arithmetic of the
compiled code, in which every operation on `int` wraps. -/
def wrap32 (x : Int) : Int := (x + 2147483648) % 4294967296 - 2147483648

/-- The loop `for (j = 0; j < i; j++)` of `evaluate` on the `int` variable
`sum`: `sum += pc_on_sq[sq_bk][k0][l0]; sum -= pc_on_sq[sq_wk][k1][l1];`. -/
def evalInner32 (T : Tables) (sq_bk sq_wk : Int) (list0 list1 : List Int)
    (k0 k1 : Int) (i : Nat) (sum : Int) : Int :=
  (List.range i).foldl
    (fun sum j =>
      let l0 := list0.getD j 0
      let l1 := list1.getD j 0
      let sum := wrap32 (sum + T.pc_on_sq sq_bk k0 l0)
      wrap32 (sum - T.pc_on_sq sq_wk k1 l1))
    sum

/-- The loop `for (i = 0; i < nlist; i++)` of `evaluate` on the `int` variable
`sum`: `sum += kkp[sq_bk][SQ_WKING][k0];` and the inner loop. -/
def evalLoop32 (T : Tables) (sq_bk sq_wk sq_wking : Int) (list0 list1 : List Int)
    (nlist : Nat) (sum : Int) : Int :=
  (List.range nlist).foldl
    (fun sum i =>
      let k0 := list0.getD i 0
      let k1 := list1.getD i 0
      let sum := wrap32 (sum + T.kkp sq_bk sq_wking k0)
      evalInner32 T sq_bk sq_wk list0 list1 k0 k1 i sum)
    sum

/-- The value of the `int` variable `sum` when `evaluate` reaches
`score += sum` (source lines 948-1031).  The lists are the local arrays
`int list0[NLIST], list1[NLIST]`: when `make_list` returns more than `NLIST`
entries it has written past their end and its `assert( nlist <= NLIST )`
fails, and there is no value. -/
def evalSum32 (T : Tables) (L : HandLayout) (pos : Position) : Option Int :=
  let sum : Int := 0
  let sq_bk := SQ_BKING pos
  let sq_wk := Inv (SQ_WKING pos)
  let ls := make_list L pos
  let nlist := ls.nlist
  if nlist ≤ NLIST then
    let sum := evalLoop32 T sq_bk sq_wk (SQ_WKING pos) ls.list0 ls.list1 nlist sum
    some (wrap32 (sum + T.kk sq_bk (SQ_WKING pos)))
  else none

/-- Embedding of `Position::evaluate` in the full-table build, with the
arithmetic of `int` and the capacity of the local arrays: `score = 0`,
`make_list` adds 0 to it, then `score += sum; score /= FV_SCALE;
score += MATERIAL;` and `score = (us == BLACK) ? score : -score`.  C++ `/` on
`int` truncates toward zero. -/
def evaluate32 (T : Tables) (L : HandLayout) (pos : Position) (us : Color) : Option Int :=
  match evalSum32 T L pos with
  | none => none
  | some sum =>
    let score : Int := 0
    let score := wrap32 (score + 0)
    let score := wrap32 (score + sum)
    let score := Int.tdiv score FV_SCALE
    let score := wrap32 (score + MATERIAL pos)
    some (if us = Color.BLACK then score else wrap32 (-score))

/-! ## The features written by `make_list` -/

/-- The hand features of a position as the specification describes them: for
every (kind, colour) slot with a positive count, in slot order, the feature
"that colour holds that many pieces of the kind". -/
def handFeatures (L : HandLayout) (pos : Position) : List Feature :=
  (handSlots.filter (fun s => 0 < slotCount L pos s)).map
    (fun s => Feature.hand s.1 s.2 (slotCount L pos s))

/-- The board features of a position as the specification describes them: for
every square in scan order that holds a non-king piece, the feature "a piece
of that class and colour stands on that square". -/
def boardFeatures (pos : Position) : List Feature :=
  gridCells.filterMap (fun z =>
    (pieceClass (pos.ban z)).map (fun cc => Feature.board cc.1 cc.2 (z2sq z)))

/-- The active features of a position: hand features, then board features. -/
def features (L : HandLayout) (pos : Position) : List Feature :=
  handFeatures L pos ++ boardFeatures pos

/-! ## Worked data -/

/-- A hand encoding (five bits for pawns at bit 0, then four-bit fields every
four bits from bit 8 on) used to run the definitions on concrete positions. -/
def sampleLayout : HandLayout :=
  { HAND_FU_MASK := 0x1f, HAND_FU_SHIFT := 0,
    HAND_KY_MASK := 0xf00, HAND_KY_SHIFT := 8,
    HAND_KE_MASK := 0xf000, HAND_KE_SHIFT := 12,
    HAND_GI_MASK := 0xf0000, HAND_GI_SHIFT := 16,
    HAND_KI_MASK := 0xf00000, HAND_KI_SHIFT := 20,
    HAND_KA_MASK := 0xf000000, HAND_KA_SHIFT := 24,
    HAND_HI_MASK := 0xf0000000, HAND_HI_SHIFT := 28 }

/-- The position with only the two kings, on their starting squares: Black's
king on file 5 rank 9 (square 76), White's on file 5 rank 1 (square 4). -/
def kingsOnly : Position :=
  { ban := fun z => if z = 0x59 then Piece.SOU else if z = 0x51 then Piece.GOU else Piece.EMP,
    knkind := fun _ => Piece.EMP,
    kingS := 0x59,
    kingG := 0x51,
    hand := fun _ => 0,
    material := 0 }

/-- Tables that are zero except for `kk[a][b] = -31`. -/
def smallNegTables : Tables :=
  { kk := fun _ _ => -31,
    kkp := fun _ _ _ => 0,
    pc_on_sq := fun _ _ _ => 0 }

/-- The all-zero tables. -/
def zeroTables : Tables :=
  { kk := fun _ _ => 0,
    kkp := fun _ _ _ => 0,
    pc_on_sq := fun _ _ _ => 0 }

/-- The starting board: White's pieces on ranks 1 to 3, Black's on ranks 7
to 9, walls around the 9x9 grid. -/
def startBan (z : Nat) : Piece :=
  let x := z >>> 4
  let y := z &&& 15
  if x < 1 ∨ 9 < x ∨ y < 1 ∨ 9 < y then Piece.WALL
  else if y = 1 then
    (if x = 1 ∨ x = 9 then Piece.GKY else if x = 2 ∨ x = 8 then Piece.GKE
     else if x = 3 ∨ x = 7 then Piece.GGI else if x = 4 ∨ x = 6 then Piece.GKI
     else Piece.GOU)
  else if y = 2 then
    (if x = 8 then Piece.GHI else if x = 2 then Piece.GKA else Piece.EMP)
  else if y = 3 then Piece.GFU
  else if y = 7 then Piece.SFU
  else if y = 8 then
    (if x = 8 then Piece.SKA else if x = 2 then Piece.SHI else Piece.EMP)
  else if y = 9 then
    (if x = 1 ∨ x = 9 then Piece.SKY else if x = 2 ∨ x = 8 then Piece.SKE
     else if x = 3 ∨ x = 7 then Piece.SGI else if x = 4 ∨ x = 6 then Piece.SKI
     else Piece.SOU)
  else Piece.EMP

/-- The inventory of the starting position under the piece numbering kings
1-2, rooks 3-4, bishops 5-6, golds 7-10, silvers 11-14, knights 15-18, lances
19-22, pawns 23-40. -/
def startKnkind (i : Nat) : Piece :=
  if i = 1 then Piece.SOU else if i = 2 then Piece.GOU
  else if i = 3 then Piece.SHI else if i = 4 then Piece.GHI
  else if i = 5 then Piece.SKA else if i = 6 then Piece.GKA
  else if 7 ≤ i ∧ i ≤ 8 then Piece.SKI else if 9 ≤ i ∧ i ≤ 10 then Piece.GKI
  else if 11 ≤ i ∧ i ≤ 12 then Piece.SGI else if 13 ≤ i ∧ i ≤ 14 then Piece.GGI
  else if 15 ≤ i ∧ i ≤ 16 then Piece.SKE else if 17 ≤ i ∧ i ≤ 18 then Piece.GKE
  else if 19 ≤ i ∧ i ≤ 20 then Piece.SKY else if 21 ≤ i ∧ i ≤ 22 then Piece.GKY
  else if 23 ≤ i ∧ i ≤ 31 then Piece.SFU else if 32 ≤ i ∧ i ≤ 40 then Piece.GFU
  else Piece.EMP

/-- The starting position: all forty pieces on the board, empty hands. -/
def startPos : Position :=
  { ban := startBan,
    knkind := startKnkind,
    kingS := 0x59,
    kingG := 0x51,
    hand := fun _ => 0,
    material := 0 }

/-- A piece numbering in the order kings, rooks, bishops, golds, silvers,
knights, lances, pawns, used to run `compute_material` on concrete
positions. -/
def sampleRanges : KnRanges :=
  { KNS_FU := 23, KNE_FU := 40, KNS_KY := 19, KNE_KY := 22, KNS_KE := 15, KNE_KE := 18,
    KNS_GI := 11, KNE_GI := 14, KNS_KI := 7, KNE_KI := 10, KNS_KA := 5, KNE_KA := 6,
    KNS_HI := 3, KNE_HI := 4 }

/-- Material constants used to run `compute_material` on concrete positions. -/
def sampleParams : Params :=
  { DPawn := 100, DLance := 300, DKnight := 400, DSilver := 500, DGold := 600,
    DBishop := 800, DRook := 1000, DKing := 15000, DProPawn := 600, DProLance := 600,
    DProKnight := 600, DProSilver := 600, DHorse := 1100, DDragon := 1300 }

/-- A board with the two kings and a Black pawn on square 1 (file 2, rank 1),
a square on which a pawn cannot legally stand. -/
def pawnOnFirstRank : Position :=
  { ban := fun z => if z = 0x59 then Piece.SOU else if z = 0x51 then Piece.GOU
                    else if z = 0x21 then Piece.SFU else Piece.EMP,
    knkind := fun i => if i = 1 then Piece.SOU else if i = 2 then Piece.GOU
                       else if i = 23 then Piece.SFU else Piece.EMP,
    kingS := 0x59,
    kingG := 0x51,
    hand := fun _ => 0,
    material := 100 }

/-- A board with the two kings, White holding one bishop in hand. -/
def whiteBishopInHand : Position :=
  { ban := fun z => if z = 0x59 then Piece.SOU else if z = 0x51 then Piece.GOU else Piece.EMP,
    knkind := fun i => if i = 1 then Piece.SOU else if i = 2 then Piece.GOU
                       else if i = 5 then Piece.GKA else Piece.EMP,
    kingS := 0x59,
    kingG := 0x51,
    hand := fun c => if c = Color.WHITE then 0x1000000 else 0,
    material := -800 }

/-- Tables with `kk[a][b] = a + b - 80`, `kkp[a][b][f] = a + b - 80` and
`pc_on_sq[k][f][g] = k + f * g`: symmetric in the feature pair, and the
king-pair tables change sign under `(a, b) -> (80 - b, 80 - a)`. -/
def symTables : Tables :=
  { kk := fun a b => a + b - 80,
    kkp := fun a b _ => a + b - 80,
    pc_on_sq := fun k f g => k + f * g }

/-- A legal middle-game position: Black's king on square 69 (file 7, rank 8) and
rook on square 40; White's king on square 2 (file 3, rank 1) and a pawn on
square 20; White holds a bishop and two pawns.  Material balance
`1000 - 800 - 3 * 100` under `sampleParams`. -/
def midPos : Position :=
  { ban := fun z => if z = 0x78 then Piece.SOU else if z = 0x31 then Piece.GOU
                    else if z = 0x55 then Piece.SHI else if z = 0x33 then Piece.GFU
                    else Piece.EMP,
    knkind := fun i => if i = 1 then Piece.SOU else if i = 2 then Piece.GOU
                       else if i = 3 then Piece.SHI else if i = 5 then Piece.GKA
                       else if 23 ≤ i ∧ i ≤ 25 then Piece.GFU else Piece.EMP,
    kingS := 0x78,
    kingG := 0x31,
    hand := fun c => if c = Color.WHITE then 0x1000002 else 0,
    material := -100 }

/-- Tables that are zero except for `pc_on_sq[k][f][g] = f`, which is not
symmetric in the feature pair. -/
def asymTables : Tables :=
  { kk := fun _ _ => 0,
    kkp := fun _ _ _ => 0,
    pc_on_sq := fun _ f _ => f }

/-- The cell representation of the x86 machines the engine runs on:
little-endian two's complement. -/
def littleEndian : Codec :=
  { enc16 := fun v => [(v % 65536).toNat % 256, (v % 65536).toNat / 256],
    dec16 := fun bs =>
      let u : Int := ((bs.getD 0 0 + 256 * bs.getD 1 0 : Nat) : Int)
      if u < 32768 then u else u - 65536,
    enc32 := fun v =>
      [(v % 4294967296).toNat % 256, (v % 4294967296).toNat / 256 % 256,
       (v % 4294967296).toNat / 65536 % 256, (v % 4294967296).toNat / 16777216],
    dec32 := fun bs =>
      let u : Int := ((bs.getD 0 0 + 256 * bs.getD 1 0 + 65536 * bs.getD 2 0
        + 16777216 * bs.getD 3 0 : Nat) : Int)
      if u < 2147483648 then u else u - 4294967296 }

/-- The position `midPos` with one pawn in Black's hand instead of none; the
board is the same. -/
def midPosPawn : Position :=
  { midPos with hand := fun c => if c = Color.WHITE then 0x1000002 else 1 }

/-- A board with the two kings on their starting squares and a Black silver
on every other square of ranks 1 to 6: 53 non-king pieces, more than the
`NLIST = 52` entries that the arrays of `evaluate` hold. -/
def crowdedPos : Position :=
  { ban := fun z =>
      if z = 0x59 then Piece.SOU else if z = 0x51 then Piece.GOU
      else if 1 ≤ z >>> 4 ∧ z >>> 4 ≤ 9 ∧ 1 ≤ z &&& 15 ∧ z &&& 15 ≤ 6 then Piece.SGI
      else Piece.EMP,
    knkind := fun _ => Piece.EMP,
    kingS := 0x59,
    kingG := 0x51,
    hand := fun _ => 0,
    material := 0 }

/-- Tables with `kk[a][b] = 2147483647` (the largest `int`), `kkp[a][b][f] = 1`
and `pc_on_sq` zero: every cell is within the range of its C type, and the sum
of `evaluate` leaves the range of `int` as soon as one feature is active. -/
def overflowTables : Tables :=
  { kk := fun _ _ => 2147483647,
    kkp := fun _ _ _ => 1,
    pc_on_sq := fun _ _ _ => 0 }

/-- Tables of 16-bit cells: `kk[a][b] = a - b`, `kkp[a][b][f] = f % 100` and
`pc_on_sq[k][f][g] = (k + f + g) % 32768 - 16384`, which lies in
`[-16384, 16383]` for all indices. -/
def shortTables : Tables :=
  { kk := fun a b => a - b,
    kkp := fun _ _ f => f % 100,
    pc_on_sq := fun k f g => (k + f + g) % 32768 - 16384 }

/-- The index pairs `(i, j)` with `j < i < n`, as a finite set of dependent
pairs `⟨i, j⟩`. -/
def pairIdx (n : Nat) : Finset (Sigma fun _ : Nat => Nat) :=
  (Finset.range n).sigma (fun i => Finset.range i)

/-- The king-pair terms of the sum of `evaluate`, over the integers:
`kk[sq_bk][SQ_WKING]` and, for every `i < nlist`, `kkp[sq_bk][SQ_WKING][list0[i]]`. -/
def kingTerms (T : Tables) (L : HandLayout) (pos : Position) : Int :=
  T.kk (SQ_BKING pos) (SQ_WKING pos)
    + ∑ i in Finset.range (make_list L pos).nlist,
        T.kkp (SQ_BKING pos) (SQ_WKING pos) ((make_list L pos).list0.getD i 0)

/-- The pairwise terms of the sum of `evaluate`, over the integers: for every
index pair `j < i < nlist`,
`pc_on_sq[sq_bk][list0[i]][list0[j]] - pc_on_sq[sq_wk][list1[i]][list1[j]]`
with `sq_wk = Inv(SQ_WKING)`. -/
def pairTerms (T : Tables) (L : HandLayout) (pos : Position) : Int :=
  ∑ p in pairIdx (make_list L pos).nlist,
    (T.pc_on_sq (SQ_BKING pos) ((make_list L pos).list0.getD p.1 0)
        ((make_list L pos).list0.getD p.2 0)
      - T.pc_on_sq (Inv (SQ_WKING pos)) ((make_list L pos).list1.getD p.1 0)
        ((make_list L pos).list1.getD p.2 0))

end Nanoha

namespace Nanoha

/-! ## Loop lemmas -/

theorem foldl_range_add (g : Nat → Int) (n : Nat) (s : Int) :
    (List.range n).foldl (fun acc i => acc + g i) s = s + ∑ i in Finset.range n, g i := by
  induction n with
  | zero => simp
  | succ n ih =>
    rw [List.range_succ, List.foldl_append, ih, Finset.sum_range_succ]
    simp [add_assoc]

theorem evalInner_eq (T : Tables) (sq_bk sq_wk : Int) (list0 list1 : List Int)
    (k0 k1 : Int) (i : Nat) (sum : Int) :
    evalInner T sq_bk sq_wk list0 list1 k0 k1 i sum
      = sum + ∑ j in Finset.range i,
          (T.pc_on_sq sq_bk k0 (list0.getD j 0) - T.pc_on_sq sq_wk k1 (list1.getD j 0)) := by
  unfold evalInner
  rw [← foldl_range_add]
  congr 1
  funext acc j
  ring

theorem evalLoop_eq (T : Tables) (sq_bk sq_wk sq_wking : Int) (list0 list1 : List Int)
    (nlist : Nat) (sum : Int) :
    evalLoop T sq_bk sq_wk sq_wking list0 list1 nlist sum
      = sum + ∑ i in Finset.range nlist,
          (T.kkp sq_bk sq_wking (list0.getD i 0)
            + ∑ j in Finset.range i,
                (T.pc_on_sq sq_bk (list0.getD i 0) (list0.getD j 0)
                  - T.pc_on_sq sq_wk (list1.getD i 0) (list1.getD j 0))) := by
  unfold evalLoop
  rw [← foldl_range_add]
  congr 1
  funext acc i
  simp only [evalInner_eq]
  ring

theorem evalSum_eq (T : Tables) (L : HandLayout) (pos : Position) :
    evalSum T L pos
      = T.kk (SQ_BKING pos) (SQ_WKING pos)
        + ∑ i in Finset.range (make_list L pos).nlist,
            T.kkp (SQ_BKING pos) (SQ_WKING pos) ((make_list L pos).list0.getD i 0)
        + ∑ i in Finset.range (make_list L pos).nlist, ∑ j in Finset.range i,
            (T.pc_on_sq (SQ_BKING pos) ((make_list L pos).list0.getD i 0)
                ((make_list L pos).list0.getD j 0)
              - T.pc_on_sq (Inv (SQ_WKING pos)) ((make_list L pos).list1.getD i 0)
                ((make_list L pos).list1.getD j 0)) := by
  unfold evalSum
  simp only [evalLoop_eq, Finset.sum_add_distrib]
  ring


/-! ## The sum formed by `evaluate` -/

theorem mem_pairIdx (n : Nat) (p : Sigma fun _ : Nat => Nat) :
    p ∈ pairIdx n ↔ (p.2 < p.1 ∧ p.1 < n) := by
  unfold pairIdx
  rw [Finset.mem_sigma, Finset.mem_range, Finset.mem_range]
  exact And.comm

theorem card_pairIdx (n : Nat) : (pairIdx n).card = n * (n - 1) / 2 := by
  unfold pairIdx
  rw [Finset.card_sigma]
  simp only [Finset.card_range]
  exact Finset.sum_range_id n

/-! ## Scaling and sign -/

theorem Lists.append_nil (st : Lists) : st.append [] = st := by
  cases st
  simp [Lists.append]

theorem Lists.append_append (st : Lists) (a b : List (Int × Int)) :
    (st.append a).append b = st.append (a ++ b) := by
  simp [Lists.append]

theorem handStep_eq (c : Nat) (b0 b1 : Int) (st : Lists) :
    handStep c b0 b1 st = st.append (if 0 < c then [(b0 + c, b1 + c)] else []) := by
  unfold handStep
  by_cases h : 0 < c
  · simp [h, Lists.append, Lists.push]
  · have : c = 0 := by omega
    subst this
    simp [Lists.append]

theorem boardCase_eq (p : Piece) (sq : Int) (st : Lists) :
    boardCase p sq st = st.append (boardEntry p sq) := by
  cases p <;> simp [boardCase, boardEntry, Lists.append, Lists.push, Lists.empty]

theorem boardEntry_length (p : Piece) (sq : Int) :
    (boardEntry p sq).length = if p.isNonKingPiece then 1 else 0 := by
  cases p <;> rfl

theorem foldl_boardCase (pos : Position) (cells : List Nat) (st : Lists) :
    cells.foldl (fun st z => boardCase (pos.ban z) (z2sq z) st) st
      = st.append (cells.flatMap (fun z => boardEntry (pos.ban z) (z2sq z))) := by
  induction cells generalizing st with
  | nil => simp [Lists.append_nil]
  | cons z zs ih =>
    rw [List.foldl_cons, ih, boardCase_eq, Lists.append_append]
    simp

theorem make_list_board_eq (pos : Position) (st : Lists) :
    make_list_board pos st = st.append (boardEntries pos) := by
  rw [boardEntries, ← foldl_boardCase, gridCells, List.flatMap_def, List.foldl_flatten,
    List.foldl_map]
  simp only [List.foldl_map]
  rfl

theorem filter_map_cons {α β : Type} (p : α → Bool) (f : α → β) (x : α) (xs : List α) :
    ((x :: xs).filter p).map f = (if p x then [f x] else []) ++ (xs.filter p).map f := by
  by_cases h : p x <;> simp [List.filter_cons, h]

theorem make_list_hand_eq (L : HandLayout) (pos : Position) :
    make_list_hand L pos = Lists.empty.append (handEntries L pos) := by
  unfold make_list_hand
  simp only [handStep_eq, Lists.append_append]
  congr 1
  simp only [handEntries, handSlots, List.flatMap_cons, List.flatMap_nil, List.cons_append,
    List.nil_append, List.append_nil, filter_map_cons, List.filter_nil, List.map_nil,
    slotCount, handCount, handBase, Color.flip, HAND_B, HAND_W, decide_eq_true_eq,
    List.append_assoc]

/-- The lists built by `make_list` are the hand entries followed by the board
entries. -/
theorem make_list_eq (L : HandLayout) (pos : Position) :
    make_list L pos = Lists.empty.append (handEntries L pos ++ boardEntries pos) := by
  rw [make_list, make_list_board_eq, make_list_hand_eq, Lists.append_append]

theorem make_list_list0 (L : HandLayout) (pos : Position) :
    (make_list L pos).list0 = (handEntries L pos ++ boardEntries pos).map Prod.fst := by
  rw [make_list_eq]
  simp [Lists.append, Lists.empty]

theorem make_list_list1 (L : HandLayout) (pos : Position) :
    (make_list L pos).list1 = (handEntries L pos ++ boardEntries pos).map Prod.snd := by
  rw [make_list_eq]
  simp [Lists.append, Lists.empty]

theorem handEntries_length_le (L : HandLayout) (pos : Position) :
    (handEntries L pos).length ≤ 14 := by
  unfold handEntries
  rw [List.length_map]
  exact le_trans (List.length_filter_le _ _) (by decide)

theorem boardEntries_length (pos : Position) :
    (boardEntries pos).length = boardPieceCount pos := by
  unfold boardEntries boardPieceCount
  generalize gridCells = cells
  induction cells with
  | nil => rfl
  | cons z zs ih =>
    rw [List.flatMap_cons, List.length_append, ih, boardEntry_length, List.countP_cons]
    cases (pos.ban z).isNonKingPiece <;> simp [Nat.add_comm]


theorem make_list_nlist (L : HandLayout) (pos : Position) :
    (make_list L pos).nlist = (handEntries L pos).length + boardPieceCount pos := by
  rw [Lists.nlist, make_list_list0, List.length_map, List.length_append, boardEntries_length]

/-- C9.  On a board with at most 38 non-king pieces the count returned by
`make_list` is at most `NLIST = 52`: at most 14 hand entries plus one entry
per non-king piece on the board; both lists have exactly that many entries,
so every write has an index below 52. -/
theorem make_list_nlist_le (L : HandLayout) (pos : Position)
    (h : boardPieceCount pos ≤ 38) :
    (make_list L pos).nlist ≤ NLIST
    ∧ (make_list L pos).list0.length = (make_list L pos).nlist
    ∧ (make_list L pos).list1.length = (make_list L pos).nlist
    ∧ (make_list_hand L pos).nlist ≤ 14
    ∧ (make_list L pos).nlist = (make_list_hand L pos).nlist + boardPieceCount pos := by
  have hh : (make_list_hand L pos).nlist = (handEntries L pos).length := by
    rw [make_list_hand_eq]
    simp [Lists.nlist, Lists.append, Lists.empty]
  have hle := handEntries_length_le L pos
  have hn := make_list_nlist L pos
  refine ⟨?_, rfl, ?_, ?_, ?_⟩
  · rw [hn, NLIST]
    omega
  · rw [Lists.nlist, make_list_list1, make_list_list0, List.length_map, List.length_map]
  · rw [hh]
    exact hle
  · rw [hn, hh]

/-- C9, run on the starting position: 38 pieces on the board, 38 entries. -/
theorem make_list_nlist_le_witness :
    boardPieceCount startPos ≤ 38
    ∧ (make_list sampleLayout startPos).nlist ≤ NLIST
    ∧ (make_list sampleLayout startPos).list0.length = (make_list sampleLayout startPos).nlist
    ∧ (make_list sampleLayout startPos).list1.length = (make_list sampleLayout startPos).nlist
    ∧ (make_list_hand sampleLayout startPos).nlist ≤ 14
    ∧ (make_list sampleLayout startPos).nlist
        = (make_list_hand sampleLayout startPos).nlist + boardPieceCount startPos :=
  ⟨by decide, make_list_nlist_le sampleLayout startPos (by decide)⟩

/-- C10.  The hand part of `make_list` visits the kinds pawn, lance, knight,
silver, gold, bishop, rook, Black before White within a kind; a slot with
count 0 gives no entry and a slot with count `c > 0` gives the one pair
`(base of its colour + c, base of the other colour + c)`.  These entries are
the first entries of the lists that `make_list` returns; their number is the
number of slots with a positive count, at most 14. -/
theorem make_list_hand_entries (L : HandLayout) (pos : Position) :
    (make_list_hand L pos).list0 = (handEntries L pos).map Prod.fst
    ∧ (make_list_hand L pos).list1 = (handEntries L pos).map Prod.snd
    ∧ (make_list L pos).list0.take (handEntries L pos).length
        = (handEntries L pos).map Prod.fst
    ∧ (make_list L pos).list1.take (handEntries L pos).length
        = (handEntries L pos).map Prod.snd
    ∧ (handEntries L pos).length = handSlots.countP (fun s => 0 < slotCount L pos s)
    ∧ (handEntries L pos).length ≤ 14
    ∧ handSlots
        = [(HandKind.FU, Color.BLACK), (HandKind.FU, Color.WHITE),
           (HandKind.KY, Color.BLACK), (HandKind.KY, Color.WHITE),
           (HandKind.KE, Color.BLACK), (HandKind.KE, Color.WHITE),
           (HandKind.GI, Color.BLACK), (HandKind.GI, Color.WHITE),
           (HandKind.KI, Color.BLACK), (HandKind.KI, Color.WHITE),
           (HandKind.KA, Color.BLACK), (HandKind.KA, Color.WHITE),
           (HandKind.HI, Color.BLACK), (HandKind.HI, Color.WHITE)] := by
  refine ⟨?_, ?_, ?_, ?_, ?_, handEntries_length_le L pos, rfl⟩
  · rw [make_list_hand_eq]
    simp [Lists.append, Lists.empty]
  · rw [make_list_hand_eq]
    simp [Lists.append, Lists.empty]
  · rw [make_list_list0, List.map_append]
    have : (handEntries L pos).length = ((handEntries L pos).map Prod.fst).length := by simp
    rw [this, List.take_left]
  · rw [make_list_list1, List.map_append]
    have : (handEntries L pos).length = ((handEntries L pos).map Prod.snd).length := by simp
    rw [this, List.take_left]
  · rw [handEntries, List.length_map, List.countP_eq_length_filter]

/-! ## The mirror map -/

theorem Inv_Inv (sq : Int) : Inv (Inv sq) = sq := by
  unfold Inv
  ring

theorem colorFlip_flip (c : Color) : c.flip.flip = c := by
  cases c <;> rfl

theorem Feature.mirror_mirror (ft : Feature) : ft.mirror.mirror = ft := by
  cases ft <;> simp [Feature.mirror, colorFlip_flip, Inv_Inv]

theorem Feature.mirror_emittable (ft : Feature) (h : ft.emittable) : ft.mirror.emittable := by
  cases ft with
  | hand k c n => exact h
  | board cls c sq =>
    cases c <;> simp only [Feature.mirror, Feature.emittable, Color.flip, Inv, nsquare] at h ⊢ <;>
      omega

theorem mirrorFeature_eq (f : Int) :
    mirrorFeature f =
      if f < 0 then f
      else if f < 19 then 19 + f
      else if f < 38 then f - 19
      else if f < 43 then 5 + f
      else if f < 48 then f - 5
      else if f < 53 then 5 + f
      else if f < 58 then f - 5
      else if f < 63 then 5 + f
      else if f < 68 then f - 5
      else if f < 73 then 5 + f
      else if f < 78 then f - 5
      else if f < 81 then 3 + f
      else if f < 84 then f - 3
      else if f < 87 then 3 + f
      else if f < 90 then f - 3
      else if f < 162 then 323 - f
      else if f < 234 then 323 - f
      else if f < 306 then 611 - f
      else if f < 378 then 611 - f
      else if f < 441 then 881 - f
      else if f < 504 then 881 - f
      else if f < 585 then 1169 - f
      else if f < 666 then 1169 - f
      else if f < 747 then 1493 - f
      else if f < 828 then 1493 - f
      else if f < 909 then 1817 - f
      else if f < 990 then 1817 - f
      else if f < 1071 then 2141 - f
      else if f < 1152 then 2141 - f
      else if f < 1233 then 2465 - f
      else if f < 1314 then 2465 - f
      else if f < 1395 then 2789 - f
      else if f < 1476 then 2789 - f
      else f := by
  simp only [mirrorFeature, Inv, nsquare, f_hand_pawn, e_hand_pawn, f_hand_lance, e_hand_lance,
    f_hand_knight, e_hand_knight, f_hand_silver, e_hand_silver, f_hand_gold, e_hand_gold,
    f_hand_bishop, e_hand_bishop, f_hand_rook, e_hand_rook, fe_hand_end, f_pawn, e_pawn,
    f_lance, e_lance, f_knight, e_knight, f_silver, e_silver, f_gold, e_gold, f_bishop,
    e_bishop, f_horse, e_horse, f_rook, e_rook, f_dragon, e_dragon, fe_end]
  repeat (first | rfl | (apply ite_congr rfl (fun _ => by ring)) | intro _)

theorem mirrorFeature_index (ft : Feature) (h : ft.emittable) :
    mirrorFeature ft.index = ft.mirror.index := by
  rw [mirrorFeature_eq]
  cases ft with
  | hand k c n =>
    cases k <;> cases c <;>
      simp only [Feature.emittable, handMax] at h <;>
      simp only [Feature.index, Feature.mirror, Color.flip, handBase,
        f_hand_pawn, e_hand_pawn, f_hand_lance, e_hand_lance, f_hand_knight,
        e_hand_knight, f_hand_silver, e_hand_silver, f_hand_gold, e_hand_gold, f_hand_bishop,
        e_hand_bishop, f_hand_rook, e_hand_rook] <;>
      (repeat (first | rw [if_pos (by omega)] | rw [if_neg (by omega)])) <;> omega
  | board cls c sq =>
    cases cls <;> cases c <;>
      simp only [Feature.emittable, minSquare] at h <;>
      simp only [Feature.index, Feature.mirror, Color.flip, boardBase, Inv,
        nsquare, f_pawn, e_pawn, f_lance, e_lance,
        f_knight, e_knight, f_silver, e_silver, f_gold, e_gold, f_bishop, e_bishop, f_horse,
        e_horse, f_rook, e_rook, f_dragon, e_dragon] <;>
      (repeat (first | rw [if_pos (by omega)] | rw [if_neg (by omega)])) <;> omega

theorem Feature.index_range (ft : Feature) (h : ft.emittable) :
    0 ≤ ft.index ∧ ft.index < fe_end := by
  cases ft with
  | hand k c n =>
    cases k <;> cases c <;>
      simp only [Feature.emittable, handMax] at h <;>
      simp only [Feature.index, handBase, f_hand_pawn, e_hand_pawn, f_hand_lance, e_hand_lance,
        f_hand_knight, e_hand_knight, f_hand_silver, e_hand_silver, f_hand_gold, e_hand_gold,
        f_hand_bishop, e_hand_bishop, f_hand_rook, e_hand_rook, fe_end] <;>
      omega
  | board cls c sq =>
    cases cls <;> cases c <;>
      simp only [Feature.emittable, minSquare] at h <;>
      simp only [Feature.index, boardBase, f_pawn, e_pawn, f_lance, e_lance,
        f_knight, e_knight, f_silver, e_silver, f_gold, e_gold, f_bishop, e_bishop, f_horse,
        e_horse, f_rook, e_rook, f_dragon, e_dragon, fe_end] <;>
      omega

/-- C8.  `Inv` maps `[0, 80]` into itself and is its own inverse there; the
mirror map sends every feature that `make_list` can emit to such a feature
(the one with the colour swapped and the square rotated) and applying it
twice gives the feature back. -/
theorem mirror_involutive :
    (∀ sq : Int, 0 ≤ sq → sq ≤ 80 → 0 ≤ Inv sq ∧ Inv sq ≤ 80 ∧ Inv (Inv sq) = sq)
    ∧ (∀ ft : Feature, ft.emittable →
        ft.mirror.emittable
        ∧ mirrorFeature ft.index = ft.mirror.index
        ∧ mirrorFeature (mirrorFeature ft.index) = ft.index) := by
  constructor
  · intro sq h0 h1
    refine ⟨?_, ?_, Inv_Inv sq⟩ <;> simp only [Inv, nsquare] <;> omega
  · intro ft h
    refine ⟨ft.mirror_emittable h, mirrorFeature_index ft h, ?_⟩
    rw [mirrorFeature_index ft h, mirrorFeature_index ft.mirror (ft.mirror_emittable h),
      Feature.mirror_mirror]

/-- C8, run on square 4 and on Black's pawn on square 60 (index 141, mirror
partner 182: White's pawn on square 20). -/
theorem mirror_involutive_witness :
    (0 ≤ Inv 4 ∧ Inv 4 ≤ 80 ∧ Inv (Inv 4) = 4)
    ∧ ((Feature.board BoardClass.pawn Color.BLACK 60).mirror.emittable
        ∧ mirrorFeature (Feature.board BoardClass.pawn Color.BLACK 60).index
            = (Feature.board BoardClass.pawn Color.BLACK 60).mirror.index
        ∧ mirrorFeature (mirrorFeature (Feature.board BoardClass.pawn Color.BLACK 60).index)
            = (Feature.board BoardClass.pawn Color.BLACK 60).index) :=
  ⟨mirror_involutive.1 4 (by decide) (by decide),
   mirror_involutive.2 (Feature.board BoardClass.pawn Color.BLACK 60)
     (by simp [Feature.emittable, minSquare])⟩

/-! ## Entries of `make_list` as features -/

theorem boardEntry_eq_class (p : Piece) (sq : Int) :
    boardEntry p sq =
      match pieceClass p with
      | some cc => [(boardBase cc.1 cc.2 + sq, boardBase cc.1 cc.2.flip + Inv sq)]
      | none => [] := by
  cases p <;> rfl

theorem gridCells_sq : ∀ z ∈ gridCells, 0 ≤ z2sq z ∧ z2sq z ≤ 80 := by
  decide

theorem handEntries_feature (L : HandLayout) (pos : Position) (hh : LegalHands L pos)
    (e : Int × Int) (he : e ∈ handEntries L pos) :
    ∃ ft : Feature, ft.emittable ∧ e = (ft.index, ft.mirror.index) := by
  unfold handEntries at he
  obtain ⟨s, hs, rfl⟩ := List.mem_map.1 he
  obtain ⟨hs1, hs2⟩ := List.mem_filter.1 hs
  refine ⟨Feature.hand s.1 s.2 (slotCount L pos s), ⟨?_, hh s hs1⟩, rfl⟩
  have : 0 < slotCount L pos s := by simpa using hs2
  omega

theorem boardEntries_feature (pos : Position) (hb : LegalBoard pos)
    (e : Int × Int) (he : e ∈ boardEntries pos) :
    ∃ ft : Feature, ft.emittable ∧ e = (ft.index, ft.mirror.index) := by
  unfold boardEntries at he
  obtain ⟨z, hz, hez⟩ := List.mem_flatMap.1 he
  have hsq := gridCells_sq z hz
  have hl := hb z hz
  rw [boardEntry_eq_class] at hez
  generalize pos.ban z = p at hl hez
  generalize z2sq z = sq at hsq hl hez
  obtain ⟨h0, h1⟩ := hsq
  cases p <;> simp only [pieceClass, List.mem_singleton, List.not_mem_nil] at hez <;>
    simp only [legalSquare, decide_eq_true_eq] at hl <;> subst hez
  all_goals first
    | exact ⟨Feature.board BoardClass.pawn Color.BLACK sq, ⟨hl, h1⟩, rfl⟩
    | exact ⟨Feature.board BoardClass.pawn Color.WHITE sq, ⟨h0, hl⟩, rfl⟩
    | exact ⟨Feature.board BoardClass.lance Color.BLACK sq, ⟨hl, h1⟩, rfl⟩
    | exact ⟨Feature.board BoardClass.lance Color.WHITE sq, ⟨h0, hl⟩, rfl⟩
    | exact ⟨Feature.board BoardClass.knight Color.BLACK sq, ⟨hl, h1⟩, rfl⟩
    | exact ⟨Feature.board BoardClass.knight Color.WHITE sq, ⟨h0, hl⟩, rfl⟩
    | exact ⟨Feature.board BoardClass.silver Color.BLACK sq, ⟨h0, h1⟩, rfl⟩
    | exact ⟨Feature.board BoardClass.silver Color.WHITE sq, ⟨h0, h1⟩, rfl⟩
    | exact ⟨Feature.board BoardClass.gold Color.BLACK sq, ⟨h0, h1⟩, rfl⟩
    | exact ⟨Feature.board BoardClass.gold Color.WHITE sq, ⟨h0, h1⟩, rfl⟩
    | exact ⟨Feature.board BoardClass.bishop Color.BLACK sq, ⟨h0, h1⟩, rfl⟩
    | exact ⟨Feature.board BoardClass.bishop Color.WHITE sq, ⟨h0, h1⟩, rfl⟩
    | exact ⟨Feature.board BoardClass.horse Color.BLACK sq, ⟨h0, h1⟩, rfl⟩
    | exact ⟨Feature.board BoardClass.horse Color.WHITE sq, ⟨h0, h1⟩, rfl⟩
    | exact ⟨Feature.board BoardClass.rook Color.BLACK sq, ⟨h0, h1⟩, rfl⟩
    | exact ⟨Feature.board BoardClass.rook Color.WHITE sq, ⟨h0, h1⟩, rfl⟩
    | exact ⟨Feature.board BoardClass.dragon Color.BLACK sq, ⟨h0, h1⟩, rfl⟩
    | exact ⟨Feature.board BoardClass.dragon Color.WHITE sq, ⟨h0, h1⟩, rfl⟩

/-- On a legal position every entry pair of `make_list` is the index of an
emittable feature paired with the index of its mirror partner. -/
theorem entries_feature (L : HandLayout) (pos : Position) (hh : LegalHands L pos)
    (hb : LegalBoard pos) (e : Int × Int) (he : e ∈ handEntries L pos ++ boardEntries pos) :
    ∃ ft : Feature, ft.emittable ∧ e = (ft.index, ft.mirror.index) := by
  rcases List.mem_append.1 he with h | h
  · exact handEntries_feature L pos hh e h
  · exact boardEntries_feature pos hb e h

theorem entries_mirror (L : HandLayout) (pos : Position) (hh : LegalHands L pos)
    (hb : LegalBoard pos) (e : Int × Int) (he : e ∈ handEntries L pos ++ boardEntries pos) :
    e.2 = mirrorFeature e.1 ∧ (0 ≤ e.1 ∧ e.1 < fe_end) ∧ (0 ≤ e.2 ∧ e.2 < fe_end) := by
  obtain ⟨ft, hft, rfl⟩ := entries_feature L pos hh hb e he
  exact ⟨(mirrorFeature_index ft hft).symm, ft.index_range hft,
    ft.mirror.index_range (ft.mirror_emittable hft)⟩

theorem getD_map_fst (E : List (Int × Int)) (i : Nat) :
    (E.map Prod.fst).getD i 0 = (E.getD i (0, 0)).1 := by
  induction E generalizing i with
  | nil => rfl
  | cons a t ih =>
    cases i with
    | zero => rfl
    | succ j => exact ih j

theorem getD_map_snd (E : List (Int × Int)) (i : Nat) :
    (E.map Prod.snd).getD i 0 = (E.getD i (0, 0)).2 := by
  induction E generalizing i with
  | nil => rfl
  | cons a t ih =>
    cases i with
    | zero => rfl
    | succ j => exact ih j

theorem getD_mem {α : Type} (l : List α) (d : α) (i : Nat) (h : i < l.length) :
    l.getD i d ∈ l := by
  induction l generalizing i with
  | nil => simp at h
  | cons a t ih =>
    cases i with
    | zero => simp
    | succ j =>
      have hj : j < t.length := by simpa using h
      simpa using Or.inr (ih j hj)

/-! ## The sum of `evaluate` as a sum over list entries -/

theorem sum_getD {α : Type} (h : α → Int) (d : α) (l : List α) :
    ∑ i in Finset.range l.length, h (l.getD i d) = (l.map h).sum := by
  induction l with
  | nil => simp
  | cons a t ih =>
    rw [List.length_cons, Finset.sum_range_succ', List.map_cons, List.sum_cons, ← ih]
    simp [add_comm]

theorem pairSum_getD {α : Type} (f : α → α → Int) (d : α) (l : List α) :
    ∑ i in Finset.range l.length, ∑ j in Finset.range i, f (l.getD i d) (l.getD j d)
      = pairSum f l := by
  induction l with
  | nil => simp [pairSum]
  | cons a t ih =>
    rw [List.length_cons, Finset.sum_range_succ', pairSum, ← ih, ← sum_getD (fun x => f x a) d t]
    simp only [Finset.range_zero, Finset.sum_empty, add_zero, ← Finset.sum_add_distrib]
    apply Finset.sum_congr rfl
    intro i _
    rw [Finset.sum_range_succ']
    simp [add_comm]

/-- The sum of `evaluate` written over the entry pairs of `make_list`. -/
theorem evalSum_entries (T : Tables) (L : HandLayout) (pos : Position) :
    evalSum T L pos
      = T.kk (z2sq pos.kingS) (z2sq pos.kingG)
        + ((handEntries L pos ++ boardEntries pos).map
            (fun e => T.kkp (z2sq pos.kingS) (z2sq pos.kingG) e.1)).sum
        + pairSum (fun a b => T.pc_on_sq (z2sq pos.kingS) a.1 b.1
                              - T.pc_on_sq (Inv (z2sq pos.kingG)) a.2 b.2)
            (handEntries L pos ++ boardEntries pos) := by
  rw [evalSum_eq, ← pairSum_getD _ (0, 0), ← sum_getD _ (0, 0)]
  simp only [Lists.nlist, make_list_list0, make_list_list1, getD_map_fst, getD_map_snd,
    List.length_map, SQ_BKING, SQ_WKING]

theorem pairSum_perm {α : Type} (f : α → α → Int) {l l' : List α} (h : l.Perm l')
    (hs : ∀ a ∈ l, ∀ b ∈ l, f a b = f b a) : pairSum f l = pairSum f l' := by
  induction h with
  | nil => rfl
  | cons a p ih =>
    rw [pairSum, pairSum, (p.map (fun x => f x a)).sum_eq,
      ih (fun x hx y hy => hs x (List.mem_cons_of_mem _ hx) y (List.mem_cons_of_mem _ hy))]
  | swap a b l =>
    simp only [pairSum, List.map_cons, List.sum_cons]
    have := hs a (by simp) b (by simp)
    rw [this]
    ring
  | trans p q ih1 ih2 =>
    rw [ih1 hs, ih2 (fun x hx y hy => hs x (p.mem_iff.2 hx) y (p.mem_iff.2 hy))]

theorem pairSum_map {α β : Type} (f : β → β → Int) (g : α → β) (l : List α) :
    pairSum f (l.map g) = pairSum (fun a b => f (g a) (g b)) l := by
  induction l with
  | nil => rfl
  | cons a t ih => simp [pairSum, ih, Function.comp_def]

theorem pairSum_congr {α : Type} (f g : α → α → Int) (l : List α)
    (h : ∀ a ∈ l, ∀ b ∈ l, f a b = g a b) : pairSum f l = pairSum g l := by
  induction l with
  | nil => rfl
  | cons a t ih =>
    rw [pairSum, pairSum,
      ih (fun x hx y hy => h x (List.mem_cons_of_mem _ hx) y (List.mem_cons_of_mem _ hy))]
    congr 2
    apply List.map_congr_left
    intro x hx
    exact h x (List.mem_cons_of_mem _ hx) a (by simp)

theorem sum_map_neg {α : Type} (h : α → Int) (l : List α) :
    (l.map (fun x => -h x)).sum = -(l.map h).sum := by
  induction l with
  | nil => rfl
  | cons b u ihu => simp [ihu, add_comm]

theorem pairSum_neg {α : Type} (f : α → α → Int) (l : List α) :
    pairSum (fun a b => -f a b) l = -pairSum f l := by
  induction l with
  | nil => rfl
  | cons a t ih =>
    rw [pairSum, pairSum, ih, sum_map_neg (fun x => f x a)]
    ring

/-! ## Material of the mirrored inventory -/

theorem pieceFlip_flip (k : Piece) : k.flip.flip = k := by
  cases k <;> rfl

theorem Piece.flip_eq_iff (k p : Piece) : k.flip = p ↔ k = p.flip := by
  constructor
  · intro h
    rw [← h, pieceFlip_flip]
  · intro h
    rw [h, pieceFlip_flip]

theorem step_neg (p q : Prop) [Decidable p] [Decidable q] (hpq : ¬ (p ∧ q)) (a : Int) :
    (if p then (if q then -a + 1 else -a) - 1 else (if q then -a + 1 else -a))
      = -(if q then (if p then a + 1 else a) - 1 else (if p then a + 1 else a)) := by
  by_cases hp : p <;> by_cases hq : q
  · exact absurd ⟨hp, hq⟩ hpq
  · simp only [hp, hq, if_true, if_false]
    ring
  · simp only [hp, hq, if_true, if_false]
    ring
  · simp only [hp, hq, if_false]

theorem countStep_flip (sp gp spp gpp : Piece) (hd : sp ≠ gp) (hd' : spp ≠ gpp)
    (hsp : gp.flip = sp) (hgp : sp.flip = gp) (hspp : gpp.flip = spp) (hgpp : spp.flip = gpp)
    (st : Int × Int) (k : Piece) :
    countStep sp gp spp gpp (-st.1, -st.2) k.flip
      = (-(countStep sp gp spp gpp st k).1, -(countStep sp gp spp gpp st k).2) := by
  have e1 : k.flip = sp ↔ k = gp := by rw [Piece.flip_eq_iff, hgp]
  have e2 : k.flip = gp ↔ k = sp := by rw [Piece.flip_eq_iff, hsp]
  have e3 : k.flip = spp ↔ k = gpp := by rw [Piece.flip_eq_iff, hgpp]
  have e4 : k.flip = gpp ↔ k = spp := by rw [Piece.flip_eq_iff, hspp]
  simp only [countStep, e1, e2, e3, e4]
  rw [step_neg (k = sp) (k = gp) (fun h => hd (h.1.symm.trans h.2)) st.1,
    step_neg (k = spp) (k = gpp) (fun h => hd' (h.1.symm.trans h.2)) st.2]

theorem countLoop_flip (sp gp spp gpp : Piece) (hd : sp ≠ gp) (hd' : spp ≠ gpp)
    (hsp : gp.flip = sp) (hgp : sp.flip = gp) (hspp : gpp.flip = spp) (hgpp : spp.flip = gpp)
    (kn : Nat → Piece) (s e : Nat) :
    countLoop (fun i => (kn i).flip) s e sp gp spp gpp
      = (-(countLoop kn s e sp gp spp gpp).1, -(countLoop kn s e sp gp spp gpp).2) := by
  unfold countLoop
  have key : ∀ (l : List Nat) (st : Int × Int),
      l.foldl (fun st i => countStep sp gp spp gpp st (kn i).flip) (-st.1, -st.2)
        = (-(l.foldl (fun st i => countStep sp gp spp gpp st (kn i)) st).1,
           -(l.foldl (fun st i => countStep sp gp spp gpp st (kn i)) st).2) := by
    intro l
    induction l with
    | nil => intro st; rfl
    | cons i t ih =>
      intro st
      rw [List.foldl_cons, List.foldl_cons,
        countStep_flip sp gp spp gpp hd hd' hsp hgp hspp hgpp, ih]
  simpa using key (List.range' s (e + 1 - s)) (0, 0)

theorem countLoopGold_flip (kn : Nat → Piece) (s e : Nat) :
    countLoopGold (fun i => (kn i).flip) s e = -countLoopGold kn s e := by
  unfold countLoopGold
  have key : ∀ (l : List Nat) (a : Int),
      l.foldl (fun item i =>
          let item := if (kn i).flip = Piece.SKI then item + 1 else item
          if (kn i).flip = Piece.GKI then item - 1 else item) (-a)
        = -(l.foldl (fun item i =>
          let item := if kn i = Piece.SKI then item + 1 else item
          if kn i = Piece.GKI then item - 1 else item) a) := by
    intro l
    induction l with
    | nil => intro a; rfl
    | cons i t ih =>
      intro a
      rw [List.foldl_cons, List.foldl_cons, ← ih]
      congr 1
      have e1 : (kn i).flip = Piece.SKI ↔ kn i = Piece.GKI := by
        rw [Piece.flip_eq_iff]; rfl
      have e2 : (kn i).flip = Piece.GKI ↔ kn i = Piece.SKI := by
        rw [Piece.flip_eq_iff]; rfl
      simp only [e1, e2]
      exact step_neg (kn i = Piece.SKI) (kn i = Piece.GKI)
        (fun h => absurd (h.1.symm.trans h.2) (by decide)) a
  simpa using key (List.range' s (e + 1 - s)) 0

theorem compute_material_flip (P : Params) (K : KnRanges) (pos q : Position)
    (h : q.knkind = fun i => (pos.knkind i).flip) :
    compute_material P K q = -compute_material P K pos := by
  unfold compute_material
  rw [h]
  rw [countLoop_flip Piece.SFU Piece.GFU Piece.STO Piece.GTO (by decide) (by decide) rfl rfl
        rfl rfl,
      countLoop_flip Piece.SKY Piece.GKY Piece.SNY Piece.GNY (by decide) (by decide) rfl rfl
        rfl rfl,
      countLoop_flip Piece.SKE Piece.GKE Piece.SNK Piece.GNK (by decide) (by decide) rfl rfl
        rfl rfl,
      countLoop_flip Piece.SGI Piece.GGI Piece.SNG Piece.GNG (by decide) (by decide) rfl rfl
        rfl rfl,
      countLoop_flip Piece.SKA Piece.GKA Piece.SUM Piece.GUM (by decide) (by decide) rfl rfl
        rfl rfl,
      countLoop_flip Piece.SHI Piece.GHI Piece.SRY Piece.GRY (by decide) (by decide) rfl rfl
        rfl rfl,
      countLoopGold_flip]
  simp only
  ring

theorem mirrorPos_material (P : Params) (K : KnRanges) (pos : Position) :
    (mirrorPos P K pos).material = -compute_material P K pos := by
  unfold mirrorPos
  exact compute_material_flip P K pos _ rfl

/-! ## Feature lists of the mirrored board -/

theorem handEntries_flatMap (L : HandLayout) (pos : Position) :
    handEntries L pos
      = [HandKind.FU, HandKind.KY, HandKind.KE, HandKind.GI, HandKind.KI, HandKind.KA,
          HandKind.HI].flatMap
          (fun k => slotEntry L pos (k, Color.BLACK) ++ slotEntry L pos (k, Color.WHITE)) := by
  simp only [handEntries, handSlots, List.flatMap_cons, List.flatMap_nil, List.cons_append,
    List.nil_append, List.append_nil, filter_map_cons, List.filter_nil, List.map_nil,
    slotEntry, decide_eq_true_eq, List.append_assoc]

theorem slotEntry_mirror (L : HandLayout) (P : Params) (K : KnRanges) (pos : Position)
    (k : HandKind) (c : Color) :
    slotEntry L (mirrorPos P K pos) (k, c) = (slotEntry L pos (k, c.flip)).map Prod.swap := by
  simp only [slotEntry, slotCount, mirrorPos, colorFlip_flip]
  split_ifs <;> simp

theorem handEntries_mirror (L : HandLayout) (P : Params) (K : KnRanges) (pos : Position) :
    (handEntries L (mirrorPos P K pos)).Perm ((handEntries L pos).map Prod.swap) := by
  rw [handEntries_flatMap, handEntries_flatMap, List.map_flatMap]
  apply List.Perm.flatMap_left
  intro k _
  rw [slotEntry_mirror, slotEntry_mirror, List.map_append]
  exact List.perm_append_comm

theorem boardEntry_flip (p : Piece) (sq : Int) :
    boardEntry p.flip sq = (boardEntry p (Inv sq)).map Prod.swap := by
  cases p <;>
    simp [boardEntry_eq_class, pieceClass, Piece.flip, boardBase, Color.flip, Inv_Inv]

set_option maxRecDepth 100000 in
theorem z2sq_le_aux : ∀ z, z < 160 → z2sq z ≤ 80 := by
  decide

set_option maxRecDepth 100000 in
theorem z2sq_mirrorZ_aux : ∀ z, z < 160 → 0 ≤ z2sq z → z2sq (mirrorZ z) = 80 - z2sq z := by
  decide

theorem z2sq_of_ge (z : Nat) (h : ¬ z < 160) : z2sq z = -1 := by
  unfold z2sq
  exact List.getD_eq_default _ _ (by simpa [z2sqTbl] using h)

theorem z2sq_le (z : Nat) : z2sq z ≤ 80 := by
  by_cases h : z < 160
  · exact z2sq_le_aux z h
  · rw [z2sq_of_ge z h]
    decide

theorem z2sq_mirrorZ (z : Nat) (h0 : 0 ≤ z2sq z) : z2sq (mirrorZ z) = 80 - z2sq z := by
  by_cases h : z < 160
  · exact z2sq_mirrorZ_aux z h h0
  · rw [z2sq_of_ge z h] at h0
    exact absurd h0 (by decide)

theorem gridCells_mirror : gridCells.map mirrorZ = gridCells.reverse := by
  decide

theorem boardEntries_mirror (P : Params) (K : KnRanges) (pos : Position) :
    boardEntries (mirrorPos P K pos)
      = (gridCells.reverse.flatMap (fun z => boardEntry (pos.ban z) (z2sq z))).map Prod.swap := by
  have hz : ∀ z ∈ gridCells,
      boardEntry ((mirrorPos P K pos).ban z) (z2sq z)
        = (boardEntry (pos.ban (mirrorZ z)) (z2sq (mirrorZ z))).map Prod.swap := by
    intro z hz
    have h0 := (gridCells_sq z hz).1
    simp only [mirrorPos, if_pos h0, boardEntry_flip, z2sq_mirrorZ z h0, Inv, nsquare]
    congr 2
  have hm := List.flatMap_map mirrorZ
    (fun w => (boardEntry (pos.ban w) (z2sq w)).map Prod.swap) gridCells
  rw [boardEntries, List.flatMap_congr hz, ← hm, gridCells_mirror, List.map_flatMap]

theorem entries_mirror_perm (L : HandLayout) (P : Params) (K : KnRanges) (pos : Position) :
    (handEntries L (mirrorPos P K pos) ++ boardEntries (mirrorPos P K pos)).Perm
      ((handEntries L pos ++ boardEntries pos).map Prod.swap) := by
  rw [List.map_append, boardEntries_mirror]
  refine (handEntries_mirror L P K pos).append ?_
  exact ((List.reverse_perm gridCells).flatMap_right _).map _

/-! ## Mirror symmetry of `evaluate` -/

theorem gridCells_eq_squares : gridCells = (List.range 81).map zOfSq := by
  decide

set_option maxRecDepth 100000 in
theorem z2sq_zOfSq : ∀ sq, sq < 81 → z2sq (zOfSq sq) = (sq : Int) := by
  decide

theorem flatMap_option {α β : Type} (f : α → Option β) (g : α → List β) (l : List α)
    (h : ∀ a ∈ l, g a = (f a).toList) : l.flatMap g = l.filterMap f := by
  induction l with
  | nil => rfl
  | cons a t ih =>
    rw [List.flatMap_cons, h a (by simp), ih (fun x hx => h x (List.mem_cons_of_mem _ hx)),
      List.filterMap_cons]
    cases f a <;> simp

theorem boardEntries_eq_bySquare (pos : Position) :
    boardEntries pos = boardEntriesBySquare pos := by
  rw [boardEntries, gridCells_eq_squares, List.flatMap_map, boardEntriesBySquare]
  apply flatMap_option
  intro sq hsq
  have h := z2sq_zOfSq sq (List.mem_range.1 hsq)
  rw [boardEntry_eq_class, h]
  cases pieceClass (pos.ban (zOfSq sq)) <;> simp [Inv, nsquare]

theorem pieceClass_isSome (p : Piece) : (pieceClass p).isSome = p.isNonKingPiece := by
  cases p <;> rfl

theorem boardPieceCount_eq (pos : Position) :
    boardPieceCount pos
      = (List.range 81).countP (fun sq => (pos.ban (zOfSq sq)).isNonKingPiece) := by
  rw [boardPieceCount, gridCells_eq_squares, List.countP_map]
  rfl

/-- C11.  After the hand entries the lists hold the board entries: squares 0
to 80 in increasing order (the scan visits the coordinates `zOfSq 0, ...,
zOfSq 80`, whose square indices are 0, ..., 80), one pair
`(base(X, C) + sq, base(X, other colour) + (80 - sq))` for a square with a
non-king piece of class `X` and colour `C`, nothing for an empty square or a
king.  The returned count is the number of hand entries plus the number of
non-king pieces on the board. -/
theorem make_list_board_entries (L : HandLayout) (pos : Position) :
    (make_list L pos).list0 = (handEntries L pos ++ boardEntriesBySquare pos).map Prod.fst
    ∧ (make_list L pos).list1 = (handEntries L pos ++ boardEntriesBySquare pos).map Prod.snd
    ∧ (make_list L pos).list0.drop (handEntries L pos).length
        = (boardEntriesBySquare pos).map Prod.fst
    ∧ (make_list L pos).list1.drop (handEntries L pos).length
        = (boardEntriesBySquare pos).map Prod.snd
    ∧ (boardEntriesBySquare pos).length
        = (List.range 81).countP (fun sq => (pos.ban (zOfSq sq)).isNonKingPiece)
    ∧ (make_list L pos).nlist
        = (handEntries L pos).length
          + (List.range 81).countP (fun sq => (pos.ban (zOfSq sq)).isNonKingPiece)
    ∧ gridCells = (List.range 81).map zOfSq
    ∧ gridCells.map z2sq = (List.range 81).map (fun sq => (sq : Int))
    ∧ (∀ p : Piece, (pieceClass p).isSome = p.isNonKingPiece) := by
  have hb := boardEntries_eq_bySquare pos
  have hc := boardPieceCount_eq pos
  refine ⟨?_, ?_, ?_, ?_, ?_, ?_, gridCells_eq_squares, by decide, pieceClass_isSome⟩
  · rw [make_list_list0, hb]
  · rw [make_list_list1, hb]
  · rw [make_list_list0, hb, List.map_append]
    have : (handEntries L pos).length = ((handEntries L pos).map Prod.fst).length := by simp
    rw [this, List.drop_left]
  · rw [make_list_list1, hb, List.map_append]
    have : (handEntries L pos).length = ((handEntries L pos).map Prod.snd).length := by simp
    rw [this, List.drop_left]
  · rw [← hb, boardEntries_length, hc]
  · rw [make_list_nlist, hc]

/-! ## The material table after `init_evaluate` -/

theorem init_p_value_eq (P : Params) :
    init_p_value P
      = [P.DDragon, P.DHorse, 0, P.DProSilver, P.DProKnight, P.DProLance, P.DProPawn, P.DKing,
         P.DRook, P.DBishop, P.DGold, P.DSilver, P.DKnight, P.DLance, P.DPawn, 0,
         P.DPawn, P.DLance, P.DKnight, P.DSilver, P.DGold, P.DBishop, P.DRook, P.DKing,
         P.DProPawn, P.DProLance, P.DProKnight, P.DProSilver, 0, P.DHorse, P.DDragon] := by
  simp [init_p_value, pawn, lance, knight, silver, gold, bishop, rook, king, pro_pawn,
    pro_lance, pro_knight, pro_silver, horse, dragon, List.replicate]

theorem p_value_kinds (P : Params) :
    p_value P (15 + pawn) = P.DPawn ∧ p_value P (15 + lance) = P.DLance
    ∧ p_value P (15 + knight) = P.DKnight ∧ p_value P (15 + silver) = P.DSilver
    ∧ p_value P (15 + gold) = P.DGold ∧ p_value P (15 + bishop) = P.DBishop
    ∧ p_value P (15 + rook) = P.DRook ∧ p_value P (15 + king) = P.DKing
    ∧ p_value P (15 + pro_pawn) = P.DProPawn ∧ p_value P (15 + pro_lance) = P.DProLance
    ∧ p_value P (15 + pro_knight) = P.DProKnight ∧ p_value P (15 + pro_silver) = P.DProSilver
    ∧ p_value P (15 + horse) = P.DHorse ∧ p_value P (15 + dragon) = P.DDragon := by
  simp only [p_value, init_p_value_eq]
  refine ⟨rfl, rfl, rfl, rfl, rfl, rfl, rfl, rfl, rfl, rfl, rfl, rfl, rfl, rfl⟩

/-- C14.  After `init_evaluate`, whatever the constants are,
`p_value[15 + K] = p_value[15 - K]` for every `K` from 1 to 15, and the
entries at offsets 0, +13 and -13, which belong to no piece kind, are 0. -/
theorem p_value_symmetric (P : Params) :
    (∀ K : Nat, 1 ≤ K → K ≤ 15 → p_value P (15 + K) = p_value P (15 - K))
    ∧ p_value P 15 = 0
    ∧ p_value P (15 + piece_null) = 0
    ∧ p_value P (15 - piece_null) = 0 := by
  simp only [p_value, init_p_value_eq, piece_null]
  refine ⟨?_, rfl, rfl, rfl⟩
  intro K h1 h2
  interval_cases K <;> rfl

/-- C14, run on the dragon entries `p_value[30]` and `p_value[0]` of the sample
constants. -/
theorem p_value_symmetric_witness :
    p_value sampleParams (15 + 15) = p_value sampleParams (15 - 15) :=
  (p_value_symmetric sampleParams).1 15 (by decide) (by decide)

/-! ## The coordinate table `z2sq` -/

set_option maxRecDepth 100000 in
theorem z2sq_grid_aux : ∀ x, x < 10 → ∀ y, y < 10 → 1 ≤ x → 1 ≤ y →
    z2sq ((x <<< 4) + y) = 9 * ((y : Int) - 1) + ((x : Int) - 1) := by
  decide

set_option maxRecDepth 100000 in
theorem z2sq_off_aux : ∀ z, z < 160 →
    ¬ (1 ≤ z >>> 4 ∧ z >>> 4 ≤ 9 ∧ 1 ≤ z &&& 15 ∧ z &&& 15 ≤ 9) → z2sq z = -1 := by
  decide

theorem z2sq_grid (x y : Nat) (hx1 : 1 ≤ x) (hx9 : x ≤ 9) (hy1 : 1 ≤ y) (hy9 : y ≤ 9) :
    z2sq ((x <<< 4) + y) = 9 * ((y : Int) - 1) + ((x : Int) - 1) :=
  z2sq_grid_aux x (by omega) y (by omega) hx1 hy1

/-- C15.  For every file `x` and rank `y` in 1..9,
`z2sq[(x << 4) + y] = 9 (y - 1) + (x - 1)`; on these coordinates the table is
one-to-one and takes every value of `[0, 80]`; every other index below 160
(file 0, rank 0 or rank 10..15) holds -1. -/
theorem z2sq_spec :
    (∀ x y : Nat, 1 ≤ x → x ≤ 9 → 1 ≤ y → y ≤ 9 →
        z2sq ((x <<< 4) + y) = 9 * ((y : Int) - 1) + ((x : Int) - 1))
    ∧ (∀ x y x' y' : Nat, 1 ≤ x → x ≤ 9 → 1 ≤ y → y ≤ 9 → 1 ≤ x' → x' ≤ 9 → 1 ≤ y' → y' ≤ 9 →
        z2sq ((x <<< 4) + y) = z2sq ((x' <<< 4) + y') → x = x' ∧ y = y')
    ∧ (∀ sq : Int, 0 ≤ sq → sq ≤ 80 →
        ∃ x y : Nat, 1 ≤ x ∧ x ≤ 9 ∧ 1 ≤ y ∧ y ≤ 9 ∧ z2sq ((x <<< 4) + y) = sq)
    ∧ (∀ z : Nat, z < 160 →
        ¬ (1 ≤ z >>> 4 ∧ z >>> 4 ≤ 9 ∧ 1 ≤ z &&& 15 ∧ z &&& 15 ≤ 9) → z2sq z = -1) := by
  refine ⟨z2sq_grid, ?_, ?_, z2sq_off_aux⟩
  · intro x y x' y' hx1 hx9 hy1 hy9 hx1' hx9' hy1' hy9' h
    rw [z2sq_grid x y hx1 hx9 hy1 hy9, z2sq_grid x' y' hx1' hx9' hy1' hy9'] at h
    omega
  · intro sq h0 h80
    refine ⟨sq.toNat % 9 + 1, sq.toNat / 9 + 1, by omega, by omega, by omega, by omega, ?_⟩
    rw [z2sq_grid _ _ (by omega) (by omega) (by omega) (by omega)]
    omega

/-- C15, run on file 5, rank 9 (square 76) and on the off-board index `0x5a`
(file 5, rank 10). -/
theorem z2sq_spec_witness :
    z2sq ((5 <<< 4) + 9) = 9 * (((9 : Nat) : Int) - 1) + (((5 : Nat) : Int) - 1)
    ∧ z2sq 0x5a = -1 :=
  ⟨z2sq_spec.1 5 9 (by decide) (by decide) (by decide) (by decide),
   z2sq_spec.2.2.2 0x5a (by decide) (by decide)⟩

/-! ## `compute_material` as a count over the inventory -/

theorem kcount_cons (kn : Nat → Piece) (i : Nat) (l : List Nat) (p : Piece) :
    kcount kn (i :: l) p = kcount kn l p + (if kn i = p then 1 else 0) := by
  unfold kcount
  rw [List.countP_cons]
  by_cases h : kn i = p <;> simp [h]

theorem kcount_append (kn : Nat → Piece) (l l' : List Nat) (p : Piece) :
    kcount kn (l ++ l') p = kcount kn l p + kcount kn l' p := by
  unfold kcount
  rw [List.countP_append]
  push_cast
  rfl

theorem step_count (p q : Prop) [Decidable p] [Decidable q] (hpq : ¬ (p ∧ q)) (a : Int) :
    (if q then (if p then a + 1 else a) - 1 else (if p then a + 1 else a))
      = a + (if p then 1 else 0) - (if q then 1 else 0) := by
  by_cases hp : p <;> by_cases hq : q
  · exact absurd ⟨hp, hq⟩ hpq
  · simp only [hp, hq, if_true, if_false]
    ring
  · simp only [hp, hq, if_true, if_false]
    ring
  · simp only [hp, hq, if_false]
    ring

theorem countStep_eq (sp gp spp gpp : Piece) (hd : sp ≠ gp) (hd' : spp ≠ gpp)
    (st : Int × Int) (k : Piece) :
    countStep sp gp spp gpp st k
      = (st.1 + (if k = sp then 1 else 0) - (if k = gp then 1 else 0),
         st.2 + (if k = spp then 1 else 0) - (if k = gpp then 1 else 0)) := by
  simp only [countStep]
  rw [step_count (k = sp) (k = gp) (fun h => hd (h.1.symm.trans h.2)) st.1,
    step_count (k = spp) (k = gpp) (fun h => hd' (h.1.symm.trans h.2)) st.2]

theorem countLoop_eq_counts (sp gp spp gpp : Piece) (hd : sp ≠ gp) (hd' : spp ≠ gpp)
    (kn : Nat → Piece) (s e : Nat) :
    countLoop kn s e sp gp spp gpp
      = (kcount kn (slotRange s e) sp - kcount kn (slotRange s e) gp,
         kcount kn (slotRange s e) spp - kcount kn (slotRange s e) gpp) := by
  unfold countLoop slotRange
  have key : ∀ (l : List Nat) (st : Int × Int),
      l.foldl (fun st i => countStep sp gp spp gpp st (kn i)) st
        = (st.1 + (kcount kn l sp - kcount kn l gp),
           st.2 + (kcount kn l spp - kcount kn l gpp)) := by
    intro l
    induction l with
    | nil => intro st; simp [kcount]
    | cons i t ih =>
      intro st
      rw [List.foldl_cons, ih, countStep_eq sp gp spp gpp hd hd']
      simp only [kcount_cons]
      ext <;> simp <;> ring
  rw [key]
  simp

theorem countLoopGold_eq_counts (kn : Nat → Piece) (s e : Nat) :
    countLoopGold kn s e
      = kcount kn (slotRange s e) Piece.SKI - kcount kn (slotRange s e) Piece.GKI := by
  unfold countLoopGold slotRange
  have key : ∀ (l : List Nat) (a : Int),
      l.foldl (fun item i =>
          let item := if kn i = Piece.SKI then item + 1 else item
          if kn i = Piece.GKI then item - 1 else item) a
        = a + (kcount kn l Piece.SKI - kcount kn l Piece.GKI) := by
    intro l
    induction l with
    | nil => intro a; simp [kcount]
    | cons i t ih =>
      intro a
      rw [List.foldl_cons, ih]
      simp only [kcount_cons]
      by_cases h1 : kn i = Piece.SKI <;> by_cases h2 : kn i = Piece.GKI
      · rw [h1] at h2
        exact absurd h2 (by decide)
      · simp [h1]
        ring
      · simp [h2]
        ring
      · simp [h1, h2]
  rw [key]
  simp

/-- `compute_material` in terms of the counts in the seven slot ranges. -/
theorem compute_material_counts (P : Params) (K : KnRanges) (pos : Position) :
    compute_material P K pos
      = (kcount pos.knkind (familyRange K .FU) Piece.SFU
            - kcount pos.knkind (familyRange K .FU) Piece.GFU) * p_value P (15 + pawn)
        + (kcount pos.knkind (familyRange K .FU) Piece.STO
            - kcount pos.knkind (familyRange K .FU) Piece.GTO) * p_value P (15 + pro_pawn)
        + (kcount pos.knkind (familyRange K .KY) Piece.SKY
            - kcount pos.knkind (familyRange K .KY) Piece.GKY) * p_value P (15 + lance)
        + (kcount pos.knkind (familyRange K .KY) Piece.SNY
            - kcount pos.knkind (familyRange K .KY) Piece.GNY) * p_value P (15 + pro_lance)
        + (kcount pos.knkind (familyRange K .KE) Piece.SKE
            - kcount pos.knkind (familyRange K .KE) Piece.GKE) * p_value P (15 + knight)
        + (kcount pos.knkind (familyRange K .KE) Piece.SNK
            - kcount pos.knkind (familyRange K .KE) Piece.GNK) * p_value P (15 + pro_knight)
        + (kcount pos.knkind (familyRange K .GI) Piece.SGI
            - kcount pos.knkind (familyRange K .GI) Piece.GGI) * p_value P (15 + silver)
        + (kcount pos.knkind (familyRange K .GI) Piece.SNG
            - kcount pos.knkind (familyRange K .GI) Piece.GNG) * p_value P (15 + pro_silver)
        + (kcount pos.knkind (familyRange K .KI) Piece.SKI
            - kcount pos.knkind (familyRange K .KI) Piece.GKI) * p_value P (15 + gold)
        + (kcount pos.knkind (familyRange K .KA) Piece.SKA
            - kcount pos.knkind (familyRange K .KA) Piece.GKA) * p_value P (15 + bishop)
        + (kcount pos.knkind (familyRange K .KA) Piece.SUM
            - kcount pos.knkind (familyRange K .KA) Piece.GUM) * p_value P (15 + horse)
        + (kcount pos.knkind (familyRange K .HI) Piece.SHI
            - kcount pos.knkind (familyRange K .HI) Piece.GHI) * p_value P (15 + rook)
        + (kcount pos.knkind (familyRange K .HI) Piece.SRY
            - kcount pos.knkind (familyRange K .HI) Piece.GRY) * p_value P (15 + dragon) := by
  unfold compute_material
  simp only [countLoop_eq_counts _ _ _ _ (by decide : Piece.SFU ≠ Piece.GFU)
      (by decide : Piece.STO ≠ Piece.GTO),
    countLoop_eq_counts _ _ _ _ (by decide : Piece.SKY ≠ Piece.GKY)
      (by decide : Piece.SNY ≠ Piece.GNY),
    countLoop_eq_counts _ _ _ _ (by decide : Piece.SKE ≠ Piece.GKE)
      (by decide : Piece.SNK ≠ Piece.GNK),
    countLoop_eq_counts _ _ _ _ (by decide : Piece.SGI ≠ Piece.GGI)
      (by decide : Piece.SNG ≠ Piece.GNG),
    countLoop_eq_counts _ _ _ _ (by decide : Piece.SKA ≠ Piece.GKA)
      (by decide : Piece.SUM ≠ Piece.GUM),
    countLoop_eq_counts _ _ _ _ (by decide : Piece.SHI ≠ Piece.GHI)
      (by decide : Piece.SRY ≠ Piece.GRY),
    countLoopGold_eq_counts, familyRange]

theorem kcount_other (K : KnRanges) (pos : Position) (ht : InventoryTyped K pos)
    (p : Piece) (k k' : HandKind) (hp : pieceFamily p = some k) (hk : k ≠ k') :
    kcount pos.knkind (familyRange K k') p = 0 := by
  unfold kcount
  rw [Int.natCast_eq_zero, List.countP_eq_zero]
  intro i hi h
  have h' : pos.knkind i = p := by simpa using h
  rcases ht k' i hi with h0 | h0
  · rw [h', hp] at h0
    exact absurd h0 (by simp)
  · rw [h', hp] at h0
    exact hk (Option.some.inj h0)

theorem kcount_allSlots (K : KnRanges) (pos : Position) (ht : InventoryTyped K pos)
    (p : Piece) (k : HandKind) (hp : pieceFamily p = some k) :
    kcount pos.knkind (allSlots K) p = kcount pos.knkind (familyRange K k) p := by
  simp only [allSlots, kcount_append]
  cases k <;>
    simp [kcount_other K pos ht p _ _ hp]

theorem compute_material_eq_spec (P : Params) (K : KnRanges) (pos : Position)
    (ht : InventoryTyped K pos) :
    compute_material P K pos = materialBalanceSpec P K pos := by
  rw [compute_material_counts]
  simp only [materialBalanceSpec, materialKinds, List.map_cons, List.map_nil, List.sum_cons,
    List.sum_nil]
  rw [kcount_allSlots K pos ht Piece.SFU .FU rfl, kcount_allSlots K pos ht Piece.GFU .FU rfl,
    kcount_allSlots K pos ht Piece.STO .FU rfl, kcount_allSlots K pos ht Piece.GTO .FU rfl,
    kcount_allSlots K pos ht Piece.SKY .KY rfl, kcount_allSlots K pos ht Piece.GKY .KY rfl,
    kcount_allSlots K pos ht Piece.SNY .KY rfl, kcount_allSlots K pos ht Piece.GNY .KY rfl,
    kcount_allSlots K pos ht Piece.SKE .KE rfl, kcount_allSlots K pos ht Piece.GKE .KE rfl,
    kcount_allSlots K pos ht Piece.SNK .KE rfl, kcount_allSlots K pos ht Piece.GNK .KE rfl,
    kcount_allSlots K pos ht Piece.SGI .GI rfl, kcount_allSlots K pos ht Piece.GGI .GI rfl,
    kcount_allSlots K pos ht Piece.SNG .GI rfl, kcount_allSlots K pos ht Piece.GNG .GI rfl,
    kcount_allSlots K pos ht Piece.SKI .KI rfl, kcount_allSlots K pos ht Piece.GKI .KI rfl,
    kcount_allSlots K pos ht Piece.SKA .KA rfl, kcount_allSlots K pos ht Piece.GKA .KA rfl,
    kcount_allSlots K pos ht Piece.SUM .KA rfl, kcount_allSlots K pos ht Piece.GUM .KA rfl,
    kcount_allSlots K pos ht Piece.SHI .HI rfl, kcount_allSlots K pos ht Piece.GHI .HI rfl,
    kcount_allSlots K pos ht Piece.SRY .HI rfl, kcount_allSlots K pos ht Piece.GRY .HI rfl]
  ring

theorem kcount_empty (kn : Nat → Piece) (l : List Nat) (p : Piece)
    (h : ∀ i ∈ l, kn i ≠ p) : kcount kn l p = 0 := by
  unfold kcount
  rw [Int.natCast_eq_zero, List.countP_eq_zero]
  intro i hi hp
  exact h i hi (by simpa using hp)

theorem compute_material_empty (P : Params) (K : KnRanges) (pos : Position)
    (h : ∀ i, pieceFamily (pos.knkind i) = none) : compute_material P K pos = 0 := by
  rw [compute_material_counts]
  have hz : ∀ (l : List Nat) (p : Piece), pieceFamily p ≠ none → kcount pos.knkind l p = 0 := by
    intro l p hp
    apply kcount_empty
    intro i _ hi
    exact hp (hi ▸ h i)
  simp (disch := decide) only [hz, sub_self, zero_mul, add_zero]

theorem kcount_addPiece (kn : Nat → Piece) (i : Nat) (p q : Piece) (l : List Nat)
    (ho : kn i ≠ q) (hnd : l.Nodup) :
    kcount (fun j => if j = i then p else kn j) l q
      = kcount kn l q + (if q = p ∧ i ∈ l then 1 else 0) := by
  induction l with
  | nil => simp [kcount]
  | cons j t ih =>
    have hnd' := (List.nodup_cons.1 hnd).2
    have hj := (List.nodup_cons.1 hnd).1
    rw [kcount_cons, kcount_cons, ih hnd']
    by_cases hji : j = i
    · subst hji
      have hq2 : ¬ kn j = q := ho
      by_cases hpq : q = p
      · subst hpq
        simp [hj, hq2]
      · have hpq' : ¬ p = q := fun h => hpq h.symm
        simp [hpq, hpq', hq2]
    · have hij : ¬ i = j := fun h => hji h.symm
      by_cases hpq : q = p
      · by_cases hit : i ∈ t <;> simp [hji, hij, hpq, hit]
        ring
      · simp [hji, hpq]

theorem slotRange_nodup (s e : Nat) : (slotRange s e).Nodup := by
  unfold slotRange
  exact List.nodup_range' s (e + 1 - s)

theorem familyRange_nodup (K : KnRanges) (k : HandKind) : (familyRange K k).Nodup := by
  cases k <;> exact slotRange_nodup _ _

theorem kcount_addPiece_family (K : KnRanges) (pos : Position) (i : Nat) (p q : Piece)
    (k : HandKind) (ho : pieceFamily (pos.knkind i) = none) (hq : pieceFamily q ≠ none) :
    kcount (addPiece pos i p).knkind (familyRange K k) q
      = kcount pos.knkind (familyRange K k) q
        + (if q = p ∧ i ∈ familyRange K k then 1 else 0) := by
  unfold addPiece
  exact kcount_addPiece pos.knkind i p q _ (fun h => hq (h ▸ ho)) (familyRange_nodup K k)

/-- C13 (as amended).  For each of the thirteen non-king kinds, writing one
piece of the kind into a free slot of the kind's own slot range changes the
value of `compute_material` by exactly `+p_value[15 + kind]` for Black's code
and `-p_value[15 + kind]` for White's; writing a king into a free slot changes
nothing, since kings are not counted. -/
theorem compute_material_addPiece (P : Params) (K : KnRanges) (pos : Position) (i : Nat)
    (kind : Nat) (b w : Piece) (k : HandKind)
    (hk : (kind, b, w) ∈ materialKinds) (hf : pieceFamily b = some k)
    (hi : i ∈ familyRange K k) (ho : pieceFamily (pos.knkind i) = none) :
    compute_material P K (addPiece pos i b) = compute_material P K pos + p_value P (15 + kind)
    ∧ compute_material P K (addPiece pos i w)
        = compute_material P K pos - p_value P (15 + kind)
    ∧ compute_material P K (addPiece pos i Piece.SOU) = compute_material P K pos
    ∧ compute_material P K (addPiece pos i Piece.GOU) = compute_material P K pos := by
  simp only [materialKinds, List.mem_cons, List.mem_singleton, Prod.mk.injEq] at hk
  simp only [List.not_mem_nil, or_false] at hk
  simp only [compute_material_counts]
  rcases hk with h | h | h | h | h | h | h | h | h | h | h | h | h <;>
    (obtain ⟨h1, h2, h3⟩ := h
     subst h1 h2 h3
     simp only [pieceFamily, Option.some.injEq] at hf
     subst hf
     simp (disch := decide) only [kcount_addPiece_family K pos i _ _ _ ho, hi, and_true,
       and_false, if_true, if_false, reduceCtorEq, add_zero, true_and, false_and]
     constructor <;> ring)

/-- C13 (as amended), run: a Black pawn, or a White pawn, written into the free
pawn slot 26 of the middle-game inventory (balance -100). -/
theorem compute_material_addPiece_witness :
    compute_material sampleParams sampleRanges (addPiece midPos 26 Piece.SFU)
      = compute_material sampleParams sampleRanges midPos + p_value sampleParams (15 + pawn)
    ∧ compute_material sampleParams sampleRanges (addPiece midPos 26 Piece.GFU)
        = compute_material sampleParams sampleRanges midPos
          - p_value sampleParams (15 + pawn)
    ∧ compute_material sampleParams sampleRanges (addPiece midPos 26 Piece.SOU)
        = compute_material sampleParams sampleRanges midPos
    ∧ compute_material sampleParams sampleRanges (addPiece midPos 26 Piece.GOU)
        = compute_material sampleParams sampleRanges midPos :=
  compute_material_addPiece sampleParams sampleRanges midPos 26 pawn Piece.SFU Piece.GFU
    HandKind.FU (by decide) rfl (by decide) (by decide)

/-- C13 (as stated) fails for the king: `p_value[15 + king] = DKing` is set by
`init_evaluate`, but `compute_material` has no loop over the kings, so a king
written into the empty inventory leaves the balance at 0 instead of raising it
by `DKing = 15000`. -/
theorem compute_material_king_fails :
    compute_material sampleParams sampleRanges (addPiece kingsOnly 1 Piece.SOU)
      ≠ compute_material sampleParams sampleRanges kingsOnly + p_value sampleParams (15 + king) := by
  decide

/-- C12.  For an inventory in which every slot of a slot range holds a code of
that range or no counted piece, `compute_material` is the sum over the
thirteen non-king kinds of (Black's count - White's count) times the material
value of the kind, promoted forms counted as kinds of their own; for an
inventory without counted pieces it is 0. -/
theorem compute_material_spec (P : Params) (K : KnRanges) (pos : Position) :
    (InventoryTyped K pos → compute_material P K pos = materialBalanceSpec P K pos)
    ∧ ((∀ i, pieceFamily (pos.knkind i) = none) → compute_material P K pos = 0)
    ∧ materialKinds.length = 13 :=
  ⟨compute_material_eq_spec P K pos, compute_material_empty P K pos, rfl⟩

/-- C12, run on the middle-game inventory (Black rook; White bishop and three
pawns) and on the empty inventory of the kings-only position. -/
theorem compute_material_spec_witness :
    compute_material sampleParams sampleRanges midPos
      = materialBalanceSpec sampleParams sampleRanges midPos
    ∧ compute_material sampleParams sampleRanges kingsOnly = 0 :=
  ⟨(compute_material_spec sampleParams sampleRanges midPos).1
      (by intro k; cases k <;> decide),
   (compute_material_spec sampleParams sampleRanges kingsOnly).2.1 (fun _ => rfl)⟩

/-! ## Uniqueness of feature indices -/

theorem bandFeature_bandNo (ft : Feature) : bandFeature ft.bandNo ft.loc = ft := by
  cases ft with
  | hand k c n => cases k <;> cases c <;> simp [Feature.bandNo, bandFeature, Feature.loc]
  | board cls c sq => cases cls <;> cases c <;> rfl

theorem Feature.index_eq_base (ft : Feature) :
    ft.index = (bandFeature ft.bandNo 0).index + ft.loc := by
  cases ft with
  | hand k c n => cases k <;> cases c <;> simp [Feature.bandNo, bandFeature, Feature.loc, Feature.index]
  | board cls c sq => cases cls <;> cases c <;> simp [Feature.bandNo, bandFeature, Feature.loc, Feature.index]

theorem Feature.index_in_band (ft : Feature) (h : ft.legal) :
    bandStart ft.bandNo ≤ ft.index ∧ ft.index < bandStart (ft.bandNo + 1) := by
  cases ft with
  | hand k c n =>
    cases k <;> cases c <;>
      simp only [Feature.legal, handMax] at h <;>
      simp only [Feature.index, Feature.bandNo, bandStart, bandStarts, handBase, f_hand_pawn,
        e_hand_pawn, f_hand_lance, e_hand_lance, f_hand_knight, e_hand_knight, f_hand_silver,
        e_hand_silver, f_hand_gold, e_hand_gold, f_hand_bishop, e_hand_bishop, f_hand_rook,
        e_hand_rook, List.getD_cons_succ, List.getD_cons_zero] <;>
      omega
  | board cls c sq =>
    cases cls <;> cases c <;>
      simp only [Feature.legal, minSquare] at h <;>
      simp only [Feature.index, Feature.bandNo, bandStart, bandStarts, boardBase, f_pawn, e_pawn,
        f_lance, e_lance, f_knight, e_knight, f_silver, e_silver, f_gold, e_gold, f_bishop,
        e_bishop, f_horse, e_horse, f_rook, e_rook, f_dragon, e_dragon, List.getD_cons_succ,
        List.getD_cons_zero] <;>
      omega

theorem bandStart_mono : ∀ i, i < 34 → ∀ j, j < 34 → i ≤ j → bandStart i ≤ bandStart j := by
  decide

theorem Feature.bandNo_lt (ft : Feature) : ft.bandNo < 32 := by
  cases ft with
  | hand k c n => cases k <;> cases c <;> simp [Feature.bandNo]
  | board cls c sq => cases cls <;> cases c <;> simp [Feature.bandNo]

theorem Feature.bandNo_eq (ft1 ft2 : Feature) (h1 : ft1.legal) (h2 : ft2.legal)
    (h : ft1.index = ft2.index) : ft1.bandNo = ft2.bandNo := by
  have a1 := ft1.index_in_band h1
  have a2 := ft2.index_in_band h2
  have b1 := ft1.bandNo_lt
  have b2 := ft2.bandNo_lt
  rcases Nat.lt_trichotomy ft1.bandNo ft2.bandNo with hlt | heq | hgt
  · have := bandStart_mono (ft1.bandNo + 1) (by omega) ft2.bandNo (by omega) (by omega)
    omega
  · exact heq
  · have := bandStart_mono (ft2.bandNo + 1) (by omega) ft1.bandNo (by omega) (by omega)
    omega

theorem Feature.index_injective (ft1 ft2 : Feature) (h1 : ft1.legal) (h2 : ft2.legal)
    (h : ft1.index = ft2.index) : ft1 = ft2 := by
  have hn := Feature.bandNo_eq ft1 ft2 h1 h2 h
  have e1 := ft1.index_eq_base
  have e2 := ft2.index_eq_base
  rw [hn] at e1
  have hl : ft1.loc = ft2.loc := by omega
  rw [← bandFeature_bandNo ft1, ← bandFeature_bandNo ft2, hn, hl]

theorem hand_feature_of_index (f : Int) (h0 : 0 ≤ f) (h1 : f < fe_hand_end) :
    ∃ (k : HandKind) (c : Color) (n : Nat),
      (Feature.hand k c n).legal ∧ (Feature.hand k c n).index = f := by
  simp only [fe_hand_end] at h1
  have hcases :
      (0 ≤ f ∧ f < 19) ∨ (19 ≤ f ∧ f < 38) ∨ (38 ≤ f ∧ f < 43) ∨ (43 ≤ f ∧ f < 48) ∨
        (48 ≤ f ∧ f < 53) ∨ (53 ≤ f ∧ f < 58) ∨ (58 ≤ f ∧ f < 63) ∨ (63 ≤ f ∧ f < 68) ∨
        (68 ≤ f ∧ f < 73) ∨ (73 ≤ f ∧ f < 78) ∨ (78 ≤ f ∧ f < 81) ∨ (81 ≤ f ∧ f < 84) ∨
        (84 ≤ f ∧ f < 87) ∨ (87 ≤ f ∧ f < 90) := by
    omega
  rcases hcases with
    ⟨ha, hb⟩ | ⟨ha, hb⟩ | ⟨ha, hb⟩ | ⟨ha, hb⟩ | ⟨ha, hb⟩ | ⟨ha, hb⟩ | ⟨ha, hb⟩ | ⟨ha, hb⟩ |
      ⟨ha, hb⟩ | ⟨ha, hb⟩ | ⟨ha, hb⟩ | ⟨ha, hb⟩ | ⟨ha, hb⟩ | ⟨ha, hb⟩
  · exact ⟨HandKind.FU, Color.BLACK, (f - 0).toNat, by simp only [Feature.legal, handMax]; omega,
      by simp only [Feature.index, handBase, f_hand_pawn]; omega⟩
  · exact ⟨HandKind.FU, Color.WHITE, (f - 19).toNat, by simp only [Feature.legal, handMax]; omega,
      by simp only [Feature.index, handBase, e_hand_pawn]; omega⟩
  · exact ⟨HandKind.KY, Color.BLACK, (f - 38).toNat, by simp only [Feature.legal, handMax]; omega,
      by simp only [Feature.index, handBase, f_hand_lance]; omega⟩
  · exact ⟨HandKind.KY, Color.WHITE, (f - 43).toNat, by simp only [Feature.legal, handMax]; omega,
      by simp only [Feature.index, handBase, e_hand_lance]; omega⟩
  · exact ⟨HandKind.KE, Color.BLACK, (f - 48).toNat, by simp only [Feature.legal, handMax]; omega,
      by simp only [Feature.index, handBase, f_hand_knight]; omega⟩
  · exact ⟨HandKind.KE, Color.WHITE, (f - 53).toNat, by simp only [Feature.legal, handMax]; omega,
      by simp only [Feature.index, handBase, e_hand_knight]; omega⟩
  · exact ⟨HandKind.GI, Color.BLACK, (f - 58).toNat, by simp only [Feature.legal, handMax]; omega,
      by simp only [Feature.index, handBase, f_hand_silver]; omega⟩
  · exact ⟨HandKind.GI, Color.WHITE, (f - 63).toNat, by simp only [Feature.legal, handMax]; omega,
      by simp only [Feature.index, handBase, e_hand_silver]; omega⟩
  · exact ⟨HandKind.KI, Color.BLACK, (f - 68).toNat, by simp only [Feature.legal, handMax]; omega,
      by simp only [Feature.index, handBase, f_hand_gold]; omega⟩
  · exact ⟨HandKind.KI, Color.WHITE, (f - 73).toNat, by simp only [Feature.legal, handMax]; omega,
      by simp only [Feature.index, handBase, e_hand_gold]; omega⟩
  · exact ⟨HandKind.KA, Color.BLACK, (f - 78).toNat, by simp only [Feature.legal, handMax]; omega,
      by simp only [Feature.index, handBase, f_hand_bishop]; omega⟩
  · exact ⟨HandKind.KA, Color.WHITE, (f - 81).toNat, by simp only [Feature.legal, handMax]; omega,
      by simp only [Feature.index, handBase, e_hand_bishop]; omega⟩
  · exact ⟨HandKind.HI, Color.BLACK, (f - 84).toNat, by simp only [Feature.legal, handMax]; omega,
      by simp only [Feature.index, handBase, f_hand_rook]; omega⟩
  · exact ⟨HandKind.HI, Color.WHITE, (f - 87).toNat, by simp only [Feature.legal, handMax]; omega,
      by simp only [Feature.index, handBase, e_hand_rook]; omega⟩

theorem board_feature_of_index (f : Int) (h0 : fe_hand_end ≤ f) (h1 : f < fe_end) :
    ∃ (cls : BoardClass) (c : Color) (sq : Int),
      (Feature.board cls c sq).legal ∧ (Feature.board cls c sq).index = f := by
  simp only [fe_hand_end] at h0
  simp only [fe_end] at h1
  have hcases :
      (90 ≤ f ∧ f < 162) ∨ (162 ≤ f ∧ f < 234) ∨ (234 ≤ f ∧ f < 306) ∨ (306 ≤ f ∧ f < 378) ∨
        (378 ≤ f ∧ f < 441) ∨ (441 ≤ f ∧ f < 504) ∨ (504 ≤ f ∧ f < 585) ∨ (585 ≤ f ∧ f < 666) ∨
        (666 ≤ f ∧ f < 747) ∨ (747 ≤ f ∧ f < 828) ∨ (828 ≤ f ∧ f < 909) ∨ (909 ≤ f ∧ f < 990) ∨
        (990 ≤ f ∧ f < 1071) ∨ (1071 ≤ f ∧ f < 1152) ∨ (1152 ≤ f ∧ f < 1233) ∨
        (1233 ≤ f ∧ f < 1314) ∨ (1314 ≤ f ∧ f < 1395) ∨ (1395 ≤ f ∧ f < 1476) := by
    omega
  rcases hcases with
    ⟨ha, hb⟩ | ⟨ha, hb⟩ | ⟨ha, hb⟩ | ⟨ha, hb⟩ | ⟨ha, hb⟩ | ⟨ha, hb⟩ | ⟨ha, hb⟩ | ⟨ha, hb⟩ |
      ⟨ha, hb⟩ | ⟨ha, hb⟩ | ⟨ha, hb⟩ | ⟨ha, hb⟩ | ⟨ha, hb⟩ | ⟨ha, hb⟩ | ⟨ha, hb⟩ | ⟨ha, hb⟩ |
      ⟨ha, hb⟩ | ⟨ha, hb⟩
  · exact ⟨BoardClass.pawn, Color.BLACK, f - 81, by simp only [Feature.legal, minSquare]; omega,
      by simp only [Feature.index, boardBase, f_pawn]; omega⟩
  · exact ⟨BoardClass.pawn, Color.WHITE, f - 162, by simp only [Feature.legal, minSquare]; omega,
      by simp only [Feature.index, boardBase, e_pawn]; omega⟩
  · exact ⟨BoardClass.lance, Color.BLACK, f - 225, by simp only [Feature.legal, minSquare]; omega,
      by simp only [Feature.index, boardBase, f_lance]; omega⟩
  · exact ⟨BoardClass.lance, Color.WHITE, f - 306, by simp only [Feature.legal, minSquare]; omega,
      by simp only [Feature.index, boardBase, e_lance]; omega⟩
  · exact ⟨BoardClass.knight, Color.BLACK, f - 360, by simp only [Feature.legal, minSquare]; omega,
      by simp only [Feature.index, boardBase, f_knight]; omega⟩
  · exact ⟨BoardClass.knight, Color.WHITE, f - 441, by simp only [Feature.legal, minSquare]; omega,
      by simp only [Feature.index, boardBase, e_knight]; omega⟩
  · exact ⟨BoardClass.silver, Color.BLACK, f - 504, by simp only [Feature.legal, minSquare]; omega,
      by simp only [Feature.index, boardBase, f_silver]; omega⟩
  · exact ⟨BoardClass.silver, Color.WHITE, f - 585, by simp only [Feature.legal, minSquare]; omega,
      by simp only [Feature.index, boardBase, e_silver]; omega⟩
  · exact ⟨BoardClass.gold, Color.BLACK, f - 666, by simp only [Feature.legal, minSquare]; omega,
      by simp only [Feature.index, boardBase, f_gold]; omega⟩
  · exact ⟨BoardClass.gold, Color.WHITE, f - 747, by simp only [Feature.legal, minSquare]; omega,
      by simp only [Feature.index, boardBase, e_gold]; omega⟩
  · exact ⟨BoardClass.bishop, Color.BLACK, f - 828, by simp only [Feature.legal, minSquare]; omega,
      by simp only [Feature.index, boardBase, f_bishop]; omega⟩
  · exact ⟨BoardClass.bishop, Color.WHITE, f - 909, by simp only [Feature.legal, minSquare]; omega,
      by simp only [Feature.index, boardBase, e_bishop]; omega⟩
  · exact ⟨BoardClass.horse, Color.BLACK, f - 990, by simp only [Feature.legal, minSquare]; omega,
      by simp only [Feature.index, boardBase, f_horse]; omega⟩
  · exact ⟨BoardClass.horse, Color.WHITE, f - 1071, by simp only [Feature.legal, minSquare]; omega,
      by simp only [Feature.index, boardBase, e_horse]; omega⟩
  · exact ⟨BoardClass.rook, Color.BLACK, f - 1152, by simp only [Feature.legal, minSquare]; omega,
      by simp only [Feature.index, boardBase, f_rook]; omega⟩
  · exact ⟨BoardClass.rook, Color.WHITE, f - 1233, by simp only [Feature.legal, minSquare]; omega,
      by simp only [Feature.index, boardBase, e_rook]; omega⟩
  · exact ⟨BoardClass.dragon, Color.BLACK, f - 1314, by simp only [Feature.legal, minSquare]; omega,
      by simp only [Feature.index, boardBase, f_dragon]; omega⟩
  · exact ⟨BoardClass.dragon, Color.WHITE, f - 1395, by simp only [Feature.legal, minSquare]; omega,
      by simp only [Feature.index, boardBase, e_dragon]; omega⟩

theorem Feature.hand_bandNo_lt (k : HandKind) (c : Color) (n : Nat) :
    (Feature.hand k c n).bandNo < 14 := by
  cases k <;> cases c <;> simp [Feature.bandNo]

theorem Feature.board_bandNo_ge (cls : BoardClass) (c : Color) (sq : Int) :
    14 ≤ (Feature.board cls c sq).bandNo := by
  cases cls <;> cases c <;> simp [Feature.bandNo]

theorem hand_index_range (k : HandKind) (c : Color) (n : Nat) (h : (Feature.hand k c n).legal) :
    0 ≤ (Feature.hand k c n).index ∧ (Feature.hand k c n).index < fe_hand_end := by
  have a := Feature.index_in_band _ h
  have b := Feature.hand_bandNo_lt k c n
  have m1 := bandStart_mono 0 (by omega) (Feature.hand k c n).bandNo (by omega) (by omega)
  have m2 := bandStart_mono ((Feature.hand k c n).bandNo + 1) (by omega) 14 (by omega) (by omega)
  have e0 : bandStart 0 = 0 := rfl
  have e14 : bandStart 14 = 90 := rfl
  simp only [fe_hand_end]
  omega

theorem board_index_range (cls : BoardClass) (c : Color) (sq : Int)
    (h : (Feature.board cls c sq).legal) :
    fe_hand_end ≤ (Feature.board cls c sq).index ∧ (Feature.board cls c sq).index < fe_end := by
  have a := Feature.index_in_band _ h
  have b := Feature.board_bandNo_ge cls c sq
  have b' := Feature.bandNo_lt (Feature.board cls c sq)
  have m1 := bandStart_mono 14 (by omega) (Feature.board cls c sq).bandNo (by omega) b
  have m2 := bandStart_mono ((Feature.board cls c sq).bandNo + 1) (by omega) 32 (by omega)
    (by omega)
  have e14 : bandStart 14 = 90 := rfl
  have e32 : bandStart 32 = 1476 := rfl
  simp only [fe_hand_end, fe_end]
  omega

/-- C16.  Over the legal locations (hand count 0..max of the kind; board
square legal for the class and colour) the map from (class, colour, location)
to the feature index is one-to-one; the indices of the legal hand features are
exactly `[0, fe_hand_end) = [0, 90)` and those of the legal board features
exactly `[90, fe_end)`, so the bands tile `[0, 1476)` without gap or overlap;
the widths `max + 1` of the fourteen hand bands add up to 90 and the widths
`81 - minSquare` of the eighteen board bands to `1476 - 90`. -/
theorem feature_index_unique :
    (∀ ft1 ft2 : Feature, ft1.legal → ft2.legal → ft1.index = ft2.index → ft1 = ft2)
    ∧ (∀ f : Int, (0 ≤ f ∧ f < fe_hand_end) ↔
        ∃ (k : HandKind) (c : Color) (n : Nat),
          (Feature.hand k c n).legal ∧ (Feature.hand k c n).index = f)
    ∧ (∀ f : Int, (fe_hand_end ≤ f ∧ f < fe_end) ↔
        ∃ (cls : BoardClass) (c : Color) (sq : Int),
          (Feature.board cls c sq).legal ∧ (Feature.board cls c sq).index = f)
    ∧ (([HandKind.FU, HandKind.KY, HandKind.KE, HandKind.GI, HandKind.KI, HandKind.KA,
          HandKind.HI].map (fun k => 2 * ((handMax k : Int) + 1))).sum = fe_hand_end)
    ∧ (([BoardClass.pawn, BoardClass.lance, BoardClass.knight, BoardClass.silver,
          BoardClass.gold, BoardClass.bishop, BoardClass.horse, BoardClass.rook,
          BoardClass.dragon].map (fun cls => 2 * (81 - minSquare cls))).sum
        = fe_end - fe_hand_end)
    ∧ fe_end = 1476 := by
  refine ⟨Feature.index_injective, ?_, ?_, by decide, by decide, rfl⟩
  · intro f
    constructor
    · rintro ⟨h0, h1⟩
      exact hand_feature_of_index f h0 h1
    · rintro ⟨k, c, n, hl, rfl⟩
      exact hand_index_range k c n hl
  · intro f
    constructor
    · rintro ⟨h0, h1⟩
      exact board_feature_of_index f h0 h1
    · rintro ⟨cls, c, sq, hl, rfl⟩
      exact board_index_range cls c sq hl

/-- C16, run: index 82 is the index of exactly one legal feature, White's hand
bishop with count 1. -/
theorem feature_index_unique_witness :
    (∃ (k : HandKind) (c : Color) (n : Nat),
        (Feature.hand k c n).legal ∧ (Feature.hand k c n).index = 82)
    ∧ Feature.hand HandKind.KA Color.WHITE 1 = Feature.hand HandKind.KA Color.WHITE 1 :=
  ⟨(feature_index_unique.2.1 82).1 ⟨by decide, by decide⟩,
   feature_index_unique.1 (Feature.hand HandKind.KA Color.WHITE 1)
     (Feature.hand HandKind.KA Color.WHITE 1) (by simp [Feature.legal, handMax])
     (by simp [Feature.legal, handMax]) rfl⟩

/-- C20 (as amended).  Each of the eighteen board feature classes occupies the
contiguous band `base + lo .. base + hi` of its legal squares: `minSquare .. 80`
for Black and `0 .. 80 - minSquare` for White, which is all of `0 .. 80` (81
indices) for silver, gold, bishop, horse, rook and dragon, 72 squares for pawn
and lance and 63 for knight.  These bands lie in `[90, 1476)`, above the hand
range `0 .. 89`, and two of them with different class or colour share no
index. -/
theorem board_bands_disjoint :
    (∀ (cls : BoardClass) (c : Color) (sq : Int), (Feature.board cls c sq).legal →
        fe_hand_end ≤ boardBase cls c + sq ∧ boardBase cls c + sq < fe_end)
    ∧ (∀ (cls cls' : BoardClass) (c c' : Color) (sq sq' : Int),
        (Feature.board cls c sq).legal → (Feature.board cls' c' sq').legal →
        (cls, c) ≠ (cls', c') → boardBase cls c + sq ≠ boardBase cls' c' + sq')
    ∧ (∀ (cls : BoardClass) (sq : Int),
        ((Feature.board cls Color.BLACK sq).legal ↔ (minSquare cls ≤ sq ∧ sq ≤ 80))
        ∧ ((Feature.board cls Color.WHITE sq).legal ↔ (0 ≤ sq ∧ sq ≤ 80 - minSquare cls)))
    ∧ [BoardClass.pawn, BoardClass.lance, BoardClass.knight, BoardClass.silver,
        BoardClass.gold, BoardClass.bishop, BoardClass.horse, BoardClass.rook,
        BoardClass.dragon].map minSquare = [9, 9, 18, 0, 0, 0, 0, 0, 0] := by
  refine ⟨fun cls c sq h => board_index_range cls c sq h, ?_, fun cls sq => ⟨Iff.rfl, Iff.rfl⟩,
    rfl⟩
  intro cls cls' c c' sq sq' h h' hne heq
  have := Feature.index_injective _ _ h h' heq
  simp only [Feature.board.injEq] at this
  exact hne (by rw [this.1, this.2.1])

/-- C20 (as amended), run on Black's pawn on square 9 (index 90) and White's
pawn on square 71 (index 233). -/
theorem board_bands_disjoint_witness :
    (fe_hand_end ≤ boardBase BoardClass.pawn Color.BLACK + 9
      ∧ boardBase BoardClass.pawn Color.BLACK + 9 < fe_end)
    ∧ boardBase BoardClass.pawn Color.WHITE + 71 ≠ boardBase BoardClass.lance Color.BLACK + 9 :=
  ⟨board_bands_disjoint.1 BoardClass.pawn Color.BLACK 9 (by simp [Feature.legal, minSquare]),
   board_bands_disjoint.2.1 BoardClass.pawn BoardClass.lance Color.WHITE Color.BLACK 71 9
     (by simp [Feature.legal, minSquare]) (by simp [Feature.legal, minSquare]) (by decide)⟩

/-- C20 (as stated) fails.  Taken over all squares 0..80 the 81-wide bands
overlap: `f_pawn + 0 = 81` lies in the hand range `0 .. 89` (it is
`e_hand_bishop + 0`), `e_pawn + 63 = f_lance + 0 = 225` and
`e_lance + 54 = f_knight + 0 = 360`. -/
theorem board_bands_overlap :
    boardBase BoardClass.pawn Color.BLACK + 0 < fe_hand_end
    ∧ boardBase BoardClass.pawn Color.BLACK + 0 = handBase HandKind.KA Color.WHITE + 0
    ∧ boardBase BoardClass.pawn Color.WHITE + 63 = boardBase BoardClass.lance Color.BLACK + 0
    ∧ boardBase BoardClass.lance Color.WHITE + 54
        = boardBase BoardClass.knight Color.BLACK + 0 := by
  decide

/-! ## Order independence of the combination loop -/

/-- The combination loop of `evaluate` written over a list of entry pairs. -/
theorem evalLoop_entries (T : Tables) (sq_bk sq_wk sq_wking : Int) (E : List (Int × Int)) :
    evalLoop T sq_bk sq_wk sq_wking (E.map Prod.fst) (E.map Prod.snd) E.length 0
      = (E.map (fun e => T.kkp sq_bk sq_wking e.1)).sum
        + pairSum (fun a b => T.pc_on_sq sq_bk a.1 b.1 - T.pc_on_sq sq_wk a.2 b.2) E := by
  rw [evalLoop_eq, ← pairSum_getD _ (0, 0), ← sum_getD _ (0, 0)]
  simp only [getD_map_fst, getD_map_snd, Finset.sum_add_distrib, zero_add]

/-- C19 (as amended).  When `pc_on_sq` is symmetric in the feature pair on the
entries of the lists, `pc_on_sq[k][a][b] = pc_on_sq[k][b][a]` for both king
squares used, applying one permutation to `list0` and `list1` together (a
permutation of the list of entry pairs) leaves the sum of the combination loop
of `evaluate` unchanged. -/
theorem evalLoop_perm (T : Tables) (sq_bk sq_wk sq_wking : Int) (E E' : List (Int × Int))
    (hp : E.Perm E')
    (hsym : ∀ a ∈ E, ∀ b ∈ E,
      T.pc_on_sq sq_bk a.1 b.1 = T.pc_on_sq sq_bk b.1 a.1
      ∧ T.pc_on_sq sq_wk a.2 b.2 = T.pc_on_sq sq_wk b.2 a.2) :
    evalLoop T sq_bk sq_wk sq_wking (E'.map Prod.fst) (E'.map Prod.snd) E'.length 0
      = evalLoop T sq_bk sq_wk sq_wking (E.map Prod.fst) (E.map Prod.snd) E.length 0 := by
  rw [evalLoop_entries, evalLoop_entries, (hp.map _).sum_eq,
    pairSum_perm _ hp (fun a ha b hb => by rw [(hsym a ha b hb).1, (hsym a ha b hb).2])]

/-- C19 (as amended), run: the first two of three entries exchanged, tables
`symTables`. -/
theorem evalLoop_perm_witness :
    evalLoop symTables 76 76 4 ([(182, 141), (21, 2), (1192, 1273)].map Prod.fst)
        ([(182, 141), (21, 2), (1192, 1273)].map Prod.snd) [(182, 141), (21, 2), (1192, 1273)].length 0
      = evalLoop symTables 76 76 4 ([(21, 2), (182, 141), (1192, 1273)].map Prod.fst)
        ([(21, 2), (182, 141), (1192, 1273)].map Prod.snd) [(21, 2), (182, 141), (1192, 1273)].length 0 :=
  evalLoop_perm symTables 76 76 4 [(21, 2), (182, 141), (1192, 1273)]
    [(182, 141), (21, 2), (1192, 1273)] (List.Perm.swap _ _ _)
    (fun a _ b _ => by simp only [symTables]; constructor <;> ring)

/-- C19 (as stated) fails.  With `pc_on_sq[k][f][g] = f` the loop adds
`pc_on_sq[76][list0[1]][list0[0]]`, which is 2 for `list0 = [1, 2]` and 1 for
`list0 = [2, 1]`. -/
theorem evalLoop_perm_fails :
    evalLoop asymTables 76 76 4 [1, 2] [0, 0] 2 0 ≠ evalLoop asymTables 76 76 4 [2, 1] [0, 0] 2 0 := by
  decide

/-! ## The load of the weight tables: success and failure -/

theorem fread_rest_length (size n : Nat) (s : List Nat) :
    (fread size n s).rest.length = s.length - size * n := by
  simp [fread]

theorem fread_count_ne (size n : Nat) (s : List Nat) (hs : 0 < size) :
    (fread size n s).count ≠ n ↔ s.length < size * n := by
  simp only [fread, List.length_take]
  constructor
  · intro h
    by_contra hc
    apply h
    rw [Nat.min_eq_left (by omega)]
    exact Nat.mul_div_cancel_left n hs
  · intro h hc
    rw [Nat.min_eq_right (by omega)] at hc
    have := Nat.div_mul_le_self s.length size
    rw [hc] at this
    rw [Nat.mul_comm] at this
    omega

theorem fread_rest_nil (size n : Nat) (s : List Nat) (h : s.length < size * n) :
    (fread size n s).rest = [] := by
  simp only [fread]
  exact List.drop_eq_nil_of_le (by omega)

theorem readRows_ok (C : Codec) (fe : Nat) (js : List Nat) (st : RowsResult)
    (h : 2 * fe * js.length ≤ st.rest.length) :
    (readRows C fe js st).iret = st.iret
    ∧ (readRows C fe js st).rest.length = st.rest.length - 2 * fe * js.length := by
  induction js generalizing st with
  | nil => simp [readRows]
  | cons j js ih =>
    rw [List.length_cons, Nat.mul_add, Nat.mul_one] at h
    have hc : ¬ (fread 2 fe st.rest).count ≠ fe := by
      rw [fread_count_ne 2 fe st.rest (by omega)]
      omega
    simp only [readRows]
    rw [if_neg hc]
    have := ih { rows := st.rows ++ [decodeCells C.dec16 2 fe (fread 2 fe st.rest).bytes],
                 rest := (fread 2 fe st.rest).rest, iret := st.iret }
      (by simp only [fread_rest_length]; omega)
    simp only [fread_rest_length] at this
    refine ⟨this.1, ?_⟩
    rw [this.2, List.length_cons, Nat.mul_add]
    omega

theorem readRows_short (C : Codec) (fe : Nat) (js : List Nat) (st : RowsResult)
    (h : st.rest.length < 2 * fe * js.length) :
    (readRows C fe js st).iret = -2 ∧ (readRows C fe js st).rest = [] := by
  induction js generalizing st with
  | nil => simp at h
  | cons j js ih =>
    rw [List.length_cons, Nat.mul_add, Nat.mul_one] at h
    by_cases hc : (fread 2 fe st.rest).count ≠ fe
    · simp only [readRows]
      rw [if_pos hc]
      exact ⟨rfl, fread_rest_nil 2 fe st.rest ((fread_count_ne 2 fe st.rest (by omega)).1 hc)⟩
    · simp only [readRows]
      rw [if_neg hc]
      have hlen : ¬ st.rest.length < 2 * fe := fun hh =>
        hc ((fread_count_ne 2 fe st.rest (by omega)).2 hh)
      exact ih _ (by simp only [fread_rest_length]; omega)

theorem readPcStep_ok (C : Codec) (fe : Nat) (st : PcResult)
    (h : 2 * fe * fe ≤ st.rest.length) :
    (readPcStep C fe st).iret = st.iret
    ∧ (readPcStep C fe st).rest.length = st.rest.length - 2 * fe * fe := by
  have := readRows_ok C fe (List.range fe) { rows := [], rest := st.rest, iret := st.iret }
    (by simpa using h)
  simpa [readPcStep] using this

theorem readPcStep_short (C : Codec) (fe : Nat) (st : PcResult)
    (h : st.rest.length < 2 * fe * fe) :
    (readPcStep C fe st).iret = -2 ∧ (readPcStep C fe st).rest = [] := by
  have := readRows_short C fe (List.range fe) { rows := [], rest := st.rest, iret := st.iret }
    (by simpa using h)
  simpa [readPcStep] using this

theorem readPc_dead (C : Codec) (fe : Nat) (is : List Nat) (st : PcResult)
    (h1 : st.iret = -2) (h2 : st.rest = []) :
    (is.foldl (fun st _ => readPcStep C fe st) st).iret = -2
    ∧ (is.foldl (fun st _ => readPcStep C fe st) st).rest = [] := by
  induction is generalizing st with
  | nil => exact ⟨h1, h2⟩
  | cons i is ih =>
    rw [List.foldl_cons]
    by_cases hfe : st.rest.length < 2 * fe * fe
    · exact ih _ (readPcStep_short C fe st hfe).1 (readPcStep_short C fe st hfe).2
    · have hk := readPcStep_ok C fe st (by omega)
      refine ih _ (hk.1.trans h1) ?_
      apply List.eq_nil_of_length_eq_zero
      rw [hk.2, h2]
      simp

theorem readPc_fold_ok (C : Codec) (fe : Nat) (is : List Nat) (st : PcResult)
    (h : 2 * fe * fe * is.length ≤ st.rest.length) :
    (is.foldl (fun st _ => readPcStep C fe st) st).iret = st.iret
    ∧ (is.foldl (fun st _ => readPcStep C fe st) st).rest.length
        = st.rest.length - 2 * fe * fe * is.length := by
  induction is generalizing st with
  | nil => simp
  | cons i is ih =>
    rw [List.length_cons, Nat.mul_add, Nat.mul_one] at h
    rw [List.foldl_cons]
    have hk := readPcStep_ok C fe st (by omega)
    have := ih (readPcStep C fe st) (by rw [hk.2]; omega)
    rw [hk.1, hk.2] at this
    refine ⟨this.1, ?_⟩
    rw [this.2, List.length_cons, Nat.mul_add]
    omega

theorem readPc_fold_short (C : Codec) (fe : Nat) (is : List Nat) (st : PcResult)
    (h : st.rest.length < 2 * fe * fe * is.length) :
    (is.foldl (fun st _ => readPcStep C fe st) st).iret = -2
    ∧ (is.foldl (fun st _ => readPcStep C fe st) st).rest = [] := by
  induction is generalizing st with
  | nil => simp at h
  | cons i is ih =>
    rw [List.length_cons, Nat.mul_add, Nat.mul_one] at h
    rw [List.foldl_cons]
    by_cases hfe : st.rest.length < 2 * fe * fe
    · exact readPc_dead C fe is _ (readPcStep_short C fe st hfe).1
        (readPcStep_short C fe st hfe).2
    · have hk := readPcStep_ok C fe st (by omega)
      exact ih _ (by rw [hk.2]; omega)

theorem loadTables_iret (C : Codec) (nsq fe : Nat) (s : List Nat) :
    (loadTables C nsq fe s).iret < 0
      ↔ s.length ≠ 2 * fe * fe * nsq + 2 * (nsq * nsq * fe) + 4 * (nsq * nsq) := by
  have hok := readPc_fold_ok C fe (List.range nsq) { pc := [], rest := s, iret := 0 }
  have hshort := readPc_fold_short C fe (List.range nsq) { pc := [], rest := s, iret := 0 }
  simp only [List.length_range] at hok hshort
  have c1 := fread_count_ne 2 (nsq * nsq * fe) (readPc C nsq fe s 0).rest (by omega)
  have c2 := fread_count_ne 4 (nsq * nsq)
    (fread 2 (nsq * nsq * fe) (readPc C nsq fe s 0).rest).rest (by omega)
  have l1 := fread_rest_length 2 (nsq * nsq * fe) (readPc C nsq fe s 0).rest
  have l2 := fread_rest_length 4 (nsq * nsq)
    (fread 2 (nsq * nsq * fe) (readPc C nsq fe s 0).rest).rest
  have hnil : ∀ l : List Nat, l ≠ [] ↔ 0 < l.length := fun l => by
    cases l <;> simp
  simp only [loadTables]
  by_cases hL : 2 * fe * fe * nsq ≤ s.length
  · have h := hok hL
    change (readPc C nsq fe s 0).iret = 0 ∧ (readPc C nsq fe s 0).rest.length = _ at h
    split_ifs with h1 h2 h3
    · rw [c1] at h1
      simp only
      omega
    · rw [c1] at h1
      rw [c2] at h2
      simp only
      omega
    · rw [c1] at h1
      rw [c2] at h2
      rw [hnil] at h3
      simp only
      omega
    · rw [c1] at h1
      rw [c2] at h2
      rw [hnil] at h3
      simp only
      rw [h.1]
      omega
  · have h := hshort (by omega)
    change (readPc C nsq fe s 0).iret = -2 ∧ (readPc C nsq fe s 0).rest = [] at h
    split_ifs with h1 h2 h3 <;> simp only <;> omega

/-- C18.  On the bytes of an opened file the load ends with `iret < 0` exactly
when the length of the stream differs from
`2*81*1476*1476 + 2*81*81*1476 + 4*81*81 = 372323628` bytes.  A stream that
ends inside the `pc_on_sq` block sets `iret = -2` in the nested loop, whose
`break` leaves the inner loop only; a byte left after the `kk` block fails the
`fgetc` test. -/
theorem init_evaluate_load_fails_iff (C : Codec) (s : List Nat) :
    ((init_evaluate_load C s).iret < 0 ↔ s.length ≠ 372323628)
    ∧ (s.length < 2 * 81 * 1476 * 1476 → (readPc C 81 1476 s 0).iret = -2)
    ∧ 2 * 81 * 1476 * 1476 + 2 * 81 * 81 * 1476 + 4 * 81 * 81 = 372323628 := by
  refine ⟨?_, ?_, by norm_num⟩
  · rw [init_evaluate_load, loadTables_iret]
  · intro h
    have := readPc_fold_short C 1476 (List.range 81) { pc := [], rest := s, iret := 0 }
      (by simp only [List.length_range]; omega)
    exact this.1

/-- C18, run on the empty stream and on a stream of one byte. -/
theorem init_evaluate_load_fails_iff_witness :
    (readPc littleEndian 81 1476 [] 0).iret = -2
    ∧ (init_evaluate_load littleEndian [0]).iret < 0 :=
  ⟨(init_evaluate_load_fails_iff littleEndian []).2.1 (by decide),
   (init_evaluate_load_fails_iff littleEndian [0]).1.2 (by decide)⟩

/-! ## The load of the weight tables: round trip -/

theorem flatMap_range'_length {β : Type} (g : Nat → List β) (s : Nat)
    (hg : ∀ a, (g a).length = s) (a n : Nat) :
    ((List.range' a n).flatMap g).length = s * n := by
  induction n generalizing a with
  | zero => simp
  | succ n ih =>
    rw [List.range'_succ, List.flatMap_cons, List.length_append, hg, ih]
    ring

theorem flatMap_range_length {β : Type} (g : Nat → List β) (s : Nat)
    (hg : ∀ a, (g a).length = s) (n : Nat) :
    ((List.range n).flatMap g).length = s * n := by
  rw [List.range_eq_range']
  exact flatMap_range'_length g s hg 0 n

theorem chunk_range' {β : Type} (g : Nat → List β) (s : Nat)
    (hg : ∀ a, (g a).length = s) (a n j r t : Nat) (hj : j < n) (hrt : r + t ≤ s) :
    (((List.range' a n).flatMap g).drop (s * j + r)).take t = ((g (a + j)).drop r).take t := by
  induction n generalizing a j with
  | zero => omega
  | succ n ih =>
    rw [List.range'_succ, List.flatMap_cons]
    cases j with
    | zero =>
      rw [Nat.mul_zero, Nat.zero_add, List.drop_append_of_le_length (by rw [hg]; omega),
        List.take_append_of_le_length (by rw [List.length_drop, hg]; omega)]
      rfl
    | succ j =>
      have e : s * (j + 1) + r = (g a).length + (s * j + r) := by rw [hg]; ring
      rw [e, List.drop_append, ih (a + 1) j (by omega)]
      congr 3
      omega

theorem chunk_range {β : Type} (g : Nat → List β) (s : Nat)
    (hg : ∀ a, (g a).length = s) (n j r t : Nat) (hj : j < n) (hrt : r + t ≤ s) :
    (((List.range n).flatMap g).drop (s * j + r)).take t = ((g j).drop r).take t := by
  rw [List.range_eq_range', chunk_range' g s hg 0 n j r t hj hrt, Nat.zero_add]

theorem decodeCells_block (dec : List Nat → Int) (g : Nat → List Nat) (s n : Nat)
    (hg : ∀ a, (g a).length = s) :
    decodeCells dec s n ((List.range n).flatMap g) = (List.range n).map (fun i => dec (g i)) := by
  unfold decodeCells
  apply List.map_congr_left
  intro i hi
  have := chunk_range g s hg n i 0 s (List.mem_range.1 hi) (by omega)
  rw [Nat.add_zero] at this
  rw [this, List.drop_zero, List.take_of_length_le (by rw [hg])]

theorem fread_append (size n : Nat) (b tail : List Nat) (hs : 0 < size)
    (hb : b.length = size * n) :
    fread size n (b ++ tail) = { bytes := b, count := n, rest := tail } := by
  simp only [fread]
  rw [List.take_left' hb, List.drop_left' hb, hb, Nat.mul_div_cancel_left n hs]

theorem readRows_data (C : Codec) (fe : Nat) (rowB : Nat → List Nat)
    (hrow : ∀ j, (rowB j).length = 2 * fe) (js : List Nat) (tail : List Nat) (st : RowsResult)
    (hst : st.rest = js.flatMap rowB ++ tail) :
    readRows C fe js st
      = { rows := st.rows ++ js.map (fun j => decodeCells C.dec16 2 fe (rowB j)),
          rest := tail, iret := st.iret } := by
  induction js generalizing st with
  | nil =>
    cases st
    simp at hst
    simp [readRows, hst]
  | cons j js ih =>
    have hf : fread 2 fe st.rest
        = { bytes := rowB j, count := fe, rest := js.flatMap rowB ++ tail } := by
      rw [hst, List.flatMap_cons, List.append_assoc]
      exact fread_append 2 fe _ _ (by omega) (hrow j)
    simp only [readRows, hf]
    rw [if_neg (by simp)]
    rw [ih _ rfl]
    simp

theorem readPc_data (C : Codec) (fe : Nat) (rowB : Nat → Nat → List Nat)
    (hrow : ∀ i j, (rowB i j).length = 2 * fe) (is : List Nat) (tail : List Nat)
    (st : PcResult)
    (hst : st.rest = is.flatMap (fun i => (List.range fe).flatMap (rowB i)) ++ tail) :
    is.foldl (fun st _ => readPcStep C fe st) st
      = { pc := st.pc ++ is.map (fun i =>
            (List.range fe).map (fun j => decodeCells C.dec16 2 fe (rowB i j))),
          rest := tail, iret := st.iret } := by
  induction is generalizing st with
  | nil =>
    cases st
    simp at hst
    simp [hst]
  | cons i is ih =>
    rw [List.foldl_cons]
    have hstep : readPcStep C fe st
        = { pc := st.pc ++ [(List.range fe).map (fun j => decodeCells C.dec16 2 fe (rowB i j))],
            rest := is.flatMap (fun i => (List.range fe).flatMap (rowB i)) ++ tail,
            iret := st.iret } := by
      unfold readPcStep
      rw [readRows_data C fe (rowB i) (hrow i) (List.range fe)
        (is.flatMap (fun i => (List.range fe).flatMap (rowB i)) ++ tail) _
        (by simp [hst])]
      simp
    rw [hstep, ih _ rfl]
    simp

theorem loadTables_serialise (C : Codec) (hC : C.Lawful) (nsq fe : Nat) (T : Tables) :
    loadTables C nsq fe (serialise C nsq fe T)
      = { iret := 0,
          pc_on_sq := (List.range nsq).map (fun (k : Nat) => (List.range fe).map (fun (i : Nat) =>
            decodeCells C.dec16 2 fe
              ((List.range fe).flatMap (fun (j : Nat) => C.enc16 (T.pc_on_sq k i j))))),
          kkp := decodeCells C.dec16 2 (nsq * nsq * fe)
            ((List.range nsq).flatMap (fun (a : Nat) => (List.range nsq).flatMap (fun (b : Nat) =>
              (List.range fe).flatMap (fun (f : Nat) => C.enc16 (T.kkp a b f))))),
          kk := decodeCells C.dec32 4 (nsq * nsq)
            ((List.range nsq).flatMap (fun (a : Nat) => (List.range nsq).flatMap (fun (b : Nat) =>
              C.enc32 (T.kk a b)))) } := by
  obtain ⟨h16, -, h32, -⟩ := hC
  have hrow : ∀ (k i : Nat),
      ((List.range fe).flatMap (fun (j : Nat) => C.enc16 (T.pc_on_sq k i j))).length = 2 * fe :=
    fun (k i : Nat) => flatMap_range_length _ 2 (fun _ => h16 _) fe
  have hp := readPc_data C fe
    (fun (k i : Nat) => (List.range fe).flatMap (fun (j : Nat) => C.enc16 (T.pc_on_sq k i j))) hrow
    (List.range nsq)
    ((List.range nsq).flatMap (fun (a : Nat) => (List.range nsq).flatMap (fun (b : Nat) =>
        (List.range fe).flatMap (fun (f : Nat) => C.enc16 (T.kkp a b f))))
      ++ (List.range nsq).flatMap (fun (a : Nat) => (List.range nsq).flatMap (fun (b : Nat) =>
        C.enc32 (T.kk a b))))
    { pc := [], rest := serialise C nsq fe T, iret := 0 } rfl
  have hkkpLen : ((List.range nsq).flatMap (fun (a : Nat) => (List.range nsq).flatMap (fun (b : Nat) =>
      (List.range fe).flatMap (fun (f : Nat) => C.enc16 (T.kkp a b f))))).length
        = 2 * (nsq * nsq * fe) := by
    rw [flatMap_range_length _ (2 * fe * nsq) (fun (a : Nat) =>
      flatMap_range_length _ (2 * fe) (fun (b : Nat) =>
        flatMap_range_length _ 2 (fun _ => h16 _) fe) nsq) nsq]
    ring
  have hkkLen : ((List.range nsq).flatMap (fun (a : Nat) => (List.range nsq).flatMap (fun (b : Nat) =>
      C.enc32 (T.kk a b)))).length = 4 * (nsq * nsq) := by
    rw [flatMap_range_length _ (4 * nsq) (fun (a : Nat) =>
      flatMap_range_length _ 4 (fun _ => h32 _) nsq) nsq]
    ring
  have hf1 := fread_append 2 (nsq * nsq * fe) _
    ((List.range nsq).flatMap (fun (a : Nat) => (List.range nsq).flatMap (fun (b : Nat) =>
        C.enc32 (T.kk a b)))) (by omega) hkkpLen
  have hf2 := fread_append 4 (nsq * nsq) _ ([] : List Nat) (by omega) hkkLen
  rw [List.append_nil] at hf2
  simp only [loadTables, readPc, hp, hf1, hf2, List.nil_append]
  simp

theorem getD_map_range {β : Type} (g : Nat → β) (d : β) (n k : Nat) (hk : k < n) :
    ((List.range n).map g).getD k d = g k := by
  rw [List.getD_eq_getElem _ _ (by simpa using hk)]
  simp

theorem flat_index_lt (n a b : Nat) (ha : a < n) (hb : b < n) : a * n + b < n * n := by
  calc a * n + b < a * n + n := by omega
    _ = (a + 1) * n := by ring
    _ ≤ n * n := Nat.mul_le_mul_right n ha

theorem flat_index3_lt (n m a b f : Nat) (ha : a < n) (hb : b < n) (hf : f < m) :
    (a * n + b) * m + f < n * n * m := by
  have h := flat_index_lt n a b ha hb
  calc (a * n + b) * m + f < (a * n + b) * m + m := by omega
    _ = (a * n + b + 1) * m := by ring
    _ ≤ n * n * m := Nat.mul_le_mul_right m h

theorem kkp_cell (enc : Int → List Nat) (h16 : ∀ v, (enc v).length = 2) (nsq fe : Nat)
    (c : Nat → Nat → Nat → Int) (a b f : Nat) (ha : a < nsq) (hb : b < nsq) (hf : f < fe) :
    (((List.range nsq).flatMap (fun (a : Nat) => (List.range nsq).flatMap (fun (b : Nat) =>
        (List.range fe).flatMap (fun (f : Nat) => enc (c a b f))))).drop
          (2 * ((a * nsq + b) * fe + f))).take 2
      = enc (c a b f) := by
  have e : 2 * ((a * nsq + b) * fe + f) = 2 * fe * nsq * a + (2 * fe * b + (2 * f + 0)) := by
    ring
  have hb1 : 2 * fe * b + (2 * f + 0) + 2 ≤ 2 * fe * nsq := by
    calc 2 * fe * b + (2 * f + 0) + 2 ≤ 2 * fe * b + 2 * fe := by omega
      _ = 2 * fe * (b + 1) := by ring
      _ ≤ 2 * fe * nsq := Nat.mul_le_mul_left _ hb
  rw [e, chunk_range _ (2 * fe * nsq) (fun a =>
      flatMap_range_length _ (2 * fe) (fun b =>
        flatMap_range_length _ 2 (fun _ => h16 _) fe) nsq) nsq a (2 * fe * b + (2 * f + 0)) 2 ha hb1,
    chunk_range _ (2 * fe) (fun b =>
        flatMap_range_length _ 2 (fun _ => h16 _) fe) nsq b (2 * f + 0) 2 hb (by omega),
    chunk_range _ 2 (fun _ => h16 _) fe f 0 2 hf (by omega),
    List.drop_zero, List.take_of_length_le (by rw [h16])]

theorem kk_cell (enc : Int → List Nat) (h32 : ∀ v, (enc v).length = 4) (nsq : Nat)
    (c : Nat → Nat → Int) (a b : Nat) (ha : a < nsq) (hb : b < nsq) :
    (((List.range nsq).flatMap (fun (a : Nat) => (List.range nsq).flatMap (fun (b : Nat) =>
        enc (c a b)))).drop (4 * (a * nsq + b))).take 4
      = enc (c a b) := by
  have e : 4 * (a * nsq + b) = 4 * nsq * a + (4 * b + 0) := by ring
  have hb1 : 4 * b + 0 + 4 ≤ 4 * nsq := by omega
  rw [e, chunk_range _ (4 * nsq) (fun a =>
      flatMap_range_length _ 4 (fun _ => h32 _) nsq) nsq a (4 * b + 0) 4 ha hb1,
    chunk_range _ 4 (fun _ => h32 _) nsq b 0 4 hb (by omega),
    List.drop_zero, List.take_of_length_le (by rw [h32])]

theorem loadTables_roundtrip (C : Codec) (hC : C.Lawful) (nsq fe : Nat) (T : Tables)
    (hpc : ∀ k i j : Nat, k < nsq → i < fe → j < fe →
      -32768 ≤ T.pc_on_sq k i j ∧ T.pc_on_sq k i j ≤ 32767)
    (hkkp : ∀ a b f : Nat, a < nsq → b < nsq → f < fe →
      -32768 ≤ T.kkp a b f ∧ T.kkp a b f ≤ 32767)
    (hkk : ∀ a b : Nat, a < nsq → b < nsq →
      -2147483648 ≤ T.kk a b ∧ T.kk a b ≤ 2147483647) :
    (loadTables C nsq fe (serialise C nsq fe T)).iret = 0
    ∧ (∀ k i j : Nat, k < nsq → i < fe → j < fe →
        (loadTables C nsq fe (serialise C nsq fe T)).pcAt k i j = T.pc_on_sq k i j)
    ∧ (∀ a b f : Nat, a < nsq → b < nsq → f < fe →
        (loadTables C nsq fe (serialise C nsq fe T)).kkpAt nsq fe a b f = T.kkp a b f)
    ∧ (∀ a b : Nat, a < nsq → b < nsq →
        (loadTables C nsq fe (serialise C nsq fe T)).kkAt nsq a b = T.kk a b) := by
  rw [loadTables_serialise C hC]
  obtain ⟨h16, d16, h32, d32⟩ := hC
  refine ⟨rfl, ?_, ?_, ?_⟩
  · intro k i j hk hi hj
    simp only [Loaded.pcAt]
    rw [getD_map_range _ _ nsq k hk, getD_map_range _ _ fe i hi,
      decodeCells_block C.dec16 _ 2 fe (fun _ => h16 _), getD_map_range _ _ fe j hj]
    exact d16 _ (hpc k i j hk hi hj).1 (hpc k i j hk hi hj).2
  · intro a b f ha hb hf
    simp only [Loaded.kkpAt, decodeCells]
    rw [getD_map_range _ _ _ _ (flat_index3_lt nsq fe a b f ha hb hf),
      kkp_cell C.enc16 h16 nsq fe (fun a b f => T.kkp a b f) a b f ha hb hf]
    exact d16 _ (hkkp a b f ha hb hf).1 (hkkp a b f ha hb hf).2
  · intro a b ha hb
    simp only [Loaded.kkAt, decodeCells]
    rw [getD_map_range _ _ _ _ (flat_index_lt nsq a b ha hb),
      kk_cell C.enc32 h32 nsq (fun a b => T.kk a b) a b ha hb]
    exact d32 _ (hkk a b ha hb).1 (hkk a b ha hb).2

theorem littleEndian_lawful : littleEndian.Lawful := by
  refine ⟨fun _ => rfl, ?_, fun _ => rfl, ?_⟩
  · intro v h1 h2
    simp only [littleEndian, List.getD_cons_zero, List.getD_cons_succ]
    split_ifs <;> omega
  · intro v h1 h2
    simp only [littleEndian, List.getD_cons_zero, List.getD_cons_succ]
    split_ifs <;> omega

/-- C17.  For every table set whose `pc_on_sq` and `kkp` cells are 16-bit
signed values and whose `kk` cells are 32-bit signed values, loading the
stream that holds the tables in the documented order succeeds (`iret = 0`) and
leaves every cell of `pc_on_sq` (81 x 1476 x 1476), `kkp` (81 x 81 x 1476) and
`kk` (81 x 81) equal to the original, for every cell representation that
writes 2 and 4 bytes and reads back what it wrote. -/
theorem init_evaluate_load_roundtrip (C : Codec) (hC : C.Lawful) (T : Tables)
    (hpc : ∀ k i j : Nat, k < 81 → i < 1476 → j < 1476 →
      -32768 ≤ T.pc_on_sq k i j ∧ T.pc_on_sq k i j ≤ 32767)
    (hkkp : ∀ a b f : Nat, a < 81 → b < 81 → f < 1476 →
      -32768 ≤ T.kkp a b f ∧ T.kkp a b f ≤ 32767)
    (hkk : ∀ a b : Nat, a < 81 → b < 81 →
      -2147483648 ≤ T.kk a b ∧ T.kk a b ≤ 2147483647) :
    (init_evaluate_load C (serialise C 81 1476 T)).iret = 0
    ∧ (∀ k i j : Nat, k < 81 → i < 1476 → j < 1476 →
        (init_evaluate_load C (serialise C 81 1476 T)).pcAt k i j = T.pc_on_sq k i j)
    ∧ (∀ a b f : Nat, a < 81 → b < 81 → f < 1476 →
        (init_evaluate_load C (serialise C 81 1476 T)).kkpAt 81 1476 a b f = T.kkp a b f)
    ∧ (∀ a b : Nat, a < 81 → b < 81 →
        (init_evaluate_load C (serialise C 81 1476 T)).kkAt 81 a b = T.kk a b) :=
  loadTables_roundtrip C hC 81 1476 T hpc hkkp hkk

/-- C17, run with the little-endian representation on the tables with
`kk = -31` everywhere: the load succeeds and `kk[76][4]` reads back as -31. -/
theorem init_evaluate_load_roundtrip_witness :
    (init_evaluate_load littleEndian (serialise littleEndian 81 1476 smallNegTables)).iret = 0
    ∧ (init_evaluate_load littleEndian
        (serialise littleEndian 81 1476 smallNegTables)).kkAt 81 76 4 = -31 :=
  have h := init_evaluate_load_roundtrip littleEndian littleEndian_lawful smallNegTables
    (fun _ _ _ _ _ _ => by simp [smallNegTables])
    (fun _ _ _ _ _ _ => by simp [smallNegTables])
    (fun _ _ _ _ => by simp [smallNegTables])
  ⟨h.1, h.2.2.2 76 4 (by decide) (by decide)⟩

/-! ## Widths of the hand bands -/

/-- C21 (as amended).  The distance from every hand base to the next base is
the largest legal hand count of the kind plus one, so a band holds exactly the
counts 0 to the maximum: the pawn bands are 19 wide, the lance, knight, silver
and gold bands 5 wide, and the bishop and rook bands 3 wide. -/
theorem hand_band_width :
    (∀ (k : HandKind) (c : Color), handBandWidth k c = (handMax k : Int) + 1)
    ∧ (∀ (k : HandKind) (c : Color) (n : Nat),
        n ≤ handMax k ↔
          (handBase k c ≤ (Feature.hand k c n).index
            ∧ (Feature.hand k c n).index < handBandEnd k c))
    ∧ (∀ c : Color, handBandWidth HandKind.FU c = 19)
    ∧ (∀ c : Color, handBandWidth HandKind.KY c = 5 ∧ handBandWidth HandKind.KE c = 5
        ∧ handBandWidth HandKind.GI c = 5 ∧ handBandWidth HandKind.KI c = 5)
    ∧ (∀ c : Color, handBandWidth HandKind.KA c = 3 ∧ handBandWidth HandKind.HI c = 3)
    ∧ handMax HandKind.FU = 18 ∧ handMax HandKind.KA = 2 ∧ handMax HandKind.HI = 2 := by
  refine ⟨?_, ?_, ?_, ?_, ?_, rfl, rfl, rfl⟩
  · intro k c
    cases k <;> cases c <;> decide
  · intro k c n
    have hw : handBandEnd k c = handBase k c + ((handMax k : Int) + 1) := by
      cases k <;> cases c <;> decide
    rw [hw, Feature.index]
    omega
  · intro c
    cases c <;> decide
  · intro c
    cases c <;> decide
  · intro c
    cases c <;> decide

/-- C21 (as stated) fails.  The bishop and rook bands are not 5 wide:
`e_hand_bishop - f_hand_bishop = 81 - 78 = 3`, `f_hand_rook - e_hand_bishop = 3`,
`e_hand_rook - f_hand_rook = 3` and `fe_hand_end - e_hand_rook = 3`, one more
than the largest legal count 2. -/
theorem hand_band_width_five_fails :
    handBandWidth HandKind.KA Color.BLACK ≠ 5 ∧ handBandWidth HandKind.KA Color.WHITE ≠ 5
    ∧ handBandWidth HandKind.HI Color.BLACK ≠ 5 ∧ handBandWidth HandKind.HI Color.WHITE ≠ 5
    ∧ e_hand_bishop - f_hand_bishop = 3 ∧ f_hand_rook - e_hand_bishop = 3
    ∧ e_hand_rook - f_hand_rook = 3 ∧ fe_hand_end - e_hand_rook = 3 := by
  decide

/-! ## The gold class -/

/-- C22.  On every square the `switch` of `make_list` writes, for a gold and
for a promoted pawn, lance, knight or silver of one owner, the same pair
`(gold base of the owner + sq, gold base of the opponent + (80 - sq))`; a
horse and a dragon are written into bands of their own, and on the 81 squares
no index of a horse or dragon entry is the index of an entry of any other
piece code, bishop and rook included. -/
theorem gold_class_collapse (sq : Int) (st : Lists) :
    (∀ p ∈ [Piece.SKI, Piece.STO, Piece.SNY, Piece.SNK, Piece.SNG],
        boardCase p sq st = st.push (f_gold + sq) (e_gold + (80 - sq)))
    ∧ (∀ p ∈ [Piece.GKI, Piece.GTO, Piece.GNY, Piece.GNK, Piece.GNG],
        boardCase p sq st = st.push (e_gold + sq) (f_gold + (80 - sq)))
    ∧ boardCase Piece.SUM sq st = st.push (f_horse + sq) (e_horse + (80 - sq))
    ∧ boardCase Piece.GUM sq st = st.push (e_horse + sq) (f_horse + (80 - sq))
    ∧ boardCase Piece.SRY sq st = st.push (f_dragon + sq) (e_dragon + (80 - sq))
    ∧ boardCase Piece.GRY sq st = st.push (e_dragon + sq) (f_dragon + (80 - sq))
    ∧ boardCase Piece.SKA sq st = st.push (f_bishop + sq) (e_bishop + (80 - sq))
    ∧ boardCase Piece.GKA sq st = st.push (e_bishop + sq) (f_bishop + (80 - sq))
    ∧ boardCase Piece.SHI sq st = st.push (f_rook + sq) (e_rook + (80 - sq))
    ∧ boardCase Piece.GHI sq st = st.push (e_rook + sq) (f_rook + (80 - sq))
    ∧ (∀ p ∈ [Piece.SUM, Piece.GUM, Piece.SRY, Piece.GRY], ∀ q : Piece, q ≠ p →
        ∀ sq' : Int, 0 ≤ sq → sq ≤ 80 → 0 ≤ sq' → sq' ≤ 80 →
        ∀ e ∈ boardEntry p sq, ∀ e' ∈ boardEntry q sq', e.1 ≠ e'.1 ∧ e.2 ≠ e'.2) := by
  have hInv : Inv sq = 80 - sq := by simp only [Inv, nsquare]; ring
  refine ⟨?_, ?_, ?_, ?_, ?_, ?_, ?_, ?_, ?_, ?_, ?_⟩
  · intro p hp
    simp only [List.mem_cons, List.mem_singleton, List.not_mem_nil, or_false] at hp
    rcases hp with rfl | rfl | rfl | rfl | rfl <;> simp only [boardCase, hInv]
  · intro p hp
    simp only [List.mem_cons, List.mem_singleton, List.not_mem_nil, or_false] at hp
    rcases hp with rfl | rfl | rfl | rfl | rfl <;> simp only [boardCase, hInv]
  · simp only [boardCase, hInv]
  · simp only [boardCase, hInv]
  · simp only [boardCase, hInv]
  · simp only [boardCase, hInv]
  · simp only [boardCase, hInv]
  · simp only [boardCase, hInv]
  · simp only [boardCase, hInv]
  · simp only [boardCase, hInv]
  · intro p hp q hq sq' h0 h1 h0' h1' e he e' he'
    simp only [List.mem_cons, List.mem_singleton, List.not_mem_nil, or_false] at hp
    rw [boardEntry_eq_class] at he he'
    rcases hp with rfl | rfl | rfl | rfl <;> cases q <;>
      simp only [pieceClass, List.mem_singleton, List.not_mem_nil, ne_eq, not_true_eq_false,
        boardBase, Color.flip, Inv, nsquare, f_pawn, e_pawn, f_lance, e_lance, f_knight,
        e_knight, f_silver, e_silver, f_gold, e_gold, f_bishop, e_bishop, f_horse, e_horse,
        f_rook, e_rook, f_dragon, e_dragon] at he he' hq <;>
      (subst he; subst he'; constructor <;> (simp only []; omega))

/-- C22, run on square 40 for a promoted pawn of Black. -/
theorem gold_class_collapse_witness :
    boardCase Piece.STO 40 Lists.empty
      = Lists.empty.push (f_gold + 40) (e_gold + (80 - 40)) :=
  (gold_class_collapse 40 Lists.empty).1 Piece.STO (by decide)

/-! ## Bounds of the table indices -/

theorem boardEntry_range (p : Piece) (sq : Int) (h0 : 0 ≤ sq) (h1 : sq ≤ 80)
    (e : Int × Int) (he : e ∈ boardEntry p sq) :
    (0 ≤ e.1 ∧ e.1 < fe_end) ∧ (0 ≤ e.2 ∧ e.2 < fe_end) := by
  rw [boardEntry_eq_class] at he
  cases p <;>
    simp only [pieceClass, List.mem_singleton, List.not_mem_nil, boardBase, Color.flip, Inv,
      nsquare, f_pawn, e_pawn, f_lance, e_lance, f_knight, e_knight, f_silver, e_silver,
      f_gold, e_gold, f_bishop, e_bishop, f_horse, e_horse, f_rook, e_rook, f_dragon,
      e_dragon] at he <;>
    (subst he; simp only [fe_end]; omega)

/-- With hand counts within the legal maxima every entry of both lists is in
`[0, fe_end)`, wherever the pieces stand on the 81 squares. -/
theorem entries_range (L : HandLayout) (pos : Position) (hh : LegalHands L pos)
    (e : Int × Int) (he : e ∈ handEntries L pos ++ boardEntries pos) :
    (0 ≤ e.1 ∧ e.1 < fe_end) ∧ (0 ≤ e.2 ∧ e.2 < fe_end) := by
  rcases List.mem_append.1 he with h | h
  · obtain ⟨ft, hft, rfl⟩ := handEntries_feature L pos hh e h
    exact ⟨ft.index_range hft, ft.mirror.index_range (ft.mirror_emittable hft)⟩
  · unfold boardEntries at h
    obtain ⟨z, hz, hez⟩ := List.mem_flatMap.1 h
    obtain ⟨h0, h1⟩ := gridCells_sq z hz
    exact boardEntry_range _ _ h0 h1 e hez

/-! ## The board entries do not depend on the hands -/

theorem make_list_hand_nlist (L : HandLayout) (pos : Position) :
    (make_list_hand L pos).nlist = (handEntries L pos).length := by
  rw [make_list_hand_eq]
  simp [Lists.nlist, Lists.append, Lists.empty]

theorem boardEntries_congr (pos pos' : Position)
    (h : ∀ z ∈ gridCells, pos.ban z = pos'.ban z) : boardEntries pos = boardEntries pos' := by
  unfold boardEntries
  apply List.flatMap_congr
  intro z hz
  rw [h z hz]

theorem make_list_drop0 (L : HandLayout) (pos : Position) :
    (make_list L pos).list0.drop (make_list_hand L pos).nlist
      = (boardEntries pos).map Prod.fst := by
  rw [make_list_hand_nlist, make_list_list0, List.map_append]
  have : (handEntries L pos).length = ((handEntries L pos).map Prod.fst).length := by simp
  rw [this, List.drop_left]

theorem make_list_drop1 (L : HandLayout) (pos : Position) :
    (make_list L pos).list1.drop (make_list_hand L pos).nlist
      = (boardEntries pos).map Prod.snd := by
  rw [make_list_hand_nlist, make_list_list1, List.map_append]
  have : (handEntries L pos).length = ((handEntries L pos).map Prod.snd).length := by simp
  rw [this, List.drop_left]

theorem make_list_take0 (L : HandLayout) (pos : Position) :
    (make_list L pos).list0.take (make_list_hand L pos).nlist = (make_list_hand L pos).list0 := by
  rw [make_list_hand_nlist, make_list_list0, List.map_append, make_list_hand_eq]
  have : (handEntries L pos).length = ((handEntries L pos).map Prod.fst).length := by simp
  rw [this, List.take_left]
  simp [Lists.append, Lists.empty]

theorem make_list_take1 (L : HandLayout) (pos : Position) :
    (make_list L pos).list1.take (make_list_hand L pos).nlist = (make_list_hand L pos).list1 := by
  rw [make_list_hand_nlist, make_list_list1, List.map_append, make_list_hand_eq]
  have : (handEntries L pos).length = ((handEntries L pos).map Prod.snd).length := by simp
  rw [this, List.take_left]
  simp [Lists.append, Lists.empty]

/-- C24.  Two positions with the same pieces on the 81 squares have the same
board entries: in both lists the entries after the hand entries are equal, in
the same order, whatever the two hands hold; the entries before them are the
hand entries, the output of the hand part alone.  If the hands are equal as
well the lists are equal. -/
theorem make_list_board_frame (L : HandLayout) (pos pos' : Position)
    (hban : ∀ z ∈ gridCells, pos.ban z = pos'.ban z) :
    (make_list L pos).list0.drop (make_list_hand L pos).nlist
      = (make_list L pos').list0.drop (make_list_hand L pos').nlist
    ∧ (make_list L pos).list1.drop (make_list_hand L pos).nlist
      = (make_list L pos').list1.drop (make_list_hand L pos').nlist
    ∧ (make_list L pos).list0.take (make_list_hand L pos).nlist = (make_list_hand L pos).list0
    ∧ (make_list L pos).list1.take (make_list_hand L pos).nlist = (make_list_hand L pos).list1
    ∧ (make_list L pos').list0.take (make_list_hand L pos').nlist
      = (make_list_hand L pos').list0
    ∧ (make_list L pos').list1.take (make_list_hand L pos').nlist
      = (make_list_hand L pos').list1
    ∧ (make_list L pos).nlist - (make_list_hand L pos).nlist
      = (make_list L pos').nlist - (make_list_hand L pos').nlist
    ∧ (pos.hand = pos'.hand → make_list L pos = make_list L pos') := by
  have hb := boardEntries_congr pos pos' hban
  refine ⟨?_, ?_, make_list_take0 L pos, make_list_take1 L pos, make_list_take0 L pos',
    make_list_take1 L pos', ?_, ?_⟩
  · rw [make_list_drop0, make_list_drop0, hb]
  · rw [make_list_drop1, make_list_drop1, hb]
  · rw [make_list_nlist, make_list_nlist, make_list_hand_nlist, make_list_hand_nlist,
      ← boardEntries_length, ← boardEntries_length, hb]
    omega
  · intro hh
    rw [make_list_eq, make_list_eq, hb]
    have : handEntries L pos = handEntries L pos' := by
      simp only [handEntries, slotCount, hh]
    rw [this]

/-- C24, run on a middle-game position and the same board with one pawn in
Black's hand instead of none: the hand entries differ, the board entries do
not. -/
theorem make_list_board_frame_witness :
    (make_list sampleLayout midPos).list0.drop (make_list_hand sampleLayout midPos).nlist
      = (make_list sampleLayout midPosPawn).list0.drop
          (make_list_hand sampleLayout midPosPawn).nlist
    ∧ (make_list sampleLayout midPos).list1.drop (make_list_hand sampleLayout midPos).nlist
      = (make_list sampleLayout midPosPawn).list1.drop
          (make_list_hand sampleLayout midPosPawn).nlist
    ∧ (make_list_hand sampleLayout midPos).list0 ≠ (make_list_hand sampleLayout midPosPawn).list0 :=
  have h := make_list_board_frame sampleLayout midPos midPosPawn (fun _ _ => rfl)
  ⟨h.1, h.2.1, by decide⟩

/-! ## The tight bound on the number of entries -/

theorem countP_pos_le_sum {α : Type} (f : α → Nat) (l : List α) :
    l.countP (fun s => decide (0 < f s)) ≤ (l.map f).sum := by
  induction l with
  | nil => simp
  | cons a t ih =>
    rw [List.countP_cons, List.map_cons, List.sum_cons]
    by_cases h : 0 < f a
    · simp only [h, decide_True, if_true]
      omega
    · simp only [h, decide_False]
      simp only [Bool.false_eq_true, if_false]
      omega

theorem handEntries_length_le_count (L : HandLayout) (pos : Position) :
    (handEntries L pos).length ≤ handPieceCount L pos := by
  rw [handEntries, List.length_map, ← List.countP_eq_length_filter]
  exact countP_pos_le_sum (slotCount L pos) handSlots

/-- C25.  When the pieces in the two hands and the non-king pieces on the
board number at most 38, `make_list` returns at most 38 entries, fewer than
the capacity `NLIST = 52`: a hand entry is written only for a positive count,
so the hand entries number at most the pieces in hand, and every non-king piece
on the board gives one entry. -/
theorem make_list_nlist_tight (L : HandLayout) (pos : Position)
    (h : handPieceCount L pos + boardPieceCount pos ≤ 38) :
    (make_list L pos).nlist ≤ 38
    ∧ (make_list L pos).nlist < NLIST
    ∧ (make_list_hand L pos).nlist ≤ handPieceCount L pos
    ∧ (make_list_hand L pos).nlist = handSlots.countP (fun s => 0 < slotCount L pos s)
    ∧ (make_list L pos).nlist = (make_list_hand L pos).nlist + boardPieceCount pos := by
  have hle := handEntries_length_le_count L pos
  have hn := make_list_nlist L pos
  have hh := make_list_hand_nlist L pos
  refine ⟨?_, ?_, ?_, ?_, ?_⟩
  · omega
  · rw [NLIST]
    omega
  · omega
  · rw [hh, handEntries, List.length_map, List.countP_eq_length_filter]
  · omega

/-- C25, run on a middle-game position: three pieces in hand and two non-king
pieces on the board give four entries. -/
theorem make_list_nlist_tight_witness :
    handPieceCount sampleLayout midPos + boardPieceCount midPos ≤ 38
    ∧ (make_list sampleLayout midPos).nlist ≤ 38
    ∧ (make_list sampleLayout midPos).nlist < NLIST :=
  have h := make_list_nlist_tight sampleLayout midPos (by decide)
  ⟨by decide, h.1, h.2.1⟩

/-! ## The lists of the mirrored board, in order -/

theorem reverse_of_length_le_one {α : Type} (l : List α) (h : l.length ≤ 1) :
    l.reverse = l := by
  match l, h with
  | [], _ => rfl
  | [_], _ => rfl
  | _ :: _ :: _, h => simp at h

theorem flatMap_reverse {α β : Type} (f : α → List β) (h : ∀ a, (f a).length ≤ 1)
    (l : List α) : l.reverse.flatMap f = (l.flatMap f).reverse := by
  induction l with
  | nil => rfl
  | cons a t ih =>
    simp only [List.reverse_cons, List.flatMap_append, ih, List.flatMap_cons, List.flatMap_nil,
      List.append_nil, List.reverse_append, reverse_of_length_le_one (f a) (h a)]

/-- The board entries of the mirrored board are the board entries of the
original board in reversed order, with the two entries of every pair
exchanged. -/
theorem boardEntries_mirror_reverse (P : Params) (K : KnRanges) (pos : Position) :
    boardEntries (mirrorPos P K pos) = ((boardEntries pos).reverse).map Prod.swap := by
  rw [boardEntries_mirror, flatMap_reverse _ _ gridCells, boardEntries]
  intro z
  rw [boardEntry_length]
  split <;> omega

theorem handEntries_mirror_eq (L : HandLayout) (P : Params) (K : KnRanges) (pos : Position) :
    handEntries L (mirrorPos P K pos)
      = (handKinds.flatMap
          (fun k => slotEntry L pos (k, Color.WHITE) ++ slotEntry L pos (k, Color.BLACK))).map
          Prod.swap := by
  rw [handEntries_flatMap, List.map_flatMap, handKinds]
  apply List.flatMap_congr
  intro k _
  rw [slotEntry_mirror, slotEntry_mirror, List.map_append]
  rfl

theorem entries_mirror_eq (L : HandLayout) (P : Params) (K : KnRanges) (pos : Position) :
    handEntries L (mirrorPos P K pos) ++ boardEntries (mirrorPos P K pos)
      = mirroredEntries L pos := by
  rw [mirroredEntries, List.map_append, handEntries_mirror_eq, boardEntries_mirror_reverse]

theorem fst_comp_swap : (Prod.fst ∘ (Prod.swap : Int × Int → Int × Int)) = Prod.snd := rfl

theorem snd_comp_swap : (Prod.snd ∘ (Prod.swap : Int × Int → Int × Int)) = Prod.fst := rfl

theorem zip_fst_snd (E : List (Int × Int)) : (E.map Prod.fst).zip (E.map Prod.snd) = E := by
  induction E with
  | nil => rfl
  | cons a t ih => simp [ih]

theorem zip_snd_fst (E : List (Int × Int)) :
    (E.map Prod.snd).zip (E.map Prod.fst) = E.map Prod.swap := by
  induction E with
  | nil => rfl
  | cons a t ih => simp [ih, Prod.swap]

/-- C26.  `make_list` on the mirrored board returns the same count; its lists
are, entry by entry, the original lists exchanged and rearranged by one
permutation: within every kind the hand entry of White's count comes before
that of Black's count (so the two entries of a kind held by both colours change
places), and the board entries follow in exactly reversed order.  Hence the
new `list0` is a permutation of the old `list1`, and the new `list1` is the same
permutation of the old `list0`. -/
theorem make_list_mirrored_board (L : HandLayout) (P : Params) (K : KnRanges)
    (pos : Position) :
    (make_list L (mirrorPos P K pos)).nlist = (make_list L pos).nlist
    ∧ (make_list L (mirrorPos P K pos)).list0 = (mirroredEntries L pos).map Prod.fst
    ∧ (make_list L (mirrorPos P K pos)).list1 = (mirroredEntries L pos).map Prod.snd
    ∧ ((make_list L (mirrorPos P K pos)).list0.zip (make_list L (mirrorPos P K pos)).list1).Perm
        ((make_list L pos).list1.zip (make_list L pos).list0)
    ∧ (make_list L (mirrorPos P K pos)).list0.Perm (make_list L pos).list1
    ∧ (make_list L (mirrorPos P K pos)).list1.Perm (make_list L pos).list0
    ∧ (make_list_hand L (mirrorPos P K pos)).nlist = (make_list_hand L pos).nlist
    ∧ (make_list L (mirrorPos P K pos)).list0.drop (make_list_hand L (mirrorPos P K pos)).nlist
        = ((make_list L pos).list1.drop (make_list_hand L pos).nlist).reverse
    ∧ (make_list L (mirrorPos P K pos)).list1.drop (make_list_hand L (mirrorPos P K pos)).nlist
        = ((make_list L pos).list0.drop (make_list_hand L pos).nlist).reverse
    ∧ (∀ k : HandKind,
        slotEntry L (mirrorPos P K pos) (k, Color.BLACK)
            ++ slotEntry L (mirrorPos P K pos) (k, Color.WHITE)
          = (slotEntry L pos (k, Color.WHITE) ++ slotEntry L pos (k, Color.BLACK)).map
              Prod.swap) := by
  have hperm := entries_mirror_perm L P K pos
  have heq := entries_mirror_eq L P K pos
  have hlen : (handEntries L (mirrorPos P K pos)).length = (handEntries L pos).length := by
    rw [(handEntries_mirror L P K pos).length_eq, List.length_map]
  refine ⟨?_, ?_, ?_, ?_, ?_, ?_, ?_, ?_, ?_, ?_⟩
  · rw [Lists.nlist, Lists.nlist, make_list_list0, make_list_list0, List.length_map,
      List.length_map, hperm.length_eq, List.length_map]
  · rw [make_list_list0, heq]
  · rw [make_list_list1, heq]
  · rw [make_list_list0, make_list_list1, make_list_list0, make_list_list1, zip_fst_snd,
      zip_snd_fst]
    exact hperm
  · rw [make_list_list0, make_list_list1]
    have := hperm.map Prod.fst
    rwa [List.map_map, fst_comp_swap] at this
  · rw [make_list_list1, make_list_list0]
    have := hperm.map Prod.snd
    rwa [List.map_map, snd_comp_swap] at this
  · rw [make_list_hand_nlist, make_list_hand_nlist, hlen]
  · rw [make_list_drop0, make_list_drop1, boardEntries_mirror_reverse, List.map_map,
      fst_comp_swap, List.map_reverse]
  · rw [make_list_drop1, make_list_drop0, boardEntries_mirror_reverse, List.map_map,
      snd_comp_swap, List.map_reverse]
  · intro k
    rw [slotEntry_mirror, slotEntry_mirror, List.map_append]
    rfl

/-! ## Side-relative symmetry of `evaluate` -/

theorem evalSum_mirror_features (T : Tables) (L : HandLayout) (P : Params) (K : KnRanges)
    (pos : Position)
    (hpc : ∀ k : Int, 0 ≤ k → k ≤ 80 → ∀ f g : Feature, f.emittable → g.emittable →
      T.pc_on_sq k f.index g.index = T.pc_on_sq k g.index f.index)
    (hkk : ∀ a b : Int, 0 ≤ a → a ≤ 80 → 0 ≤ b → b ≤ 80 →
      T.kk a b = -T.kk (80 - b) (80 - a))
    (hkkp : ∀ a b : Int, 0 ≤ a → a ≤ 80 → 0 ≤ b → b ≤ 80 → ∀ f : Feature, f.emittable →
      T.kkp a b f.index = -T.kkp (80 - b) (80 - a) f.mirror.index)
    (hS : 0 ≤ z2sq pos.kingS) (hG : 0 ≤ z2sq pos.kingG)
    (hh : LegalHands L pos) (hb : LegalBoard pos) :
    evalSum T L (mirrorPos P K pos) = -evalSum T L pos := by
  have hperm := entries_mirror_perm L P K pos
  have hE := entries_feature L pos hh hb
  have kS : z2sq (mirrorPos P K pos).kingS = 80 - z2sq pos.kingG := z2sq_mirrorZ _ hG
  have kG : z2sq (mirrorPos P K pos).kingG = 80 - z2sq pos.kingS := z2sq_mirrorZ _ hS
  have bS := z2sq_le pos.kingS
  have bG := z2sq_le pos.kingG
  rw [evalSum_entries, evalSum_entries, kS, kG]
  generalize z2sq pos.kingS = bk at hS bS
  generalize z2sq pos.kingG = wk at hG bG
  generalize handEntries L (mirrorPos P K pos) ++ boardEntries (mirrorPos P K pos) = E' at hperm
  generalize handEntries L pos ++ boardEntries pos = E at hperm hE
  have h1 : (E'.map (fun e => T.kkp (80 - wk) (80 - bk) e.1)).sum
      = -(E.map (fun e => T.kkp bk wk e.1)).sum := by
    rw [(hperm.map _).sum_eq, List.map_map, ← sum_map_neg]
    congr 1
    apply List.map_congr_left
    intro e he
    obtain ⟨ft, hft, rfl⟩ := hE e he
    rw [hkkp bk wk hS bS hG bG ft hft]
    simp
  have hsym : ∀ a ∈ E.map Prod.swap, ∀ b ∈ E.map Prod.swap,
      T.pc_on_sq (80 - wk) a.1 b.1 - T.pc_on_sq (Inv (80 - bk)) a.2 b.2
        = T.pc_on_sq (80 - wk) b.1 a.1 - T.pc_on_sq (Inv (80 - bk)) b.2 a.2 := by
    intro a ha b hb
    obtain ⟨x, hx, rfl⟩ := List.mem_map.1 ha
    obtain ⟨y, hy, rfl⟩ := List.mem_map.1 hb
    obtain ⟨f, hf, rfl⟩ := hE x hx
    obtain ⟨g, hg, rfl⟩ := hE y hy
    simp only [Prod.fst_swap, Prod.snd_swap, Inv, nsquare]
    rw [hpc (80 - wk) (by omega) (by omega) f.mirror g.mirror (f.mirror_emittable hf)
        (g.mirror_emittable hg),
      hpc (81 - 1 - (80 - bk)) (by omega) (by omega) f g hf hg]
  have h2 : pairSum (fun a b => T.pc_on_sq (80 - wk) a.1 b.1
        - T.pc_on_sq (Inv (80 - bk)) a.2 b.2) E'
      = -pairSum (fun a b => T.pc_on_sq bk a.1 b.1 - T.pc_on_sq (Inv wk) a.2 b.2) E := by
    rw [← pairSum_perm _ hperm.symm hsym, pairSum_map, ← pairSum_neg]
    apply pairSum_congr
    intro a _ b _
    simp only [Prod.fst_swap, Prod.snd_swap, Inv, nsquare]
    have e1 : (81 : Int) - 1 - (80 - bk) = bk := by ring
    have e2 : (81 : Int) - 1 - wk = 80 - wk := by ring
    rw [e1, e2]
    ring
  have h3 : T.kk (80 - wk) (80 - bk) = -T.kk bk wk := by
    rw [hkk bk wk hS bS hG bG]
    simp
  rw [h1, h2, h3]
  ring

theorem wrap32_of_range (x : Int) (h1 : -2147483648 ≤ x) (h2 : x ≤ 2147483647) :
    wrap32 x = x := by
  unfold wrap32
  omega

theorem wrap32_range (x : Int) : -2147483648 ≤ wrap32 x ∧ wrap32 x ≤ 2147483647 := by
  unfold wrap32
  omega

theorem wrap32_wrap32 (x : Int) : wrap32 (wrap32 x) = wrap32 x := by
  unfold wrap32
  omega

theorem wrap32_congr_add (s s' a : Int) (h : wrap32 s = wrap32 s') :
    wrap32 (s + a) = wrap32 (s' + a) := by
  unfold wrap32 at *
  omega

theorem wrap32_step_add (s s' a : Int) (h : wrap32 s = wrap32 s') :
    wrap32 (wrap32 (s + a)) = wrap32 (s' + a) := by
  unfold wrap32 at *
  omega

theorem wrap32_step_sub (s s' a : Int) (h : wrap32 s = wrap32 s') :
    wrap32 (wrap32 (s - a)) = wrap32 (s' - a) := by
  unfold wrap32 at *
  omega

theorem wrap32_foldl {α : Type} (f32 f : Int → α → Int)
    (h : ∀ s s' a, wrap32 s = wrap32 s' → wrap32 (f32 s a) = wrap32 (f s' a))
    (l : List α) (s s' : Int) (hs : wrap32 s = wrap32 s') :
    wrap32 (l.foldl f32 s) = wrap32 (l.foldl f s') := by
  induction l generalizing s s' with
  | nil => exact hs
  | cons a t ih => exact ih _ _ (h s s' a hs)

/-- The inner loop on `int` and the inner loop over the integers agree modulo
`2^32`. -/
theorem evalInner32_wrap (T : Tables) (sq_bk sq_wk : Int) (list0 list1 : List Int)
    (k0 k1 : Int) (i : Nat) (s s' : Int) (hs : wrap32 s = wrap32 s') :
    wrap32 (evalInner32 T sq_bk sq_wk list0 list1 k0 k1 i s)
      = wrap32 (evalInner T sq_bk sq_wk list0 list1 k0 k1 i s') := by
  unfold evalInner32 evalInner
  apply wrap32_foldl _ _ _ _ _ _ hs
  intro a b j hab
  exact wrap32_step_sub _ _ _ (wrap32_step_add _ _ _ hab)

theorem evalLoop32_wrap (T : Tables) (sq_bk sq_wk sq_wking : Int) (list0 list1 : List Int)
    (nlist : Nat) (s s' : Int) (hs : wrap32 s = wrap32 s') :
    wrap32 (evalLoop32 T sq_bk sq_wk sq_wking list0 list1 nlist s)
      = wrap32 (evalLoop T sq_bk sq_wk sq_wking list0 list1 nlist s') := by
  unfold evalLoop32 evalLoop
  apply wrap32_foldl _ _ _ _ _ _ hs
  intro a b i hab
  exact evalInner32_wrap _ _ _ _ _ _ _ _ _ _ (wrap32_step_add _ _ _ hab)

/-- The `int` sum of `evaluate` is the sum over the integers reduced to the
range of `int`, when the lists fit the arrays; there is no value otherwise. -/
theorem evalSum32_eq (T : Tables) (L : HandLayout) (pos : Position) :
    evalSum32 T L pos
      = if (make_list L pos).nlist ≤ NLIST then some (wrap32 (evalSum T L pos)) else none := by
  unfold evalSum32 evalSum
  simp only []
  split
  · congr 1
    exact wrap32_congr_add _ _ _ (evalLoop32_wrap _ _ _ _ _ _ _ 0 0 rfl)
  · rfl

theorem evalSum32_some (T : Tables) (L : HandLayout) (pos : Position)
    (hn : (make_list L pos).nlist ≤ NLIST) :
    evalSum32 T L pos = some (wrap32 (evalSum T L pos)) := by
  rw [evalSum32_eq, if_pos hn]

theorem evalSum32_none (T : Tables) (L : HandLayout) (pos : Position)
    (hn : ¬ (make_list L pos).nlist ≤ NLIST) : evalSum32 T L pos = none := by
  rw [evalSum32_eq, if_neg hn]

theorem evalSum32_wrapped (T : Tables) (L : HandLayout) (pos : Position) (sum : Int)
    (h : evalSum32 T L pos = some sum) : wrap32 sum = sum := by
  rw [evalSum32_eq] at h
  split at h
  · injection h with h
    rw [← h, wrap32_wrap32]
  · exact absurd h (by simp)

theorem evaluate32_some (T : Tables) (L : HandLayout) (pos : Position) (us : Color)
    (sum : Int) (h : evalSum32 T L pos = some sum) :
    evaluate32 T L pos us
      = some (if us = Color.BLACK then wrap32 (Int.tdiv sum 32 + pos.material)
              else wrap32 (-wrap32 (Int.tdiv sum 32 + pos.material))) := by
  have hw := evalSum32_wrapped T L pos sum h
  have h0 : wrap32 0 = 0 := by decide
  simp only [evaluate32, h, add_zero, h0, zero_add, hw, FV_SCALE, MATERIAL]

theorem evaluate32_none (T : Tables) (L : HandLayout) (pos : Position) (us : Color)
    (h : evalSum32 T L pos = none) : evaluate32 T L pos us = none := by
  simp only [evaluate32, h]

/-- The sum over the integers is the king-pair terms plus the pairwise
terms. -/
theorem evalSum_split (T : Tables) (L : HandLayout) (pos : Position) :
    evalSum T L pos = kingTerms T L pos + pairTerms T L pos := by
  rw [evalSum_eq, kingTerms, pairTerms]
  unfold pairIdx
  rw [Finset.sum_sigma]

theorem kingTerms_no_pc (T : Tables) (L : HandLayout) (pos : Position) :
    kingTerms { kk := T.kk, kkp := T.kkp, pc_on_sq := fun _ _ _ => 0 } L pos
      = kingTerms T L pos := rfl

theorem pairTerms_no_pc (T : Tables) (L : HandLayout) (pos : Position) :
    pairTerms { kk := T.kk, kkp := T.kkp, pc_on_sq := fun _ _ _ => 0 } L pos = 0 := by
  simp [pairTerms]

theorem kingTerms_pc_only (T : Tables) (L : HandLayout) (pos : Position) :
    kingTerms { kk := fun _ _ => 0, kkp := fun _ _ _ => 0, pc_on_sq := T.pc_on_sq } L pos
      = 0 := by
  simp [kingTerms]

theorem pairTerms_pc_only (T : Tables) (L : HandLayout) (pos : Position) :
    pairTerms { kk := fun _ _ => 0, kkp := fun _ _ _ => 0, pc_on_sq := T.pc_on_sq } L pos
      = pairTerms T L pos := rfl

/-- With 16-bit cells in `pc_on_sq` and lists that fit the arrays, the pairwise
terms stay within the range of `int`: at most `52 * 51 / 2 = 1326` pairs, each
of absolute value at most 65535. -/
theorem pairTerms_bound (T : Tables) (L : HandLayout) (pos : Position)
    (hn : (make_list L pos).nlist ≤ NLIST)
    (hc : ∀ k f g : Int, -32768 ≤ T.pc_on_sq k f g ∧ T.pc_on_sq k f g ≤ 32767) :
    -2147483648 ≤ pairTerms T L pos ∧ pairTerms T L pos ≤ 2147483647 := by
  have habs : |pairTerms T L pos| ≤ (pairIdx (make_list L pos).nlist).card • (65535 : Int) := by
    unfold pairTerms
    refine (Finset.abs_sum_le_sum_abs _ _).trans (Finset.sum_le_card_nsmul _ _ _ ?_)
    intro p _
    have h1 := hc (SQ_BKING pos) ((make_list L pos).list0.getD p.1 0)
      ((make_list L pos).list0.getD p.2 0)
    have h2 := hc (Inv (SQ_WKING pos)) ((make_list L pos).list1.getD p.1 0)
      ((make_list L pos).list1.getD p.2 0)
    rw [abs_le]
    constructor <;> omega
  rw [card_pairIdx, nsmul_eq_mul] at habs
  have hcard : (make_list L pos).nlist * ((make_list L pos).nlist - 1) / 2 ≤ 1326 := by
    rw [NLIST] at hn
    have h1 : (make_list L pos).nlist * ((make_list L pos).nlist - 1) ≤ 52 * 51 :=
      Nat.mul_le_mul hn (by omega)
    omega
  have hc2 : (((make_list L pos).nlist * ((make_list L pos).nlist - 1) / 2 : Nat) : Int)
      ≤ 1326 := by exact_mod_cast hcard
  rw [abs_le] at habs
  constructor <;> omega

/-! ## The sum formed by `evaluate`, in `int` arithmetic -/

/-- C2.  The pairwise part of the sum of `evaluate` is the sum over the index
pairs `j < i < nlist` of `pc_on_sq[sq_bk][list0[i]][list0[j]]
- pc_on_sq[Inv(SQ_WKING)][list1[i]][list1[j]]`; the set of pairs has
`n (n - 1) / 2` elements and consists exactly of the pairs with `j < i < n`.
When the lists fit the arrays, the `int` variable `sum` holds the king-pair
terms plus this sum, reduced to the range of `int`; with `pc_on_sq` zeroed it
holds the king-pair terms alone, and with `kk` and `kkp` zeroed it holds the
pairwise sum, exactly, for every table of 16-bit cells. -/
theorem evalSum_pairwise (T : Tables) (L : HandLayout) (pos : Position) :
    pairTerms T L pos
      = ∑ p in pairIdx (make_list L pos).nlist,
          (T.pc_on_sq (z2sq pos.kingS) ((make_list L pos).list0.getD p.1 0)
              ((make_list L pos).list0.getD p.2 0)
            - T.pc_on_sq (80 - z2sq pos.kingG) ((make_list L pos).list1.getD p.1 0)
              ((make_list L pos).list1.getD p.2 0))
    ∧ ((make_list L pos).nlist ≤ NLIST →
        evalSum32 T L pos = some (wrap32 (kingTerms T L pos + pairTerms T L pos))
        ∧ evalSum32 { kk := T.kk, kkp := T.kkp, pc_on_sq := fun _ _ _ => 0 } L pos
          = some (wrap32 (kingTerms T L pos))
        ∧ evalSum32 { kk := fun _ _ => 0, kkp := fun _ _ _ => 0, pc_on_sq := T.pc_on_sq }
            L pos
          = some (wrap32 (pairTerms T L pos))
        ∧ ((∀ k f g : Int, -32768 ≤ T.pc_on_sq k f g ∧ T.pc_on_sq k f g ≤ 32767) →
            (-2147483648 ≤ pairTerms T L pos ∧ pairTerms T L pos ≤ 2147483647)
            ∧ evalSum32
                { kk := fun _ _ => 0, kkp := fun _ _ _ => 0, pc_on_sq := T.pc_on_sq } L pos
              = some (pairTerms T L pos)))
    ∧ (pairIdx (make_list L pos).nlist).card
        = (make_list L pos).nlist * ((make_list L pos).nlist - 1) / 2
    ∧ ∀ p, p ∈ pairIdx (make_list L pos).nlist ↔ (p.2 < p.1 ∧ p.1 < (make_list L pos).nlist) := by
  refine ⟨?_, fun hn => ?_, card_pairIdx _, mem_pairIdx _⟩
  · simp [pairTerms, SQ_BKING, SQ_WKING, Inv, nsquare]
  · have hp : evalSum32 { kk := fun _ _ => 0, kkp := fun _ _ _ => 0, pc_on_sq := T.pc_on_sq }
          L pos = some (wrap32 (pairTerms T L pos)) := by
      rw [evalSum32_some _ L pos hn, evalSum_split, kingTerms_pc_only, pairTerms_pc_only,
        zero_add]
    refine ⟨?_, ?_, hp, fun hc => ?_⟩
    · rw [evalSum32_some T L pos hn, evalSum_split]
    · rw [evalSum32_some _ L pos hn, evalSum_split, kingTerms_no_pc, pairTerms_no_pc,
        add_zero]
    · have hb := pairTerms_bound T L pos hn hc
      exact ⟨hb, by rw [hp, wrap32_of_range _ hb.1 hb.2]⟩

/-- C2, run on a middle-game position (four entries, six pairs) with the
16-bit tables `shortTables`: the sum holds the king-pair terms plus the
pairwise terms, and with `kk` and `kkp` zeroed it holds exactly the pairwise
terms. -/
theorem evalSum_pairwise_witness :
    evalSum32 shortTables sampleLayout midPos
      = some (wrap32 (kingTerms shortTables sampleLayout midPos
          + pairTerms shortTables sampleLayout midPos))
    ∧ evalSum32
        { kk := fun _ _ => 0, kkp := fun _ _ _ => 0, pc_on_sq := shortTables.pc_on_sq }
        sampleLayout midPos
      = some (pairTerms shortTables sampleLayout midPos) :=
  have h := (evalSum_pairwise shortTables sampleLayout midPos).2.1 (by decide)
  ⟨h.1, (h.2.2.2 (fun k f g => by simp only [shortTables]; omega)).2⟩

/-! ## Scaling and sign, in `int` arithmetic -/

theorem tdiv32_sign (s : Int) :
    Int.tdiv s 32 = Int.sign s * ((s.natAbs / 32 : Nat) : Int) := by
  rcases Int.natAbs_eq s with h | h
  · rcases Nat.eq_zero_or_pos s.natAbs with hz | hp
    · have : s = 0 := Int.natAbs_eq_zero.mp hz
      subst this
      simp
    · have hs : 0 < s := by omega
      rw [Int.sign_eq_one_of_pos hs, one_mul]
      conv_lhs => rw [h]
      exact (Int.ofNat_tdiv _ _).symm
  · rcases Nat.eq_zero_or_pos s.natAbs with hz | hp
    · have : s = 0 := Int.natAbs_eq_zero.mp hz
      subst this
      simp
    · have hs : s < 0 := by omega
      rw [Int.sign_eq_neg_one_of_neg hs]
      conv_lhs => rw [h]
      rw [Int.neg_tdiv]
      simp only [neg_mul, one_mul, neg_inj]
      exact (Int.ofNat_tdiv _ _).symm

theorem tdiv32_small (s : Int) (h1 : -32 < s) (h2 : s < 32) : Int.tdiv s 32 = 0 := by
  rcases Int.le_total 0 s with hs | hs
  · rw [Int.tdiv_eq_ediv hs (by omega)]
    omega
  · have hn : Int.tdiv (-s) 32 = 0 := by
      rw [Int.tdiv_eq_ediv (by omega) (by omega)]
      omega
    rw [Int.neg_tdiv] at hn
    omega

/-- C3.  For Black, `evaluate` returns `sum / 32 + MATERIAL` in `int`
arithmetic, where `sum` is the accumulated table sum: the quotient is
truncated toward zero, it is `sign(sum) * (|sum| / 32)`, so a sum strictly
between -32 and 32 contributes nothing, and the material term is added
unscaled after the division; the result is exactly that integer when it is
within the range of `int`.  `MATERIAL` is the stored balance
`this->material`; when it holds the value of `compute_material`, the score is
`sum / 32 + compute_material()`.  The sum exists, and so does the score, when
the lists fit the arrays, and it is then the sum over the integers reduced to
the range of `int`. -/
theorem evaluate_black (T : Tables) (L : HandLayout) (P : Params) (K : KnRanges)
    (pos : Position) :
    (∀ sum : Int, evalSum32 T L pos = some sum →
        evaluate32 T L pos Color.BLACK = some (wrap32 (Int.tdiv sum 32 + pos.material))
        ∧ (-2147483648 ≤ Int.tdiv sum 32 + pos.material →
            Int.tdiv sum 32 + pos.material ≤ 2147483647 →
            evaluate32 T L pos Color.BLACK = some (Int.tdiv sum 32 + pos.material))
        ∧ (-32 < sum → sum < 32 →
            evaluate32 T L pos Color.BLACK = some (wrap32 pos.material))
        ∧ (pos.material = compute_material P K pos →
            evaluate32 T L pos Color.BLACK
              = some (wrap32 (Int.tdiv sum 32 + compute_material P K pos))))
    ∧ (evalSum32 T L pos = none → evaluate32 T L pos Color.BLACK = none)
    ∧ ((make_list L pos).nlist ≤ NLIST →
        evalSum32 T L pos = some (wrap32 (evalSum T L pos))
        ∧ evaluate32 T L pos Color.BLACK
          = some (wrap32 (Int.tdiv (wrap32 (evalSum T L pos)) 32 + pos.material)))
    ∧ (¬ (make_list L pos).nlist ≤ NLIST → evaluate32 T L pos Color.BLACK = none)
    ∧ (∀ sum : Int, Int.tdiv sum 32 = Int.sign sum * ((sum.natAbs / 32 : Nat) : Int))
    ∧ (∀ sum : Int, -32 < sum → sum < 32 → Int.tdiv sum 32 = 0) := by
  have hb : ∀ sum : Int, evalSum32 T L pos = some sum →
      evaluate32 T L pos Color.BLACK = some (wrap32 (Int.tdiv sum 32 + pos.material)) := by
    intro sum h
    rw [evaluate32_some T L pos Color.BLACK sum h, if_pos rfl]
  refine ⟨fun sum h => ⟨hb sum h, fun h1 h2 => ?_, fun h1 h2 => ?_, fun hm => ?_⟩,
    evaluate32_none T L pos Color.BLACK, fun hn => ?_, fun hn => ?_, tdiv32_sign, tdiv32_small⟩
  · rw [hb sum h, wrap32_of_range _ h1 h2]
  · rw [hb sum h, tdiv32_small sum h1 h2, zero_add]
  · rw [hb sum h, hm]
  · exact ⟨evalSum32_some T L pos hn, hb _ (evalSum32_some T L pos hn)⟩
  · exact evaluate32_none T L pos Color.BLACK (evalSum32_none T L pos hn)

/-- C3, run: with `kk = -31` everywhere and the kings-only board the sum is
-31 and Black's score is the material term alone; on the middle-game position
with the tables `symTables` the lists fit and the score is the truncated
quotient of the sum plus the material balance. -/
theorem evaluate_black_witness :
    evaluate32 smallNegTables sampleLayout kingsOnly Color.BLACK
      = some (wrap32 kingsOnly.material)
    ∧ evaluate32 symTables sampleLayout midPos Color.BLACK
      = some (wrap32 (Int.tdiv (wrap32 (evalSum symTables sampleLayout midPos)) 32
          + midPos.material)) :=
  ⟨((evaluate_black smallNegTables sampleLayout sampleParams sampleRanges kingsOnly).1 (-31)
      (by decide)).2.2.1 (by decide) (by decide),
   ((evaluate_black symTables sampleLayout sampleParams sampleRanges midPos).2.2.1
      (by decide)).2⟩

/-- The sum wraps on tables within the range of their C types: with
`kk = 2147483647` and `kkp = 1` the middle-game position (four entries) has the
sum `2147483651` over the integers, which the `int` variable holds as
`-2147483645`; Black's score is `-2147483645 / 32 - 100 = -67108963`, where the
exact quotient would give `67108764`. -/
theorem evaluate32_wraps :
    evalSum overflowTables sampleLayout midPos = 2147483651
    ∧ evalSum32 overflowTables sampleLayout midPos = some (-2147483645)
    ∧ evaluate32 overflowTables sampleLayout midPos Color.BLACK = some (-67108963)
    ∧ evaluate overflowTables sampleLayout midPos Color.BLACK = 67108764 := by
  decide

/-- When the lists fit the arrays, the sum over the integers is within the
range of `int` and so is the score before the sign is chosen, `evaluate` in
`int` arithmetic returns the value over the integers. -/
theorem evaluate32_exact (T : Tables) (L : HandLayout) (pos : Position) (us : Color)
    (hn : (make_list L pos).nlist ≤ NLIST)
    (h1 : -2147483648 ≤ evalSum T L pos) (h2 : evalSum T L pos ≤ 2147483647)
    (h3 : -2147483647 ≤ Int.tdiv (evalSum T L pos) 32 + pos.material)
    (h4 : Int.tdiv (evalSum T L pos) 32 + pos.material ≤ 2147483647) :
    evaluate32 T L pos us = some (evaluate T L pos us) := by
  rw [evaluate32_some T L pos us _ (evalSum32_some T L pos hn), wrap32_of_range _ h1 h2,
    wrap32_of_range _ (by omega) h4]
  cases us
  · simp [evaluate, FV_SCALE, MATERIAL]
  · rw [wrap32_of_range _ (by omega) (by omega)]
    simp [evaluate, FV_SCALE, MATERIAL]

/-! ## The entries of `make_list` as features and their mirror partners -/

theorem handEntries_eq_features (L : HandLayout) (pos : Position) :
    handEntries L pos = (handFeatures L pos).map (fun ft => (ft.index, ft.mirror.index)) := by
  rw [handEntries, handFeatures, List.map_map]
  rfl

theorem boardEntry_eq_option (p : Piece) (sq : Int) :
    boardEntry p sq
      = ((pieceClass p).map (fun cc =>
          ((Feature.board cc.1 cc.2 sq).index, (Feature.board cc.1 cc.2 sq).mirror.index))).toList := by
  cases p <;> rfl

theorem boardEntries_eq_features (pos : Position) :
    boardEntries pos = (boardFeatures pos).map (fun ft => (ft.index, ft.mirror.index)) := by
  rw [boardEntries, boardFeatures, List.map_filterMap]
  rw [flatMap_option
    (fun z => (pieceClass (pos.ban z)).map (fun cc =>
      ((Feature.board cc.1 cc.2 (z2sq z)).index,
        (Feature.board cc.1 cc.2 (z2sq z)).mirror.index)))
    _ gridCells (fun z _ => boardEntry_eq_option _ _)]
  congr 1
  funext z
  cases pieceClass (pos.ban z) <;> rfl

theorem entries_eq_features (L : HandLayout) (pos : Position) :
    handEntries L pos ++ boardEntries pos
      = (features L pos).map (fun ft => (ft.index, ft.mirror.index)) := by
  rw [features, List.map_append, handEntries_eq_features, boardEntries_eq_features]

theorem getD_map_index (F : List Feature) (g : Feature → Int) (i : Nat) (ft : Feature)
    (h : F[i]? = some ft) : (F.map g).getD i 0 = g ft := by
  rw [List.getD_eq_getElem?_getD, List.getElem?_map, h]
  rfl

/-- C7.  On every board state the two lists of `make_list` are the indices of
the active features and the indices of their mirror partners, entry by entry:
for every `i` below the returned count there is the feature `ft` of entry `i`
with `list0[i] = index(ft)` and `list1[i] = index(mirror(ft))`, where the
mirror partner of a hand feature keeps the count and has the base of the other
colour and the mirror partner of a board feature has the base of the other
colour and the square `80 - sq`.  A hand feature has a positive count and a
board feature a square of the board.  On positions with legal hand counts and
legally placed pawns, lances and knights the relation is also given by the
map `mirrorFeature` on indices. -/
theorem make_list_mirror (L : HandLayout) (pos : Position) :
    (make_list L pos).list0 = (features L pos).map Feature.index
    ∧ (make_list L pos).list1 = (features L pos).map (fun ft => ft.mirror.index)
    ∧ (features L pos).length = (make_list L pos).nlist
    ∧ (∀ i : Nat, i < (make_list L pos).nlist →
        ∃ ft : Feature, (features L pos)[i]? = some ft
          ∧ (make_list L pos).list0.getD i 0 = ft.index
          ∧ (make_list L pos).list1.getD i 0 = ft.mirror.index)
    ∧ (∀ (k : HandKind) (c : Color) (n : Nat),
        (Feature.hand k c n).index = handBase k c + n
        ∧ (Feature.hand k c n).mirror.index = handBase k c.flip + n)
    ∧ (∀ (cls : BoardClass) (c : Color) (sq : Int),
        (Feature.board cls c sq).index = boardBase cls c + sq
        ∧ (Feature.board cls c sq).mirror.index = boardBase cls c.flip + (80 - sq))
    ∧ (∀ ft ∈ features L pos,
        match ft with
        | Feature.hand _ _ n => 1 ≤ n
        | Feature.board _ _ sq => 0 ≤ sq ∧ sq ≤ 80)
    ∧ (LegalHands L pos → LegalBoard pos →
        ∀ i : Nat, i < (make_list L pos).nlist →
          (make_list L pos).list1.getD i 0
            = mirrorFeature ((make_list L pos).list0.getD i 0)) := by
  have h0 : (make_list L pos).list0 = (features L pos).map Feature.index := by
    rw [make_list_list0, entries_eq_features, List.map_map]
    rfl
  have h1 : (make_list L pos).list1 = (features L pos).map (fun ft => ft.mirror.index) := by
    rw [make_list_list1, entries_eq_features, List.map_map]
    rfl
  have hlen : (features L pos).length = (make_list L pos).nlist := by
    rw [Lists.nlist, h0, List.length_map]
  refine ⟨h0, h1, hlen, ?_, ?_, ?_, ?_, ?_⟩
  · intro i hi
    rw [← hlen] at hi
    refine ⟨(features L pos)[i], List.getElem?_eq_getElem hi, ?_, ?_⟩
    · rw [h0]
      exact getD_map_index _ _ i _ (List.getElem?_eq_getElem hi)
    · rw [h1]
      exact getD_map_index _ _ i _ (List.getElem?_eq_getElem hi)
  · intro k c n
    exact ⟨rfl, rfl⟩
  · intro cls c sq
    refine ⟨rfl, ?_⟩
    simp only [Feature.mirror, Feature.index, Inv, nsquare]
    ring
  · intro ft hft
    rcases List.mem_append.1 hft with h | h
    · unfold handFeatures at h
      obtain ⟨s, hs, rfl⟩ := List.mem_map.1 h
      have : 0 < slotCount L pos s := by simpa using (List.mem_filter.1 hs).2
      exact this
    · unfold boardFeatures at h
      obtain ⟨z, hz, hzf⟩ := List.mem_filterMap.1 h
      cases hc : pieceClass (pos.ban z) with
      | none => rw [hc] at hzf; exact absurd hzf (by simp)
      | some cc =>
        rw [hc] at hzf
        simp only [Option.map_some', Option.some.injEq] at hzf
        subst hzf
        exact gridCells_sq z hz
  · intro hh hb i hi
    rw [Lists.nlist, make_list_list0, List.length_map] at hi
    rw [make_list_list0, make_list_list1, getD_map_fst, getD_map_snd]
    exact (entries_mirror L pos hh hb _ (getD_mem _ _ i hi)).1

/-- C7, run on the board with a Black pawn on the first rank, at index 0: the
entry is the feature "Black pawn on square 1" with `list0[0] = f_pawn + 1 = 82`
and `list1[0] = e_pawn + 79 = 241`. -/
theorem make_list_mirror_witness :
    ∃ ft : Feature, (features sampleLayout pawnOnFirstRank)[0]? = some ft
      ∧ (make_list sampleLayout pawnOnFirstRank).list0.getD 0 0 = ft.index
      ∧ (make_list sampleLayout pawnOnFirstRank).list1.getD 0 0 = ft.mirror.index :=
  (make_list_mirror sampleLayout pawnOnFirstRank).2.2.2.1 0 (by decide)

/-- The mirror relation cannot be stated as one map on raw indices for every
board state, which is why it is stated on features: the bands are packed on
the legal squares, so a Black pawn on square 1 gives `list0[0] = f_pawn + 1 = 82`,
`list1[0] = e_pawn + 79 = 241`, and one bishop in White's hand gives
`list0[0] = e_hand_bishop + 1 = 82`, `list1[0] = f_hand_bishop + 1 = 79`. -/
theorem make_list_no_index_map :
    ¬ ∃ m : Int → Int, ∀ (pos : Position) (i : Nat), i < (make_list sampleLayout pos).nlist →
        (make_list sampleLayout pos).list1.getD i 0
          = m ((make_list sampleLayout pos).list0.getD i 0) := by
  rintro ⟨m, hm⟩
  have h1 := hm pawnOnFirstRank 0 (by decide)
  have h2 := hm whiteBishopInHand 0 (by decide)
  have e1 : (make_list sampleLayout pawnOnFirstRank).list1.getD 0 0 = 241 := by decide
  have e2 : (make_list sampleLayout pawnOnFirstRank).list0.getD 0 0 = 82 := by decide
  have e3 : (make_list sampleLayout whiteBishopInHand).list1.getD 0 0 = 79 := by decide
  have e4 : (make_list sampleLayout whiteBishopInHand).list0.getD 0 0 = 82 := by decide
  rw [e1, e2] at h1
  rw [e3, e4] at h2
  rw [← h1] at h2
  exact absurd h2 (by decide)

/-! ## Bounds of the indices that `evaluate` forms -/

/-- C23 (as amended).  When both kings stand on squares of the board, the hand
counts are within the legal maxima and the board holds at most 38 non-king
pieces, every index that `evaluate` forms is in bounds: `make_list` returns at
most `NLIST` entries, so every write to and read from `list0`, `list1` is
within the arrays; the king indices `sq_bk = SQ_BKING`, `SQ_WKING` and
`sq_wk = Inv(SQ_WKING)` are in `[0, nsquare)`, and for every `i < nlist` the
entries `list0[i]` and `list1[i]` (the values of `k0`, `k1`, `l0`, `l1`) are in
`[0, fe_end)`; these are the only indices of the lookups `kk[sq_bk][SQ_WKING]`,
`kkp[sq_bk][SQ_WKING][k0]`, `pc_on_sq[sq_bk][k0][l0]` and
`pc_on_sq[sq_wk][k1][l1]`.  `evaluate` then returns a value. -/
theorem evaluate_indices_in_bounds (L : HandLayout) (pos : Position)
    (hS : 0 ≤ z2sq pos.kingS) (hG : 0 ≤ z2sq pos.kingG) (hh : LegalHands L pos)
    (hbp : boardPieceCount pos ≤ 38) :
    (make_list L pos).nlist ≤ NLIST
    ∧ (make_list L pos).list0.length = (make_list L pos).nlist
    ∧ (make_list L pos).list1.length = (make_list L pos).nlist
    ∧ (0 ≤ SQ_BKING pos ∧ SQ_BKING pos < nsquare)
    ∧ (0 ≤ SQ_WKING pos ∧ SQ_WKING pos < nsquare)
    ∧ (0 ≤ Inv (SQ_WKING pos) ∧ Inv (SQ_WKING pos) < nsquare)
    ∧ (∀ i : Nat, i < (make_list L pos).nlist →
        i < NLIST
        ∧ (0 ≤ (make_list L pos).list0.getD i 0 ∧ (make_list L pos).list0.getD i 0 < fe_end)
        ∧ (0 ≤ (make_list L pos).list1.getD i 0 ∧ (make_list L pos).list1.getD i 0 < fe_end))
    ∧ (∀ f ∈ (make_list L pos).list0, 0 ≤ f ∧ f < fe_end)
    ∧ (∀ f ∈ (make_list L pos).list1, 0 ≤ f ∧ f < fe_end)
    ∧ (∀ (T : Tables) (us : Color), ∃ v : Int, evaluate32 T L pos us = some v) := by
  have bS := z2sq_le pos.kingS
  have bG := z2sq_le pos.kingG
  have hE := entries_range L pos hh
  have hn : (make_list L pos).nlist ≤ NLIST := by
    have h1 := make_list_nlist L pos
    have h2 := handEntries_length_le L pos
    rw [NLIST]
    omega
  refine ⟨hn, rfl, ?_, ?_, ?_, ?_, ?_, ?_, ?_, ?_⟩
  · rw [Lists.nlist, make_list_list1, make_list_list0, List.length_map, List.length_map]
  · simp only [SQ_BKING, nsquare]
    omega
  · simp only [SQ_WKING, nsquare]
    omega
  · simp only [SQ_WKING, Inv, nsquare]
    omega
  · intro i hi
    refine ⟨lt_of_lt_of_le hi hn, ?_⟩
    rw [Lists.nlist, make_list_list0, List.length_map] at hi
    rw [make_list_list0, make_list_list1, getD_map_fst, getD_map_snd]
    exact hE _ (getD_mem _ _ i hi)
  · intro f hf
    rw [make_list_list0] at hf
    obtain ⟨e, he, rfl⟩ := List.mem_map.1 hf
    exact (hE e he).1
  · intro f hf
    rw [make_list_list1] at hf
    obtain ⟨e, he, rfl⟩ := List.mem_map.1 hf
    exact (hE e he).2
  · intro T us
    exact ⟨_, evaluate32_some T L pos us _ (evalSum32_some T L pos hn)⟩

/-- C23 (as amended), run on a middle-game position. -/
theorem evaluate_indices_in_bounds_witness :
    (0 ≤ z2sq midPos.kingS ∧ 0 ≤ z2sq midPos.kingG ∧ LegalHands sampleLayout midPos
      ∧ boardPieceCount midPos ≤ 38)
    ∧ (make_list sampleLayout midPos).nlist ≤ NLIST
    ∧ (0 ≤ SQ_BKING midPos ∧ SQ_BKING midPos < nsquare)
    ∧ (0 ≤ SQ_WKING midPos ∧ SQ_WKING midPos < nsquare)
    ∧ (0 ≤ Inv (SQ_WKING midPos) ∧ Inv (SQ_WKING midPos) < nsquare)
    ∧ (∀ f ∈ (make_list sampleLayout midPos).list0, 0 ≤ f ∧ f < fe_end)
    ∧ (∀ f ∈ (make_list sampleLayout midPos).list1, 0 ≤ f ∧ f < fe_end) :=
  have h := evaluate_indices_in_bounds sampleLayout midPos (by decide) (by decide)
    (by unfold LegalHands; decide) (by decide)
  ⟨⟨by decide, by decide, by unfold LegalHands; decide, by decide⟩, h.1, h.2.2.2.1,
    h.2.2.2.2.1, h.2.2.2.2.2.1, h.2.2.2.2.2.2.2.1, h.2.2.2.2.2.2.2.2.1⟩

/-- C23 (as stated) fails.  The board with the two kings and 53 Black silvers
has both kings on the board and empty hands, hence hand counts within the
legal maxima and every piece on a square legal for it, but `make_list` returns
53 entries: the writes `list0[52]`, `list1[52]` and the reads of them are
outside the arrays `int list0[52], list1[52]` of `evaluate`, which returns no
value. -/
theorem evaluate_indices_crowded_fails :
    0 ≤ z2sq crowdedPos.kingS ∧ 0 ≤ z2sq crowdedPos.kingG
    ∧ LegalHands sampleLayout crowdedPos ∧ LegalBoard crowdedPos
    ∧ boardPieceCount crowdedPos = 53
    ∧ (make_list sampleLayout crowdedPos).nlist = 53
    ∧ ¬ (make_list sampleLayout crowdedPos).nlist ≤ NLIST
    ∧ evaluate32 zeroTables sampleLayout crowdedPos Color.BLACK = none := by
  refine ⟨by decide, by decide, by unfold LegalHands; decide, by unfold LegalBoard; decide,
    by decide, by decide, by decide, by decide⟩

/-! ## Sign, zero tables and the mirrored board in `int` arithmetic -/

/-- In `int` arithmetic the value for White is the negation, reduced to the
range of `int`, of the value for Black. -/
theorem evaluate32_white (T : Tables) (L : HandLayout) (pos : Position) :
    evaluate32 T L pos Color.WHITE
      = (evaluate32 T L pos Color.BLACK).map (fun b => wrap32 (-b)) := by
  cases h : evalSum32 T L pos with
  | none => rw [evaluate32_none T L pos _ h, evaluate32_none T L pos _ h]; rfl
  | some sum =>
    rw [evaluate32_some T L pos _ sum h, evaluate32_some T L pos _ sum h]
    simp

/-- With all-zero tables and lists that fit the arrays, `evaluate` in `int`
arithmetic returns the stored material balance for Black. -/
theorem evaluate32_zero_tables (T : Tables) (L : HandLayout) (pos : Position)
    (hkk : ∀ a b, T.kk a b = 0) (hkkp : ∀ a b f, T.kkp a b f = 0)
    (hpc : ∀ k f g, T.pc_on_sq k f g = 0)
    (hn : (make_list L pos).nlist ≤ NLIST) :
    evaluate32 T L pos Color.BLACK = some (wrap32 pos.material) := by
  have hs : evalSum T L pos = 0 := by
    rw [evalSum_eq]
    simp [hkk, hkkp, hpc]
  have h := evalSum32_some T L pos hn
  rw [hs] at h
  rw [evaluate32_some T L pos _ _ h, if_pos rfl]
  have h0 : wrap32 0 = 0 := by decide
  simp [h0]

theorem make_list_nlist_mirror (L : HandLayout) (P : Params) (K : KnRanges) (pos : Position) :
    (make_list L (mirrorPos P K pos)).nlist = (make_list L pos).nlist := by
  rw [Lists.nlist, Lists.nlist, make_list_list0, make_list_list0, List.length_map,
    List.length_map, (entries_mirror_perm L P K pos).length_eq, List.length_map]

theorem wrap32_neg (x : Int) (h : wrap32 x ≠ -2147483648) : wrap32 (-x) = -wrap32 x := by
  unfold wrap32 at *
  omega

theorem wrap32_neg_neg (y : Int) : wrap32 (-wrap32 (-y)) = wrap32 y := by
  unfold wrap32
  omega

/-- The side-relative symmetry in `int` arithmetic: under the conditions on
the tables and the position, when the lists fit the arrays and the `int` sum
is not the one value `-2^31` whose negation is not an `int`, `evaluate` returns
for a colour what it returns on the mirrored board for the opposite colour. -/
theorem evaluate32_mirror (T : Tables) (L : HandLayout) (P : Params) (K : KnRanges)
    (pos : Position) (c : Color)
    (hpc : ∀ k : Int, 0 ≤ k → k ≤ 80 → ∀ f g : Feature, f.emittable → g.emittable →
      T.pc_on_sq k f.index g.index = T.pc_on_sq k g.index f.index)
    (hkk : ∀ a b : Int, 0 ≤ a → a ≤ 80 → 0 ≤ b → b ≤ 80 →
      T.kk a b = -T.kk (80 - b) (80 - a))
    (hkkp : ∀ a b : Int, 0 ≤ a → a ≤ 80 → 0 ≤ b → b ≤ 80 → ∀ f : Feature, f.emittable →
      T.kkp a b f.index = -T.kkp (80 - b) (80 - a) f.mirror.index)
    (hS : 0 ≤ z2sq pos.kingS) (hG : 0 ≤ z2sq pos.kingG)
    (hh : LegalHands L pos) (hb : LegalBoard pos)
    (hm : pos.material = compute_material P K pos)
    (hn : (make_list L pos).nlist ≤ NLIST)
    (hmin : wrap32 (evalSum T L pos) ≠ -2147483648) :
    evaluate32 T L pos c = evaluate32 T L (mirrorPos P K pos) c.flip := by
  have hs := evalSum_mirror_features T L P K pos hpc hkk hkkp hS hG hh hb
  have hmat : (mirrorPos P K pos).material = -pos.material := by
    rw [mirrorPos_material, hm]
  have hn' : (make_list L (mirrorPos P K pos)).nlist ≤ NLIST := by
    rw [make_list_nlist_mirror]
    exact hn
  have e1 := evalSum32_some T L pos hn
  have e2 := evalSum32_some T L (mirrorPos P K pos) hn'
  rw [hs, wrap32_neg _ hmin] at e2
  rw [evaluate32_some T L pos c _ e1, evaluate32_some T L (mirrorPos P K pos) c.flip _ e2,
    hmat, Int.neg_tdiv]
  generalize Int.tdiv (wrap32 (evalSum T L pos)) 32 = q
  generalize pos.material = m
  cases c
  · simp only [Color.flip, if_true, reduceCtorEq, if_false, Option.some.injEq]
    unfold wrap32
    omega
  · simp only [Color.flip, if_true, reduceCtorEq, if_false, Option.some.injEq]
    unfold wrap32
    omega

end Nanoha
